import Mathlib

/-!
# ldwm: window arrangement and focus state

A shallow embedding of `src/ldwm.c` (with the constants of `src/config.def.h`)
and theorems about it.

Conventions of the embedding.

* A C `int` is an `Int`.  Signed overflow is undefined in C and is not modelled:
  signed arithmetic is exact.
* A C `unsigned int` is a `Nat` below `2^32`.  Unsigned arithmetic is reduced
  modulo `2^32` by `u32`, and an unsigned value passed where an `int` is expected is
  converted by `i32` (two's complement).
* A C `float` or `double` is the rational number it holds; NaN and the infinities are not
  modelled.  The arithmetic on the split factor `mfact` (in `setmfact`, `tile` and
  `tilegap`) is the arithmetic of IEEE 754 in which every operation is rounded to its own
  type, to nearest with ties to even: `f32` rounds a result to single precision
  (`float`), `f64` to double precision (`double`, the type of a constant such as `0.1`).
  Conversion to an integer truncates toward zero as in C.  The aspect ratios `mina` and
  `maxa` of the size hints are kept as exact rationals: the rounding of the arithmetic on
  them is not modelled.
* A `Client *` is an address (`Nat`), `NULL` is `none`.  The client records live in a
  memory `Nat → Client`.  The two singly linked lists of the monitor (`clients` through
  `next`, `stack` through `snext`) are the lists of the addresses they link, head first.
* The two-element arrays `tagset[2]`, `lt[2]` and the indices `seltags`, `sellt` into them
  (only ever assigned `0`, or toggled with `^= 1`) are functions on `Bool` and booleans.
* The arrays of `Pertag`, of length `LENGTH(tags) + 1`, are functions on `Nat`.
* Calls to the display server (Xlib) have no effect on the modelled state and are left
  out; what the server returns is an explicit argument.
* Where a command can run into undefined behaviour (the shift by `curtag - 1` in
  `toggleview` when `curtag` is 0, the call `pop(NULL)` in `zoom`) the function returns an
  `Option`, and `none` stands for the undefined run.  Since `toggleview` reaches its
  undefined shift after an ordinary `view(~0)`, the reachable states also include what a
  run of `toggleview` through that shift leaves behind: `toggleviewRun` is `toggleview`
  with the value that the undefined expression takes as an argument, and the reachable
  states are closed under it for every such value.
-/

namespace Ldwm

/-! ## Machine integers -/

/-- Conversion of an integer to `unsigned int`: reduction modulo `2^32`. -/
def u32 (z : Int) : Nat := (z % 4294967296).toNat

/-- Conversion of an `unsigned int` to `int` (two's complement). -/
def i32 (n : Nat) : Int :=
  if n % 4294967296 < 2147483648 then ((n % 4294967296 : Nat) : Int)
  else ((n % 4294967296 : Nat) : Int) - 4294967296

/-- Conversion of a floating point value to an integer: truncation toward zero. -/
def truncQ (q : Rat) : Int := q.num.tdiv q.den

/-! ## Floating point -/

/-- The power `2 ^ e` of two, for an integer exponent. -/
def pow2 (e : Int) : Rat :=
  if 0 ≤ e then ((2 ^ e.toNat : Nat) : Rat) else 1 / ((2 ^ (-e).toNat : Nat) : Rat)

/-- The number of binary digits of `n`, counted by at most `fuel` halvings. -/
def bitlenFrom : Nat → Nat → Nat
  | 0, _ => 0
  | fuel + 1, n => if n = 0 then 0 else bitlenFrom fuel (n / 2) + 1

/-- The number of binary digits of `n`: 0 for 0, and `k + 1` when `2 ^ k ≤ n < 2 ^ (k + 1)`. -/
def bitlen (n : Nat) : Nat := bitlenFrom n n

/-- The binary exponent of a positive rational `q`: the integer `e` with
`2 ^ e ≤ q < 2 ^ (e + 1)`.  The difference of the digit counts of numerator and
denominator is `e` or `e + 1`. -/
def ilog2 (q : Rat) : Int :=
  let e : Int := (bitlen q.num.toNat : Int) - (bitlen q.den : Int)
  if pow2 e ≤ q then e else e - 1

/-- Rounding to the nearest integer, a tie going to the even one. -/
def roundEven (q : Rat) : Int :=
  let n := Rat.floor q
  let r := q - (n : Rat)
  if r < 1 / 2 then n
  else if 1 / 2 < r then n + 1
  else if n % 2 = 0 then n else n + 1

/-- Rounding of a real result to a binary floating point format with `p` significand bits
whose smallest positive (subnormal) number is `2 ^ emin`: the nearest multiple of the unit
in the last place of `q`, a tie going to the even multiple (the IEEE 754 default).  Results
beyond the largest finite number of the format (overflow) are not modelled. -/
def roundBin (p : Nat) (emin : Int) (q : Rat) : Rat :=
  if q = 0 then 0
  else
    let e := max (ilog2 |q| - ((p : Int) - 1)) emin
    (roundEven (q / pow2 e) : Rat) * pow2 e

/-- Rounding to a `float`: IEEE 754 binary32, 24 significand bits. -/
def f32 (q : Rat) : Rat := roundBin 24 (-149) q

/-- Rounding to a `double`: IEEE 754 binary64, 53 significand bits. -/
def f64 (q : Rat) : Rat := roundBin 53 (-1074) q

/-- The value of `~0` as an `unsigned int`. -/
def allOnes : Nat := 4294967295

/-- The expression `1 << n` for an unsigned shift amount `n`; undefined (`none`) when the
amount is not below the width of `int`. -/
def shl1 (n : Nat) : Option Nat := if n < 32 then some (1 <<< n) else none

/-- Loop `for (i = start; !(v & 1 << i); i++) ;` run for at most `fuel` iterations. -/
def lowbitFrom (v : Nat) : Nat → Nat → Nat
  | 0, i => i
  | fuel + 1, i => if v &&& (1 <<< i) ≠ 0 then i else lowbitFrom v fuel (i + 1)

/-- The loop `for (i=0; !(v & 1 << i); i++) ;` of `view` and `toggleview`: the position
of the lowest set bit of a non-zero 32 bit value. -/
def lowbit (v : Nat) : Nat := lowbitFrom v 32 0

/-! ## Data model -/

/-- The `struct Client`, without the links `next`, `snext`. -/
structure Client where
  name : String
  mina : Rat
  maxa : Rat
  x : Int
  y : Int
  w : Int
  h : Int
  oldx : Int
  oldy : Int
  oldw : Int
  oldh : Int
  basew : Int
  baseh : Int
  incw : Int
  inch : Int
  maxw : Int
  maxh : Int
  minw : Int
  minh : Int
  bw : Int
  oldbw : Int
  tags : Nat
  isfixed : Bool
  isfloating : Bool
  isurgent : Bool
  neverfocus : Bool
  oldstate : Bool
  isfullscreen : Bool
  win : Nat
  deriving DecidableEq

/-- A client as `calloc` returns it: every field zero. -/
def Client.zero : Client :=
  { name := "", mina := 0, maxa := 0, x := 0, y := 0, w := 0, h := 0,
    oldx := 0, oldy := 0, oldw := 0, oldh := 0,
    basew := 0, baseh := 0, incw := 0, inch := 0, maxw := 0, maxh := 0, minw := 0, minh := 0,
    bw := 0, oldbw := 0, tags := 0,
    isfixed := false, isfloating := false, isurgent := false, neverfocus := false,
    oldstate := false, isfullscreen := false, win := 0 }

instance : Inhabited Client := ⟨Client.zero⟩

/-- The arrange functions a `Layout` can point to. -/
inductive ArrangeFn where
  | tile
  | tilegap
  | floating
  | monocle
  deriving DecidableEq, Repr

/-- The `Layout` record: a symbol and an arrange function, which may be `NULL`. -/
structure Layout where
  symbol : String
  arrange : Option ArrangeFn
  deriving DecidableEq, Repr

/-- The `struct Pertag`. -/
structure Pertag where
  curtag : Nat
  prevtag : Nat
  nmasters : Nat → Int
  mfacts : Nat → Rat
  sellts : Nat → Bool
  ltidxs : Nat → Bool → Layout

/-- The `struct Monitor` (`by` is named `barY`; `num` and `barwin` are not modelled). -/
structure Monitor where
  ltsymbol : String
  mfact : Rat
  nmaster : Int
  barY : Int
  mx : Int
  my : Int
  mw : Int
  mh : Int
  wx : Int
  wy : Int
  ww : Int
  wh : Int
  seltags : Bool
  sellt : Bool
  tagset : Bool → Nat
  showbar : Bool
  topbar : Bool
  clients : List Nat
  sel : Option Nat
  stack : List Nat
  lt : Bool → Layout
  pertag : Pertag

/-- A `Rule` of the configuration (`class` and `instance` are named `cls` and `inst`). -/
structure Rule where
  cls : Option String
  inst : Option String
  title : Option String
  tags : Nat
  isfloating : Bool
  deriving DecidableEq, Repr

/-- The configuration constants of `config.h` and the global variables that are set once
by `setup`.  `singlegap`, `showbar` and `topbar` are used by `ldwm.c` but are not
defined in `config.def.h`; they are parameters here.  `fontheight` is `dc.font.height`;
`mfact` is the value of the `float` constant. -/
structure Env where
  ntags : Nat
  rules : List Rule
  layouts : List Layout
  mfact : Rat
  nmaster : Int
  resizehints : Bool
  borderpx : Nat
  paddingpx : Nat
  singlegap : Bool
  showbar : Bool
  topbar : Bool
  sw : Int
  sh : Int
  fontheight : Nat

/-- The bar height: `bh = dc.h = dc.font.height + 2` in `setup`. -/
def bh (env : Env) : Int := (env.fontheight : Int) + 2

/-- The macro `TAGMASK`, `((1 << LENGTH(tags)) - 1)`. -/
def TAGMASK (env : Env) : Nat := (1 <<< env.ntags) - 1

/-- The whole state: the monitor `mons` and the memory holding the client records. -/
structure WM where
  mons : Monitor
  mem : Nat → Client

/-- The macro `WIDTH`. -/
def WIDTH (c : Client) : Int := c.w + 2 * c.bw

/-- The macro `HEIGHT`. -/
def HEIGHT (c : Client) : Int := c.h + 2 * c.bw

/-- The macro `ISVISIBLE`: `C->tags & mons->tagset[mons->seltags]`. -/
def ISVISIBLE (m : Monitor) (c : Client) : Bool := (c.tags &&& m.tagset m.seltags) != 0

/-! ## Size hints -/

/-- The comparison `a < (float)p / q` for integers `p`, `q`: a division by zero gives an
infinity of the sign of `p`, or a NaN, which compares false. -/
def ltDiv (a : Rat) (p q : Int) : Bool :=
  if q = 0 then decide (0 < p) else decide (a < (p : Rat) / (q : Rat))

/-- The geometry `applysizehints` writes back through its pointer arguments, and its
return value `changed`. -/
structure Hinted where
  x : Int
  y : Int
  w : Int
  h : Int
  changed : Bool
  deriving DecidableEq, Repr

/-- The body of the block `if(resizehints || c->isfloating || !mons->lt[mons->sellt]->arrange)`
of `applysizehints`: the adjustment of the size `w`, `h` to the hints of the client. -/
def hintsize (c : Client) (w h : Int) : Int × Int :=
  let baseismin := decide (c.basew = c.minw) && decide (c.baseh = c.minh)
  let w1 := if !baseismin then w - c.basew else w
  let h1 := if !baseismin then h - c.baseh else h
  let aspect := decide (c.mina > 0) && decide (c.maxa > 0)
  let wide := aspect && ltDiv c.maxa w1 h1
  let tall := aspect && !wide && ltDiv c.mina h1 w1
  let w2 := if wide then truncQ ((h1 : Rat) * c.maxa + 1 / 2) else w1
  let h2 := if tall then truncQ ((w1 : Rat) * c.mina + 1 / 2) else h1
  let w3 := if baseismin then w2 - c.basew else w2
  let h3 := if baseismin then h2 - c.baseh else h2
  let w4 := if c.incw ≠ 0 then w3 - w3.tmod c.incw else w3
  let h4 := if c.inch ≠ 0 then h3 - h3.tmod c.inch else h3
  let w5 := max (w4 + c.basew) c.minw
  let h5 := max (h4 + c.baseh) c.minh
  let w6 := if c.maxw ≠ 0 then min w5 c.maxw else w5
  let h6 := if c.maxh ≠ 0 then min h5 c.maxh else h5
  (w6, h6)

/-- The function `applysizehints`. -/
def applysizehints (env : Env) (m : Monitor) (c : Client) (x y w h : Int) (interact : Bool) :
    Hinted :=
  let w := max 1 w
  let h := max 1 h
  let x := if interact then (if x > env.sw then env.sw - WIDTH c else x)
           else (if x ≥ m.wx + m.ww then m.wx + m.ww - WIDTH c else x)
  let y := if interact then (if y > env.sh then env.sh - HEIGHT c else y)
           else (if y ≥ m.wy + m.wh then m.wy + m.wh - HEIGHT c else y)
  let x := if interact then (if x + w + 2 * c.bw < 0 then 0 else x)
           else (if x + w + 2 * c.bw ≤ m.wx then m.wx else x)
  let y := if interact then (if y + h + 2 * c.bw < 0 then 0 else y)
           else (if y + h + 2 * c.bw ≤ m.wy then m.wy else y)
  let h := if h < bh env then bh env else h
  let w := if w < bh env then bh env else w
  let wh := if env.resizehints || c.isfloating || (m.lt m.sellt).arrange.isNone then
              hintsize c w h
            else (w, h)
  { x := x, y := y, w := wh.1, h := wh.2,
    changed := decide (x ≠ c.x) || decide (y ≠ c.y) || decide (wh.1 ≠ c.w)
               || decide (wh.2 ≠ c.h) }

/-- The function `resizeclient`, on the client record. -/
def resizeclient (c : Client) (x y w h : Int) : Client :=
  { c with oldx := c.x, x := x, oldy := c.y, y := y, oldw := c.w, w := w, oldh := c.h, h := h }

/-- The function `resize`, on the client record. -/
def resize (env : Env) (m : Monitor) (c : Client) (x y w h : Int) (interact : Bool) : Client :=
  let r := applysizehints env m c x y w h interact
  if r.changed then resizeclient c r.x r.y r.w r.h else c

/-- Store a client record at an address. -/
def WM.store (s : WM) (a : Nat) (c : Client) : WM :=
  { s with mem := Function.update s.mem a c }

/-! ## The client lists -/

/-- The loop `for(c = l; c && !ISVISIBLE(c); c = c->snext);`: the first visible client of
a list, if any. -/
def firstvisible (m : Monitor) (mem : Nat → Client) : List Nat → Option Nat
  | [] => none
  | a :: l => if ISVISIBLE m (mem a) then some a else firstvisible m mem l

/-- The pointer manipulation of `detach` and `detachstack`,
`for(tc = &head; *tc && *tc != c; tc = &(*tc)->next); *tc = c->next;`, on the list of
linked addresses: the clients before `c` stay and the link that stops the scan (the one
holding `c`, or the terminating `NULL` when `c` is not in the list) is overwritten with
`c->next`, whose chain is `cnext`. -/
def unlink (c : Nat) (cnext : List Nat) : List Nat → List Nat
  | [] => cnext
  | a :: l => if a = c then cnext else a :: unlink c cnext l

/-- The chain `c->next` of a client linked in the list `l`: what follows `c`.  (The `next`
link of a client that is in no list is not modelled; it is taken to be `NULL`.) -/
def chainAfter (c : Nat) : List Nat → List Nat
  | [] => []
  | a :: l => if a = c then l else chainAfter c l

/-- The function `attach`. -/
def attach (s : WM) (c : Nat) : WM :=
  { s with mons := { s.mons with clients := c :: s.mons.clients } }

/-- The function `attachstack`. -/
def attachstack (s : WM) (c : Nat) : WM :=
  { s with mons := { s.mons with stack := c :: s.mons.stack } }

/-- The function `detach`, for a client linked in the insertion list. -/
def detach (s : WM) (c : Nat) : WM :=
  { s with mons := { s.mons with
      clients := unlink c (chainAfter c s.mons.clients) s.mons.clients } }

/-- The function `detachstack`, for a client linked in the stack list. -/
def detachstack (s : WM) (c : Nat) : WM :=
  let stack := unlink c (chainAfter c s.mons.stack) s.mons.stack
  let m1 : Monitor := { s.mons with stack := stack }
  if s.mons.sel = some c then
    { s with mons := { m1 with sel := firstvisible m1 s.mem stack } }
  else { s with mons := m1 }

/-- The function `nexttiled`: the part of the list that starts at the first client that
is neither floating nor invisible. -/
def nexttiled (m : Monitor) (mem : Nat → Client) : List Nat → List Nat
  | [] => []
  | a :: l => if (mem a).isfloating || !ISVISIBLE m (mem a) then nexttiled m mem l else a :: l

/-- The function `wintoclient`. -/
def wintoclient (s : WM) (w : Nat) : Option Nat :=
  s.mons.clients.find? (fun a => (s.mem a).win == w)

/-! ## Focus -/

/-- The function `clearurgent`. -/
def clearurgent (s : WM) (c : Nat) : WM :=
  s.store c { s.mem c with isurgent := false }

/-- The first statement of `focus`: `if(!c || !ISVISIBLE(c)) for(c = mons->stack;
c && !ISVISIBLE(c); c = c->snext);`. -/
def focustarget (s : WM) : Option Nat → Option Nat
  | none => firstvisible s.mons s.mem s.mons.stack
  | some a => if !ISVISIBLE s.mons (s.mem a) then firstvisible s.mons s.mem s.mons.stack
              else some a

/-- The function `focus`. -/
def focus (s : WM) (c : Option Nat) : WM :=
  match focustarget s c with
  | some a =>
    let s1 := if (s.mem a).isurgent then clearurgent s a else s
    let s2 := detachstack s1 a
    let s3 := attachstack s2 a
    { s3 with mons := { s3.mons with sel := some a } }
  | none => { s with mons := { s.mons with sel := none } }

/-! ## Layouts -/

/-- The function `showhide`, over the stack list: every visible client that is floating
(or when the layout has no arrange function) and not fullscreen is resized to its own
geometry. -/
def showhide (env : Env) (m : Monitor) : List Nat → (Nat → Client) → (Nat → Client)
  | [], mem => mem
  | a :: l, mem =>
    if ISVISIBLE m (mem a) then
      if ((m.lt m.sellt).arrange.isNone || (mem a).isfloating) && !(mem a).isfullscreen then
        showhide env m l (Function.update mem a
          (resize env m (mem a) (mem a).x (mem a).y (mem a).w (mem a).h false))
      else showhide env m l mem
    else showhide env m l mem

/-- The counting loop of `monocle`: `for(c = mons->clients; c; c = c->next)
if(ISVISIBLE(c)) n++;`. -/
def countvisible (m : Monitor) (mem : Nat → Client) : List Nat → Nat
  | [] => 0
  | a :: l => if ISVISIBLE m (mem a) then countvisible m mem l + 1 else countvisible m mem l

/-- The resizing loop of `monocle`,
`for(c = nexttiled(mons->clients); c; c = nexttiled(c->next)) resize(...)`. -/
def monocleLoop (env : Env) (m : Monitor) : List Nat → (Nat → Client) → (Nat → Client)
  | [], mem => mem
  | a :: l, mem =>
    if (mem a).isfloating || !ISVISIBLE m (mem a) then monocleLoop env m l mem
    else monocleLoop env m l (Function.update mem a
      (resize env m (mem a) m.wx m.wy (m.ww - 2 * (mem a).bw) (m.wh - 2 * (mem a).bw) false))

/-- The function `monocle`. -/
def monocle (env : Env) (s : WM) : WM :=
  let n := countvisible s.mons s.mem s.mons.clients
  let m1 : Monitor :=
    if n > 0 then { s.mons with ltsymbol := "[" ++ toString (i32 n) ++ "]" } else s.mons
  { mons := m1, mem := monocleLoop env m1 m1.clients s.mem }

/-- The counting loop of `tile`:
`for(n = 0, c = nexttiled(mons->clients); c; c = nexttiled(c->next), n++);`. -/
def counttiled (m : Monitor) (mem : Nat → Client) : List Nat → Nat
  | [] => 0
  | a :: l =>
    if (mem a).isfloating || !ISVISIBLE m (mem a) then counttiled m mem l
    else counttiled m mem l + 1

/-- The expression `MIN(n, mons->nmaster)` of `tile`, an unsigned comparison. -/
def minMaster (n : Nat) (nmaster : Int) : Nat := if n < u32 nmaster then n else u32 nmaster

/-- The placement loop of `tile`, with the loop variables `i`, `my`, `ty`. -/
def tileLoop (env : Env) (m : Monitor) (n mw numgaps : Nat) :
    List Nat → Nat → Nat → Nat → (Nat → Client) → (Nat → Client)
  | [], _, _, _, mem => mem
  | a :: l, i, my, ty, mem =>
    let c := mem a
    if c.isfloating || !ISVISIBLE m c then tileLoop env m n mw numgaps l i my ty mem
    else if i < u32 m.nmaster then
      let h := u32 (m.wh - my) / u32 ((minMaster n m.nmaster : Int) - i)
      let c1 := resize env m c m.wx (i32 (u32 (m.wy + my)))
        (i32 (u32 ((mw : Int) - numgaps * c.bw))) (i32 (u32 ((h : Int) - 2 * c.bw))) false
      tileLoop env m n mw numgaps l (i + 1) (u32 (my + HEIGHT c1)) ty (Function.update mem a c1)
    else
      let h := u32 (m.wh - ty) / u32 ((n : Int) - i)
      let c1 := resize env m c (i32 (u32 (m.wx + mw))) (i32 (u32 (m.wy + ty)))
        (i32 (u32 (m.ww - mw - 2 * c.bw))) (i32 (u32 ((h : Int) - 2 * c.bw))) false
      tileLoop env m n mw numgaps l (i + 1) my
        (u32 (ty + HEIGHT c1 - (2 - (numgaps : Int)) * c1.bw)) (Function.update mem a c1)

/-- The expression `(singlegap && n != 1) ? 1 : 2` of `tile` and `tilegap`. -/
def numgapsOf (env : Env) (n : Nat) : Nat := if env.singlegap && n != 1 then 1 else 2

/-- The width `mw` of the master area computed by `tile` and `tilegap`:
`mw = mons->nmaster ? mons->ww * mons->mfact : 0` when `n > mons->nmaster`, and
`mons->ww` otherwise.  In the product the `int` `ww` is converted to `float`, the product
is a `float` multiplication, and its rounded result is converted to the `unsigned int`
`mw`. -/
def masterWidth (m : Monitor) (n : Nat) : Nat :=
  if n > u32 m.nmaster then
    (if m.nmaster ≠ 0 then u32 (truncQ (f32 (f32 (m.ww : Rat) * m.mfact))) else 0)
  else u32 m.ww

/-- The function `tile`. -/
def tile (env : Env) (s : WM) : WM :=
  let n := counttiled s.mons s.mem s.mons.clients
  if n = 0 then s
  else
    { s with mem := (tileLoop env s.mons n (masterWidth s.mons n) (numgapsOf env n)
        s.mons.clients 0 0 0 s.mem) }

/-- The placement loop of `tilegap`. -/
def tilegapLoop (env : Env) (m : Monitor) (n mw numgaps : Nat) :
    List Nat → Nat → Nat → Nat → (Nat → Client) → (Nat → Client)
  | [], _, _, _, mem => mem
  | a :: l, i, my, ty, mem =>
    let c := mem a
    let p : Int := env.paddingpx
    if c.isfloating || !ISVISIBLE m c then tilegapLoop env m n mw numgaps l i my ty mem
    else if i < u32 m.nmaster then
      let h := u32 (m.wh - my) / u32 ((minMaster n m.nmaster : Int) - i)
      let c1 := resize env m c (i32 (u32 (m.wx + p))) (i32 (u32 (m.wy + my + p)))
        (i32 (u32 ((mw : Int) - numgaps * (c.bw + p))))
        (i32 (u32 ((h : Int) - 2 * (c.bw + p)))) false
      tilegapLoop env m n mw numgaps l (i + 1) (u32 (my + HEIGHT c1 + p)) ty
        (Function.update mem a c1)
    else
      let h := u32 (m.wh - ty) / u32 ((n : Int) - i)
      let c1 := resize env m c (i32 (u32 (m.wx + mw + p))) (i32 (u32 (m.wy + ty + p)))
        (i32 (u32 (m.ww - mw - 2 * (c.bw + p)))) (i32 (u32 ((h : Int) - 2 * (c.bw + p)))) false
      tilegapLoop env m n mw numgaps l (i + 1) my
        (u32 (ty + HEIGHT c1 + numgaps * p - (2 - (numgaps : Int)) * c1.bw))
        (Function.update mem a c1)

/-- The function `tilegap`. -/
def tilegap (env : Env) (s : WM) : WM :=
  let n := counttiled s.mons s.mem s.mons.clients
  if n = 0 then s
  else
    { s with mem := (tilegapLoop env s.mons n (masterWidth s.mons n) (numgapsOf env n)
        s.mons.clients 0 0 0 s.mem) }

/-- Modelled from the spec: the arrange function `floating` of the floating layout, which
`config.def.h` names but `ldwm.c` does not define.  The spec: "Floating: no-op; clients
keep whatever geometry they were given". -/
def floating (s : WM) : WM := s

/-- Call of an arrange function through the pointer `lt[sellt]->arrange`. -/
def runArrange (env : Env) (s : WM) : ArrangeFn → WM
  | ArrangeFn.tile => tile env s
  | ArrangeFn.tilegap => tilegap env s
  | ArrangeFn.floating => floating s
  | ArrangeFn.monocle => monocle env s

/-- The function `arrange` (`restack` only talks to the display server). -/
def arrange (env : Env) (s : WM) : WM :=
  let mem1 := showhide env s.mons s.mons.stack s.mem
  let s1 : WM :=
    { mons := { s.mons with ltsymbol := (s.mons.lt s.mons.sellt).symbol }, mem := mem1 }
  match (s1.mons.lt s1.mons.sellt).arrange with
  | some f => runArrange env s1 f
  | none => s1

/-! ## Managing clients -/

/-- Test whether `needle` starts the text `hay`. -/
def startsWith : List Char → List Char → Bool
  | [], _ => true
  | _ :: _, [] => false
  | a :: needle, b :: hay => a == b && startsWith needle hay

/-- The library function `strstr` as a test, on lists of characters. -/
def strstrChars (needle : List Char) : List Char → Bool
  | [] => needle.isEmpty
  | b :: hay => startsWith needle (b :: hay) || strstrChars needle hay

/-- The test `strstr(hay, needle) != NULL`. -/
def strstr (hay needle : String) : Bool := strstrChars needle.data hay.data

/-- The constant `broken`. -/
def broken : String := "broken"

/-- The rule matching loop of `applyrules`, accumulating `isfloating` and `tags`. -/
def matchrules (name cls inst : String) : List Rule → Bool → Nat → Bool × Nat
  | [], fl, tg => (fl, tg)
  | r :: rs, fl, tg =>
    if (r.title.isNone || strstr name (r.title.getD ""))
        && (r.cls.isNone || strstr cls (r.cls.getD ""))
        && (r.inst.isNone || strstr inst (r.inst.getD "")) then
      matchrules name cls inst rs r.isfloating (tg ||| r.tags)
    else matchrules name cls inst rs fl tg

/-- The function `applyrules`; `resClass` and `resName` are what `XGetClassHint` returns. -/
def applyrules (env : Env) (m : Monitor) (resClass resName : Option String) (c : Client) :
    Client :=
  let cls := resClass.getD broken
  let inst := resName.getD broken
  let r := matchrules c.name cls inst env.rules false 0
  { c with isfloating := r.1,
           tags := if r.2 &&& TAGMASK env ≠ 0 then r.2 &&& TAGMASK env
                   else m.tagset m.seltags }

/-- The size hints of a window as `XGetWMNormalHints` returns them: the flags tested by
`updatesizehints` and the fields it reads. -/
structure XSizeHints where
  pBaseSize : Bool
  pMinSize : Bool
  pResizeInc : Bool
  pMaxSize : Bool
  pAspect : Bool
  base_width : Int
  base_height : Int
  min_width : Int
  min_height : Int
  width_inc : Int
  height_inc : Int
  max_width : Int
  max_height : Int
  min_aspect_x : Int
  min_aspect_y : Int
  max_aspect_x : Int
  max_aspect_y : Int

/-- The function `updatesizehints`; `none` stands for a failing `XGetWMNormalHints`. -/
def updatesizehints (hints : Option XSizeHints) (c : Client) : Client :=
  let size : XSizeHints := hints.getD
    { pBaseSize := false, pMinSize := false, pResizeInc := false, pMaxSize := false,
      pAspect := false, base_width := 0, base_height := 0, min_width := 0, min_height := 0,
      width_inc := 0, height_inc := 0, max_width := 0, max_height := 0,
      min_aspect_x := 0, min_aspect_y := 0, max_aspect_x := 0, max_aspect_y := 0 }
  let basew := if size.pBaseSize then size.base_width
               else if size.pMinSize then size.min_width else 0
  let baseh := if size.pBaseSize then size.base_height
               else if size.pMinSize then size.min_height else 0
  let incw := if size.pResizeInc then size.width_inc else 0
  let inch := if size.pResizeInc then size.height_inc else 0
  let maxw := if size.pMaxSize then size.max_width else 0
  let maxh := if size.pMaxSize then size.max_height else 0
  let minw := if size.pMinSize then size.min_width
              else if size.pBaseSize then size.base_width else 0
  let minh := if size.pMinSize then size.min_height
              else if size.pBaseSize then size.base_height else 0
  let mina : Rat := if size.pAspect then (size.min_aspect_y : Rat) / size.min_aspect_x else 0
  let maxa : Rat := if size.pAspect then (size.max_aspect_x : Rat) / size.max_aspect_y else 0
  { c with basew := basew, baseh := baseh, incw := incw, inch := inch,
           maxw := maxw, maxh := maxh, minw := minw, minh := minh, mina := mina, maxa := maxa,
           isfixed := decide (maxw ≠ 0) && decide (minw ≠ 0) && decide (maxh ≠ 0)
                      && decide (minh ≠ 0) && decide (maxw = minw) && decide (maxh = minh) }

/-- The window manager hints as `XGetWMHints` returns them: the two flags tested by
`updatewmhints` and the field `input`. -/
structure XWMHints where
  urgencyHint : Bool
  inputHint : Bool
  input : Bool

/-- The function `updatewmhints`; `issel` is the test `c == mons->sel`. -/
def updatewmhints (hints : Option XWMHints) (issel : Bool) (c : Client) : Client :=
  match hints with
  | none => c
  | some wmh =>
    let c1 := if issel && wmh.urgencyHint then c else { c with isurgent := wmh.urgencyHint }
    if wmh.inputHint then { c1 with neverfocus := !wmh.input }
    else { c1 with neverfocus := false }

/-- The branch `fullscreen == True` of `setfullscreen`, on the client record. -/
def enterfullscreen (m : Monitor) (c : Client) : Client :=
  resizeclient
    { c with isfullscreen := true, oldstate := c.isfloating, oldbw := c.bw, bw := 0,
             isfloating := true }
    m.mx m.my m.mw m.mh

/-- The function `updatewindowtype`; `fullscreen` and `dialog` are the results of the two
comparisons of the atoms read from the window. -/
def updatewindowtype (m : Monitor) (fullscreen dialog : Bool) (c : Client) : Client :=
  let c1 := if fullscreen then enterfullscreen m c else c
  if dialog then { c1 with isfloating := true } else c1

/-- What the display server reports about a window when it is managed. -/
structure XWindow where
  name : String
  resClass : Option String
  resName : Option String
  x : Int
  y : Int
  width : Int
  height : Int
  border_width : Int
  fullscreen : Bool
  dialog : Bool
  sizehints : Option XSizeHints
  wmhints : Option XWMHints

/-- The function `updatetitle`. -/
def updatetitle (name : String) (c : Client) : Client :=
  { c with name := if name = "" then broken else name }

/-- The client record `manage` builds before it links the client; `issel` is the test
`c == mons->sel` made by `updatewmhints`. -/
def manageClient (env : Env) (m : Monitor) (w : Nat) (xw : XWindow) (issel : Bool) : Client :=
  let c : Client := { Client.zero with win := w }
  let c := updatetitle xw.name c
  let c := applyrules env m xw.resClass xw.resName c
  let c := { c with x := xw.x, oldx := xw.x, y := xw.y, oldy := xw.y, w := xw.width,
                    oldw := xw.width, h := xw.height, oldh := xw.height,
                    oldbw := xw.border_width }
  let c := if c.x + WIDTH c > m.mx + m.mw then { c with x := m.mx + m.mw - WIDTH c } else c
  let c := if c.y + HEIGHT c > m.my + m.mh then { c with y := m.my + m.mh - HEIGHT c } else c
  let c := { c with x := max c.x m.mx }
  let ylow := if decide (m.barY = m.my) && decide (c.x + c.w.tdiv 2 ≥ m.wx)
      && decide (c.x + c.w.tdiv 2 < m.wx + m.ww) then bh env else m.my
  let c := { c with y := max c.y ylow }
  let c := { c with bw := (env.borderpx : Int) }
  let c := updatewindowtype m xw.fullscreen xw.dialog c
  let c := updatesizehints xw.sizehints c
  let c := updatewmhints xw.wmhints issel c
  if !c.isfloating then { c with isfloating := c.isfixed, oldstate := c.isfixed } else c

/-- The function `manage`; `a` is the address `calloc` returns for the new client. -/
def manage (env : Env) (s : WM) (a : Nat) (w : Nat) (xw : XWindow) : WM :=
  let c := manageClient env s.mons w xw (decide (s.mons.sel = some a))
  let s1 := s.store a c
  let s2 := attachstack (attach s1 a) a
  let s3 : WM := { s2 with mons := { s2.mons with sel := some a } }
  focus (arrange env s3) none

/-- The function `unmanage`. -/
def unmanage (env : Env) (s : WM) (c : Nat) : WM :=
  arrange env (focus (detachstack (detach s c) c) none)

/-- The function `pop`. -/
def pop (env : Env) (s : WM) (c : Nat) : WM :=
  arrange env (focus (attach (detach s c) c) (some c))

/-! ## Tags and views -/

/-- The five assignments shared by `view` and `toggleview` that load the live master
count, split factor, layout slot and layouts from the `Pertag` entry `curtag`. -/
def loadpertag (m : Monitor) : Monitor :=
  let k := m.pertag.curtag
  let sellt := m.pertag.sellts k
  let lt1 := Function.update m.lt sellt (m.pertag.ltidxs k sellt)
  let lt2 := Function.update lt1 (!sellt) (m.pertag.ltidxs k (!sellt))
  { m with nmaster := m.pertag.nmasters k, mfact := m.pertag.mfacts k, sellt := sellt,
           lt := lt2 }

/-- The function `tag`; `ui` is `arg->ui`. -/
def tag (env : Env) (s : WM) (ui : Nat) : WM :=
  match s.mons.sel with
  | some c =>
    if ui &&& TAGMASK env ≠ 0 then
      arrange env (focus (s.store c { s.mem c with tags := ui &&& TAGMASK env }) none)
    else s
  | none => s

/-- The function `toggletag`; `ui` is `arg->ui`. -/
def toggletag (env : Env) (s : WM) (ui : Nat) : WM :=
  match s.mons.sel with
  | none => s
  | some c =>
    let newtags := (s.mem c).tags ^^^ (ui &&& TAGMASK env)
    if newtags ≠ 0 then arrange env (focus (s.store c { s.mem c with tags := newtags }) none)
    else s

/-- The function `view`; `ui` is `arg->ui`. -/
def view (env : Env) (s : WM) (ui : Nat) : WM :=
  let m := s.mons
  if ui &&& TAGMASK env = m.tagset m.seltags then s
  else
    let seltags := !m.seltags
    let m1 : Monitor :=
      if ui &&& TAGMASK env ≠ 0 then
        { m with seltags := seltags,
                 tagset := Function.update m.tagset seltags (ui &&& TAGMASK env),
                 pertag := { m.pertag with
                   prevtag := m.pertag.curtag,
                   curtag := if ui = allOnes then 0 else lowbit ui + 1 } }
      else
        { m with seltags := seltags,
                 pertag := { m.pertag with
                   prevtag := m.pertag.curtag, curtag := m.pertag.prevtag } }
    arrange env (focus { s with mons := loadpertag m1 } none)

/-- The function `toggleview` followed through its shift `1 << (curtag - 1)` also where C
leaves the shift undefined: there the expression has the value `undef`, whatever the
compiled program makes of it (an x86 processor takes the amount modulo 32, which gives
`1 << 31`).  Where the shift is defined, `undef` is not used and the state is the one
`toggleview` below returns. -/
def toggleviewRun (env : Env) (s : WM) (ui undef : Nat) : WM :=
  let m := s.mons
  let newtagset := m.tagset m.seltags ^^^ (ui &&& TAGMASK env)
  if newtagset ≠ 0 then
    let pt1 : Pertag :=
      if newtagset = allOnes then { m.pertag with prevtag := m.pertag.curtag, curtag := 0 }
      else m.pertag
    let bit := (shl1 (u32 ((pt1.curtag : Int) - 1))).getD undef
    let pt2 : Pertag :=
      if newtagset &&& bit = 0 then
        { pt1 with prevtag := pt1.curtag, curtag := lowbit newtagset + 1 }
      else pt1
    let m1 : Monitor :=
      { m with pertag := pt2, tagset := Function.update m.tagset m.seltags newtagset }
    arrange env (focus { s with mons := loadpertag m1 } none)
  else s

/-- The function `toggleview`; `ui` is `arg->ui`.  The result is `none` when the shift
`1 << (curtag - 1)` is undefined. -/
def toggleview (env : Env) (s : WM) (ui : Nat) : Option WM :=
  let m := s.mons
  let newtagset := m.tagset m.seltags ^^^ (ui &&& TAGMASK env)
  if newtagset ≠ 0 then
    let pt1 : Pertag :=
      if newtagset = allOnes then { m.pertag with prevtag := m.pertag.curtag, curtag := 0 }
      else m.pertag
    match shl1 (u32 ((pt1.curtag : Int) - 1)) with
    | none => none
    | some bit =>
      let pt2 : Pertag :=
        if newtagset &&& bit = 0 then
          { pt1 with prevtag := pt1.curtag, curtag := lowbit newtagset + 1 }
        else pt1
      let m1 : Monitor :=
        { m with pertag := pt2, tagset := Function.update m.tagset m.seltags newtagset }
      some (arrange env (focus { s with mons := loadpertag m1 } none))
  else some s

/-- The branch `fullscreen == False` of `setfullscreen`, on the client record. -/
def leavefullscreen (c : Client) : Client :=
  let c1 := { c with isfullscreen := false, isfloating := c.oldstate, bw := c.oldbw,
                     x := c.oldx, y := c.oldy, w := c.oldw, h := c.oldh }
  resizeclient c1 c1.x c1.y c1.w c1.h

/-- The function `setfullscreen`. -/
def setfullscreen (env : Env) (s : WM) (c : Nat) (fullscreen : Bool) : WM :=
  if fullscreen then s.store c (enterfullscreen s.mons (s.mem c))
  else arrange env (s.store c (leavefullscreen (s.mem c)))

/-- The content of a client message that `clientmessage` looks at: for `_NET_WM_STATE` the
action `data.l[0]` and whether `data.l[1]` or `data.l[2]` is the fullscreen atom. -/
inductive XClientMessage where
  | netWMState (action : Int) (fullscreen : Bool)
  | netActiveWindow
  | other

/-- The function `clientmessage`, for a message sent to the window `window`. -/
def clientmessage (env : Env) (s : WM) (window : Nat) : XClientMessage → WM
  | XClientMessage.netWMState action fullscreen =>
    match wintoclient s window with
    | none => s
    | some c =>
      if fullscreen then
        setfullscreen env s c
          (decide (action = 1) || (decide (action = 2) && !(s.mem c).isfullscreen))
      else s
  | XClientMessage.netActiveWindow =>
    match wintoclient s window with
    | none => s
    | some c =>
      let s1 : WM :=
        if !ISVISIBLE s.mons (s.mem c) then
          { s with mons := { s.mons with
              seltags := !s.mons.seltags,
              tagset := Function.update s.mons.tagset (!s.mons.seltags) (s.mem c).tags } }
        else s
      pop env s1 c
  | XClientMessage.other => s

/-! ## Layout parameters -/

/-- The function `incnmaster`; `i` is `arg->i`. -/
def incnmaster (env : Env) (s : WM) (i : Int) : WM :=
  let n := max (s.mons.nmaster + i) 0
  arrange env { s with mons := { s.mons with
    nmaster := n,
    pertag := { s.mons.pertag with
      nmasters := Function.update s.mons.pertag.nmasters s.mons.pertag.curtag n } } }

/-- The function `setmfact`; `f` is `arg->f` (the argument is never `NULL`).  The sum
`arg->f + mons->mfact` is a `float` addition; the difference `arg->f - 1.0` is a `double`
subtraction, rounded again by the assignment to the `float f`; `f` is then compared with
the `double` constants `0.1` and `0.9`. -/
def setmfact (env : Env) (s : WM) (f : Rat) : WM :=
  if (s.mons.lt s.mons.sellt).arrange.isNone then s
  else
    let g := if f < 1 then f32 (f + s.mons.mfact) else f32 (f64 (f - 1))
    if g < f64 (1 / 10) ∨ g > f64 (9 / 10) then s
    else
      arrange env { s with mons := { s.mons with
        mfact := g,
        pertag := { s.mons.pertag with
          mfacts := Function.update s.mons.pertag.mfacts s.mons.pertag.curtag g } } }

/-- The function `setlayout`; `v` is `arg->v`, a layout or `NULL`; layouts are compared
by value. -/
def setlayout (env : Env) (s : WM) (v : Option Layout) : WM :=
  let m := s.mons
  let k := m.pertag.curtag
  let toggle : Bool := match v with
    | none => true
    | some l => decide (l ≠ m.lt m.sellt)
  let sellts := if toggle then Function.update m.pertag.sellts k (!m.pertag.sellts k)
                else m.pertag.sellts
  let sellt := if toggle then sellts k else m.sellt
  let ltidxs := match v with
    | some l => Function.update m.pertag.ltidxs k (Function.update (m.pertag.ltidxs k) sellt l)
    | none => m.pertag.ltidxs
  let lt := Function.update m.lt sellt (ltidxs k sellt)
  let m1 : Monitor :=
    { m with sellt := sellt, lt := lt, ltsymbol := (lt sellt).symbol,
             pertag := { m.pertag with sellts := sellts, ltidxs := ltidxs } }
  if m1.sel.isSome then arrange env { s with mons := m1 } else { s with mons := m1 }

/-- The function `updatebarpos`. -/
def updatebarpos (env : Env) (m : Monitor) : Monitor :=
  if m.showbar then
    { m with wh := m.mh - bh env,
             barY := if m.topbar then m.my else m.my + (m.mh - bh env),
             wy := if m.topbar then m.my + bh env else m.my }
  else { m with wy := m.my, wh := m.mh, barY := - bh env }

/-- The function `togglebar`. -/
def togglebar (env : Env) (s : WM) : WM :=
  arrange env { s with mons := updatebarpos env { s.mons with showbar := !s.mons.showbar } }

/-- The function `togglefloating`. -/
def togglefloating (env : Env) (s : WM) : WM :=
  match s.mons.sel with
  | none => s
  | some a =>
    let c := s.mem a
    if c.isfullscreen then s
    else
      let c1 := { c with isfloating := !c.isfloating || c.isfixed }
      let c2 := if c1.isfloating then resize env s.mons c1 c1.x c1.y c1.w c1.h false else c1
      arrange env (s.store a c2)

/-! ## Moving the focus and the master -/

/-- The loops `for(...; i; i = i->next) if(ISVISIBLE(i)) c = i;` of `focusstack`: the
last visible client of a list, or `c` when there is none. -/
def lastvisible (m : Monitor) (mem : Nat → Client) : List Nat → Option Nat → Option Nat
  | [], c => c
  | a :: l, c => if ISVISIBLE m (mem a) then lastvisible m mem l (some a)
                 else lastvisible m mem l c

/-- The function `focusstack`, for a selected client that is in the insertion list; `i`
is `arg->i`. -/
def focusstack (s : WM) (i : Int) : WM :=
  match s.mons.sel with
  | none => s
  | some sel =>
    let c : Option Nat :=
      if i > 0 then
        match firstvisible s.mons s.mem (chainAfter sel s.mons.clients) with
        | some c => some c
        | none => firstvisible s.mons s.mem s.mons.clients
      else
        match lastvisible s.mons s.mem (s.mons.clients.takeWhile (fun a => a != sel)) none with
        | some c => some c
        | none => lastvisible s.mons s.mem (s.mons.clients.dropWhile (fun a => a != sel)) none
    match c with
    | some c => focus s (some c)
    | none => s

/-- The function `zoom`.  The result is `none` when `pop` is called with `NULL`, which
it dereferences. -/
def zoom (env : Env) (s : WM) : Option WM :=
  let floatingSel : Bool := match s.mons.sel with
    | some a => (s.mem a).isfloating
    | none => false
  if (s.mons.lt s.mons.sellt).arrange.isNone || floatingSel then some s
  else if s.mons.sel = (nexttiled s.mons s.mem s.mons.clients).head? then
    match s.mons.sel with
    | none => some s
    | some c =>
      match (nexttiled s.mons s.mem (chainAfter c s.mons.clients)).head? with
      | none => some s
      | some c1 => some (pop env s c1)
  else
    match s.mons.sel with
    | none => none
    | some c => some (pop env s c)

/-! ## The initial state and the reachable states -/

/-- The function `createmon`. -/
def createmon (env : Env) : Monitor :=
  let lt0 : Layout := env.layouts.getD 0 { symbol := "", arrange := none }
  let lt1 : Layout := env.layouts.getD (1 % env.layouts.length) { symbol := "", arrange := none }
  { ltsymbol := lt0.symbol, mfact := env.mfact, nmaster := env.nmaster, barY := 0,
    mx := 0, my := 0, mw := 0, mh := 0, wx := 0, wy := 0, ww := 0, wh := 0,
    seltags := false, sellt := false, tagset := fun _ => 1,
    showbar := env.showbar, topbar := env.topbar,
    clients := [], sel := none, stack := [],
    lt := fun b => if b then lt1 else lt0,
    pertag :=
      { curtag := 1, prevtag := 1, nmasters := fun _ => env.nmaster,
        mfacts := fun _ => env.mfact, sellts := fun _ => false,
        ltidxs := fun _ b => if b then lt1 else lt0 } }

/-- The function `updategeom`, on the monitor. -/
def updategeom (env : Env) (m : Monitor) : Monitor :=
  if m.mw ≠ env.sw ∨ m.mh ≠ env.sh then
    updatebarpos env { m with mw := env.sw, ww := env.sw, mh := env.sh, wh := env.sh }
  else m

/-- The state after `setup`: the monitor made by `createmon` and sized by `updategeom`,
no client; the memory content is arbitrary. -/
def initial (env : Env) (mem : Nat → Client) : WM :=
  { mons := updategeom env (createmon env), mem := mem }

/-- The states the window manager reaches from its initial state by the commands and
events modelled above.  `manage` gets a fresh address; the events about a window act on
the client `wintoclient` finds.  Every run of `toggleview` is a step: the run through a
defined shift, and the run through the undefined shift with any value of the shift
expression (`toggleviewRun`). -/
inductive Reachable (env : Env) : WM → Prop where
  | init (mem : Nat → Client) : Reachable env (initial env mem)
  | manage {s : WM} (a w : Nat) (xw : XWindow) :
      Reachable env s → a ∉ s.mons.clients → a ∉ s.mons.stack →
      Reachable env (manage env s a w xw)
  | unmanage {s : WM} (c : Nat) :
      Reachable env s → c ∈ s.mons.clients → Reachable env (unmanage env s c)
  | tag {s : WM} (ui : Nat) : Reachable env s → Reachable env (tag env s ui)
  | toggletag {s : WM} (ui : Nat) : Reachable env s → Reachable env (toggletag env s ui)
  | view {s : WM} (ui : Nat) : Reachable env s → Reachable env (view env s ui)
  | toggleview {s : WM} (ui undef : Nat) :
      Reachable env s → Reachable env (toggleviewRun env s ui undef)
  | clientmessage {s : WM} (window : Nat) (msg : XClientMessage) :
      Reachable env s → Reachable env (clientmessage env s window msg)
  | incnmaster {s : WM} (i : Int) : Reachable env s → Reachable env (incnmaster env s i)
  | setmfact {s : WM} (f : Rat) : Reachable env s → Reachable env (setmfact env s f)
  | setlayout {s : WM} (v : Option Layout) :
      Reachable env s → Reachable env (setlayout env s v)
  | togglebar {s : WM} : Reachable env s → Reachable env (togglebar env s)
  | togglefloating {s : WM} : Reachable env s → Reachable env (togglefloating env s)
  | focus {s : WM} (c : Nat) :
      Reachable env s → c ∈ s.mons.clients → Reachable env (focus s (some c))
  | focusstack {s : WM} (i : Int) : Reachable env s → Reachable env (focusstack s i)
  | zoom {s t : WM} : Reachable env s → zoom env s = some t → Reachable env t

/-! ## Auxiliary predicates -/

/-- All fields but the geometry agree. -/
def Client.sameButGeom (c d : Client) : Prop :=
  d = { c with x := d.x, y := d.y, w := d.w, h := d.h,
               oldx := d.oldx, oldy := d.oldy, oldw := d.oldw, oldh := d.oldh }

/-- Pointwise: the memories agree apart from the geometry of the clients. -/
def SameButGeom (mem mem2 : Nat → Client) : Prop := ∀ a, (mem a).sameButGeom (mem2 a)

/-! ## The configuration of `config.def.h` and sample states -/

/-- The constants of `config.def.h`.  The constants it does not define are chosen:
double gaps, a bar shown at the top; the screen is 1024 by 768 and the font height 16.
The `float` constant `mfact = 0.55` is the `double` constant `0.55` rounded to `float`. -/
def configDef : Env :=
  { ntags := 3,
    rules := [{ cls := some "Firefox", inst := none, title := none, tags := 2,
                isfloating := true }],
    layouts := [{ symbol := "[]=", arrange := some ArrangeFn.tile },
                { symbol := "[]=", arrange := some ArrangeFn.tilegap },
                { symbol := "><>", arrange := some ArrangeFn.floating },
                { symbol := "[M]", arrange := some ArrangeFn.monocle }],
    mfact := f32 (f64 (55 / 100)), nmaster := 1, resizehints := false, borderpx := 1,
    paddingpx := 10,
    singlegap := false, showbar := true, topbar := true, sw := 1024, sh := 768,
    fontheight := 16 }

/-- A memory in which every record is zero. -/
def zeroMem : Nat → Client := fun _ => Client.zero

/-- The state right after `setup` under `configDef`. -/
def startState : WM := initial configDef zeroMem

/-- A floating client with minimum size 50x50, base size 50x50 and increments 10x10. -/
def gridClient : Client :=
  { Client.zero with minw := 50, minh := 50, basew := 50, baseh := 50, incw := 10, inch := 10,
                     isfloating := true }

/-- A window without hints, as the display server reports it. -/
def plainWindow : XWindow :=
  { name := "xterm", resClass := some "XTerm", resName := some "xterm", x := 0, y := 0,
    width := 640, height := 480, border_width := 0, fullscreen := false, dialog := false,
    sizehints := none, wmhints := none }

/-- The state after one window was managed from `startState`. -/
def oneClient : WM := manage configDef startState 1 101 plainWindow

/-- The state after a second window was managed. -/
def twoClients : WM := manage configDef oneClient 2 102 plainWindow

/-! ## Invariants -/

/-- A tag bitmask is valid: it is non-zero and has only bits of `TAGMASK`. -/
def ValidTags (env : Env) (t : Nat) : Prop := t ≠ 0 ∧ t &&& TAGMASK env = t

/-- Both tag-set slots of the monitor and the tags of every managed client are valid. -/
def TagInv (env : Env) (s : WM) : Prop :=
  (∀ b, ValidTags env (s.mons.tagset b)) ∧ ∀ a ∈ s.mons.clients, ValidTags env (s.mem a).tags

/-- The fields of the monitor that `Pertag` persists, with the `Pertag` record itself. -/
def Monitor.params (m : Monitor) : Int × Rat × Bool × (Bool → Layout) × Pertag :=
  (m.nmaster, m.mfact, m.sellt, m.lt, m.pertag)

/-- Write-through: the live master count, split factor, layout slot and layouts are the
ones stored in the `Pertag` entry of the current index. -/
def PertagInv (m : Monitor) : Prop :=
  m.nmaster = m.pertag.nmasters m.pertag.curtag
  ∧ m.mfact = m.pertag.mfacts m.pertag.curtag
  ∧ m.sellt = m.pertag.sellts m.pertag.curtag
  ∧ ∀ b, m.lt b = m.pertag.ltidxs m.pertag.curtag b

/-- The part of the state the tag invariant speaks about: the two tag-set slots, the
insertion list and the tags of the client records. -/
def WM.tagview (s : WM) : (Bool → Nat) × List Nat × (Nat → Nat) :=
  (s.mons.tagset, s.mons.clients, fun a => (s.mem a).tags)

/-- The state after the master count of `twoClients` was raised to 2. -/
def tunedState : WM := incnmaster configDef twoClients 1

/-- The client lists and the selection of the monitor. -/
def WM.listview (s : WM) : List Nat × List Nat × Option Nat :=
  (s.mons.clients, s.mons.stack, s.mons.sel)

/-- The insertion list and the stack list hold the same clients, each once, and the
selected client, if any, is one of them. -/
def ListInv (s : WM) : Prop :=
  s.mons.clients.Nodup ∧ s.mons.stack.Nodup
  ∧ (∀ a, a ∈ s.mons.stack ↔ a ∈ s.mons.clients)
  ∧ ∀ c, s.mons.sel = some c → c ∈ s.mons.stack

/-- The rounding of `applysizehints` to a multiple of the increment:
`if(inc) w -= w % inc;`. -/
def snap (i z : Int) : Int := if i ≠ 0 then z - z.tmod i else z

/-- The size adjustment of `applysizehints` in one direction when there are no aspect
limits: remove the base size, round to the increment, restore the base size, clamp to the
minimum and, when it is set, to the maximum. -/
def hint1 (b i mn mx w : Int) : Int :=
  let w5 := max (snap i (w - b) + b) mn
  if mx ≠ 0 then min w5 mx else w5

/-- A floating client with width increment 10 and maximum width 45, which is not a
multiple of the increment. -/
def cappedClient : Client := { Client.zero with incw := 10, maxw := 45, isfloating := true }

/-- The clients `nexttiled` enumerates, in insertion order: those of the list that are
neither floating nor invisible. -/
def tiled (m : Monitor) (mem : Nat → Client) (l : List Nat) : List Nat :=
  l.filter (fun a => !((mem a).isfloating || !ISVISIBLE m (mem a)))

/-- The clients of the list `l` are stacked in a column that starts at `y0` and ends at
`yend`: each client starts where the previous one ended, less `ov` border widths, and
its height with borders is its share of the remaining space, the remaining height divided
by the number of remaining clients. -/
def Column (mem : Nat → Client) (ov : Int) (yend : Int) : Int → List Nat → Prop
  | _, [] => True
  | y0, a :: l =>
    (mem a).y = y0
    ∧ HEIGHT (mem a) = (yend - y0) / ((l.length : Int) + 1)
    ∧ 0 ≤ HEIGHT (mem a) - ov * (mem a).bw
    ∧ Column mem ov yend (y0 + HEIGHT (mem a) - ov * (mem a).bw) l

/-- The clients `tile` places, in insertion order. -/
def tiledClients (s : WM) : List Nat := tiled s.mons s.mem s.mons.clients

/-- The clients `tile` places in the master column: the first `MIN(n, nmaster)` tiled
clients. -/
def masterColumn (s : WM) : List Nat :=
  (tiledClients s).take (minMaster (tiledClients s).length s.mons.nmaster)

/-- The clients `tile` places in the stack column: the remaining tiled clients. -/
def stackColumn (s : WM) : List Nat :=
  (tiledClients s).drop (minMaster (tiledClients s).length s.mons.nmaster)

/-- The state after a third window was managed. -/
def threeClients : WM := manage configDef twoClients 3 103 plainWindow

/-- The configuration `configDef` on a screen that is 118 pixels high, which leaves a
window area of height 100 below the bar. -/
def lowScreen : Env := { configDef with sh := 118 }

/-- A state on the low screen with seven tiled clients on the viewed tag, each with the
border width 1 of the configuration. -/
def crowded : WM :=
  { mons := { (initial lowScreen zeroMem).mons with
      clients := [7, 6, 5, 4, 3, 2, 1], stack := [7, 6, 5, 4, 3, 2, 1], sel := some 7 },
    mem := fun a => { Client.zero with tags := 1, bw := 1, w := 100, h := 50, win := 100 + a } }

/-- The state after a fourth window was managed. -/
def fourClients : WM := manage configDef threeClients 4 104 plainWindow

/-- The state after tag 2 was toggled into the view of `startState`: the tags 1 and 2 are
viewed. -/
def twoTagsViewed : WM := (toggleview configDef startState 2).getD startState

/-- The states reached from the monitor `createmon` returns by `view`, `toggleview` (every
run of it, as in `Reachable`), `incnmaster`, `setmfact` and `setlayout`. -/
inductive SettingsReachable (env : Env) : WM → Prop where
  | created (mem : Nat → Client) : SettingsReachable env { mons := createmon env, mem := mem }
  | view {s : WM} (ui : Nat) : SettingsReachable env s → SettingsReachable env (view env s ui)
  | toggleview {s : WM} (ui undef : Nat) :
      SettingsReachable env s → SettingsReachable env (toggleviewRun env s ui undef)
  | incnmaster {s : WM} (i : Int) :
      SettingsReachable env s → SettingsReachable env (incnmaster env s i)
  | setmfact {s : WM} (f : Rat) :
      SettingsReachable env s → SettingsReachable env (setmfact env s f)
  | setlayout {s : WM} (v : Option Layout) :
      SettingsReachable env s → SettingsReachable env (setlayout env s v)

/-- The argument `.f = +0.05` of the key binding that widens the master area: the
`double` constant rounded to `float`. -/
def mfactUp : Rat := f32 (f64 (1 / 20))

/-- The argument `.f = -0.05` of the key binding that narrows the master area. -/
def mfactDown : Rat := f32 (f64 (-1 / 20))

/-- The state after `createmon`, then `view(2)` and `setmfact(+0.05)` on tag 2. -/
def tagTwoTuned : WM :=
  setmfact configDef (view configDef { mons := createmon configDef, mem := zeroMem } 2) mfactUp

/-- The state `twoClients` after six presses of the key that widens the master area. -/
def sixWider : WM :=
  setmfact configDef (setmfact configDef (setmfact configDef (setmfact configDef
    (setmfact configDef (setmfact configDef twoClients mfactUp) mfactUp) mfactUp) mfactUp)
    mfactUp) mfactUp

/-- The state `twoClients` after one press of the key that narrows the master area: the
split factor is 0.5. -/
def halfSplit : WM := setmfact configDef twoClients mfactDown

/-- The configuration `configDef` on a screen of 1280 by 800 pixels. -/
def wideScreen : Env := { configDef with sw := 1280, sh := 800 }

/-- The state after two windows were managed on the wide screen. -/
def wideTwo : WM :=
  manage wideScreen (manage wideScreen (initial wideScreen zeroMem) 1 101 plainWindow)
    2 102 plainWindow

/-- The state `wideTwo` after two presses of the key that narrows the master area: the
split factor is `0.45f`. -/
def wideNarrowed : WM := setmfact wideScreen (setmfact wideScreen wideTwo mfactDown) mfactDown

/-- The state after tag 2 was viewed from `twoClients` and a third window was managed
there. -/
def otherTag : WM := manage configDef (view configDef twoClients 2) 3 103 plainWindow

/-- The state after tag 1 was viewed again: client 2 is focused, and in the stack list
the client 3, which is on tag 2, stands before the client 1 of tag 1. -/
def mixedStack : WM := view configDef otherTag 1

/-- The selected client, if any, is visible under the active tag-set. -/
def SelInv (s : WM) : Prop := ∀ c, s.mons.sel = some c → ISVISIBLE s.mons (s.mem c) = true

/-- The iteration `for(c = nexttiled(l); c; c = nexttiled(c->next))` of `tile`, `tilegap`
and `monocle`, collecting the clients `c` it visits, run for at most `fuel` rounds. -/
def tiledWalk (m : Monitor) (mem : Nat → Client) : Nat → List Nat → List Nat
  | 0, _ => []
  | fuel + 1, l =>
    match nexttiled m mem l with
    | [] => []
    | c :: cnext => c :: tiledWalk m mem fuel cnext

/-- The state `tunedState` with its master count lowered from 2 to 0. -/
def noMaster : WM := incnmaster configDef tunedState (-2)

/-- A floating client with a width increment of 100 and no minimum size. -/
def coarseClient : Client := { Client.zero with incw := 100, isfloating := true }

/-- The state after `view(~0)` from `startState`: all tags are viewed and the canonical
index is 0. -/
def allTagsViewed : WM := view configDef startState allOnes

/-- The state after the client of window 102 in `twoClients` asked twice to be made
fullscreen (`_NET_WM_STATE_ADD`). -/
def fullscreenTwice : WM :=
  clientmessage configDef
    (clientmessage configDef twoClients 102 (XClientMessage.netWMState 1 true))
    102 (XClientMessage.netWMState 1 true)

/-- The states reached from the initial state by `view` with an argument that has a valid
bit, and by `toggleview` (every run of it, as in `Reachable`). -/
inductive TagReachable (env : Env) : WM → Prop where
  | init (mem : Nat → Client) : TagReachable env (initial env mem)
  | view {s : WM} (ui : Nat) :
      TagReachable env s → ui &&& TAGMASK env ≠ 0 → TagReachable env (view env s ui)
  | toggleview {s : WM} (ui undef : Nat) :
      TagReachable env s → TagReachable env (toggleviewRun env s ui undef)

/-- The state after `view(2)` from `startState`, then `toggleview(1)` and `toggleview(2)`:
tag 1 is viewed with the canonical index 1, and the previous index is 2. -/
def backOnTagOne : WM :=
  (toggleview configDef
    ((toggleview configDef (view configDef startState 2) 1).getD startState) 2).getD startState

/-- The state after a following `view(0)`, the command that returns to the previous
view. -/
def staleIndex : WM := view configDef backOnTagOne 0

/-- The canonical index and the previous index are at most the number of tags. -/
def IndexInv (env : Env) (s : WM) : Prop :=
  s.mons.pertag.curtag ≤ env.ntags ∧ s.mons.pertag.prevtag ≤ env.ntags

/-- When no client is selected, no client of the stack list is visible. -/
def FocusInv (s : WM) : Prop :=
  s.mons.sel = none → ∀ a ∈ s.mons.stack, ISVISIBLE s.mons (s.mem a) = false

/-- The configuration `configDef` with `resizehints` switched on. -/
def hintsOn : Env := { configDef with resizehints := true }

/-- A window whose size hints give resize increments of 100 by 100 and nothing else. -/
def gridWindow : XWindow :=
  { plainWindow with
    sizehints := some
      { pBaseSize := false, pMinSize := false, pResizeInc := true, pMaxSize := false,
        pAspect := false, base_width := 0, base_height := 0, min_width := 0, min_height := 0,
        width_inc := 100, height_inc := 100, max_width := 0, max_height := 0,
        min_aspect_x := 0, min_aspect_y := 0, max_aspect_x := 0, max_aspect_y := 0 } }

/-- The state after the window `gridWindow` was managed under `hintsOn`. -/
def hintedState : WM := manage hintsOn (initial hintsOn zeroMem) 1 101 gridWindow

/-- The state after `view(~0)` from `twoClients`, where the canonical index is 0, and a
following `toggleview(1)`: the run shifts by `curtag - 1` with `curtag` 0, and the
undefined shift expression is given the value `1 << 31`, the one an x86 processor
computes.  The tags 2 and 3 are viewed, with the canonical index 2, and none of the two
clients, which are on tag 1, is visible. -/
def pastShift : WM := toggleviewRun configDef (view configDef twoClients allOnes) 1 2147483648

/-- The same two commands, `view(~0)` and `toggleview(1)`, from `startState`. -/
def indexPastShift : WM := toggleviewRun configDef allTagsViewed 1 2147483648

/-- The same two commands, with the master count raised between them, from the monitor
`createmon` returns: the master count 2 is stored for the index 0, and the run of
`toggleview` through the undefined shift loads the master count 1 of the index 2. -/
def settingsPastShift : WM :=
  toggleviewRun configDef
    (incnmaster configDef
      (view configDef { mons := createmon configDef, mem := zeroMem } allOnes) 1)
    1 2147483648

/-! # Theorems -/

/-! ## Frame lemmas: what the layouts leave unchanged -/

theorem sameButGeom_refl (c : Client) : c.sameButGeom c := by
  simp [Client.sameButGeom]

theorem sameButGeom_trans {c d e : Client} (h1 : c.sameButGeom d) (h2 : d.sameButGeom e) :
    c.sameButGeom e := by
  unfold Client.sameButGeom at *
  rw [h2, h1]

theorem resizeclient_sameButGeom (c : Client) (x y w h : Int) :
    c.sameButGeom (resizeclient c x y w h) := by
  simp [Client.sameButGeom, resizeclient]

theorem resize_sameButGeom (env : Env) (m : Monitor) (c : Client) (x y w h : Int) (b : Bool) :
    c.sameButGeom (resize env m c x y w h b) := by
  unfold resize
  dsimp only
  split
  · exact resizeclient_sameButGeom _ _ _ _ _
  · exact sameButGeom_refl _

theorem sameButGeom_tags {c d : Client} (h : c.sameButGeom d) : d.tags = c.tags := by
  unfold Client.sameButGeom at h; rw [h]

theorem SameButGeom.refl (mem : Nat → Client) : SameButGeom mem mem :=
  fun a => sameButGeom_refl (mem a)

theorem SameButGeom.trans {m1 m2 m3 : Nat → Client} (h1 : SameButGeom m1 m2)
    (h2 : SameButGeom m2 m3) : SameButGeom m1 m3 :=
  fun a => sameButGeom_trans (h1 a) (h2 a)

theorem SameButGeom.update {mem : Nat → Client} {a : Nat} {c : Client}
    (h : (mem a).sameButGeom c) : SameButGeom mem (Function.update mem a c) := by
  intro b
  by_cases hb : b = a
  · subst hb; simpa using h
  · simpa [Function.update, hb] using sameButGeom_refl (mem b)

theorem SameButGeom.visible {mem mem2 : Nat → Client} (h : SameButGeom mem mem2) (m : Monitor)
    (a : Nat) : ISVISIBLE m (mem2 a) = ISVISIBLE m (mem a) := by
  simp [ISVISIBLE, sameButGeom_tags (h a)]

theorem showhide_sameButGeom (env : Env) (m : Monitor) (l : List Nat) (mem : Nat → Client) :
    SameButGeom mem (showhide env m l mem) := by
  induction l generalizing mem with
  | nil => exact SameButGeom.refl mem
  | cons a l ih =>
    unfold showhide
    split
    · split
      · exact (SameButGeom.update (resize_sameButGeom _ _ _ _ _ _ _ _)).trans (ih _)
      · exact ih _
    · exact ih _

theorem monocleLoop_sameButGeom (env : Env) (m : Monitor) (l : List Nat) (mem : Nat → Client) :
    SameButGeom mem (monocleLoop env m l mem) := by
  induction l generalizing mem with
  | nil => exact SameButGeom.refl mem
  | cons a l ih =>
    unfold monocleLoop
    split
    · exact ih _
    · exact (SameButGeom.update (resize_sameButGeom _ _ _ _ _ _ _ _)).trans (ih _)

theorem tileLoop_sameButGeom (env : Env) (m : Monitor) (n mw g : Nat) (l : List Nat)
    (i my ty : Nat) (mem : Nat → Client) :
    SameButGeom mem (tileLoop env m n mw g l i my ty mem) := by
  induction l generalizing mem i my ty with
  | nil => exact SameButGeom.refl mem
  | cons a l ih =>
    unfold tileLoop
    dsimp only
    split
    · exact ih _ _ _ _
    · split
      · exact (SameButGeom.update (resize_sameButGeom _ _ _ _ _ _ _ _)).trans (ih _ _ _ _)
      · exact (SameButGeom.update (resize_sameButGeom _ _ _ _ _ _ _ _)).trans (ih _ _ _ _)

theorem tilegapLoop_sameButGeom (env : Env) (m : Monitor) (n mw g : Nat) (l : List Nat)
    (i my ty : Nat) (mem : Nat → Client) :
    SameButGeom mem (tilegapLoop env m n mw g l i my ty mem) := by
  induction l generalizing mem i my ty with
  | nil => exact SameButGeom.refl mem
  | cons a l ih =>
    unfold tilegapLoop
    dsimp only
    split
    · exact ih _ _ _ _
    · split
      · exact (SameButGeom.update (resize_sameButGeom _ _ _ _ _ _ _ _)).trans (ih _ _ _ _)
      · exact (SameButGeom.update (resize_sameButGeom _ _ _ _ _ _ _ _)).trans (ih _ _ _ _)

theorem arrange_mons (env : Env) (s : WM) :
    (arrange env s).mons = { s.mons with ltsymbol := (arrange env s).mons.ltsymbol } := by
  unfold arrange
  dsimp only
  split
  · rename_i f hf
    cases f <;> simp only [runArrange, tile, tilegap, floating, monocle] <;> (try split) <;> rfl
  · rfl

theorem arrange_mem (env : Env) (s : WM) : SameButGeom s.mem (arrange env s).mem := by
  unfold arrange
  dsimp only
  split
  · rename_i f hf
    cases f
    · simp only [runArrange, tile]
      split
      · exact showhide_sameButGeom _ _ _ _
      · exact (showhide_sameButGeom _ _ _ _).trans (tileLoop_sameButGeom _ _ _ _ _ _ _ _ _ _)
    · simp only [runArrange, tilegap]
      split
      · exact showhide_sameButGeom _ _ _ _
      · exact (showhide_sameButGeom _ _ _ _).trans (tilegapLoop_sameButGeom _ _ _ _ _ _ _ _ _ _)
    · exact showhide_sameButGeom _ _ _ _
    · simp only [runArrange, monocle]
      exact (showhide_sameButGeom _ _ _ _).trans (monocleLoop_sameButGeom _ _ _ _)
  · exact showhide_sameButGeom _ _ _ _

/-! ## Frame lemmas: what `focus` and `arrange` leave unchanged -/

theorem unlink_chainAfter (c : Nat) (l : List Nat) : unlink c (chainAfter c l) l = l.erase c := by
  induction l with
  | nil => rfl
  | cons a l ih =>
    by_cases h : a = c
    · simp [unlink, chainAfter, h]
    · simp [unlink, chainAfter, h, ih, List.erase_cons_tail]

theorem firstvisible_eq_find (m : Monitor) (mem : Nat → Client) (l : List Nat) :
    firstvisible m mem l = l.find? (fun a => ISVISIBLE m (mem a)) := by
  induction l with
  | nil => rfl
  | cons a l ih =>
    by_cases h : ISVISIBLE m (mem a) = true
    · simp [firstvisible, h]
    · simp [firstvisible, h, ih]

theorem clear_isurgent_of_not {c : Client} (h : ¬ c.isurgent = true) :
    ({ c with isurgent := false } : Client) = c := by
  cases c
  simp at h
  simp [h]

theorem focus_some {s : WM} {c : Option Nat} {a : Nat} (h : focustarget s c = some a) :
    focus s c =
      { mons := { s.mons with stack := a :: s.mons.stack.erase a, sel := some a },
        mem := Function.update s.mem a { s.mem a with isurgent := false } } := by
  unfold focus
  rw [h]
  by_cases hu : (s.mem a).isurgent = true <;> by_cases hs : s.mons.sel = some a <;>
    simp [attachstack, detachstack, clearurgent, WM.store, unlink_chainAfter, hu, hs,
      clear_isurgent_of_not]

theorem focus_none {s : WM} {c : Option Nat} (h : focustarget s c = none) :
    focus s c = { s with mons := { s.mons with sel := none } } := by
  unfold focus
  rw [h]

theorem focus_sel (s : WM) (c : Option Nat) : (focus s c).mons.sel = focustarget s c := by
  cases h : focustarget s c with
  | none => rw [focus_none h]
  | some a => rw [focus_some h]

theorem focus_mons (s : WM) (c : Option Nat) :
    (focus s c).mons
      = { s.mons with stack := (focus s c).mons.stack, sel := (focus s c).mons.sel } := by
  cases h : focustarget s c with
  | none => rw [focus_none h]
  | some a => rw [focus_some h]

@[simp] theorem arrange_mfact (env : Env) (s : WM) :
    (arrange env s).mons.mfact = s.mons.mfact := by
  rw [arrange_mons]

@[simp] theorem arrange_nmaster (env : Env) (s : WM) :
    (arrange env s).mons.nmaster = s.mons.nmaster := by
  rw [arrange_mons]

@[simp] theorem arrange_barY (env : Env) (s : WM) :
    (arrange env s).mons.barY = s.mons.barY := by
  rw [arrange_mons]

@[simp] theorem arrange_mx (env : Env) (s : WM) :
    (arrange env s).mons.mx = s.mons.mx := by
  rw [arrange_mons]

@[simp] theorem arrange_my (env : Env) (s : WM) :
    (arrange env s).mons.my = s.mons.my := by
  rw [arrange_mons]

@[simp] theorem arrange_mw (env : Env) (s : WM) :
    (arrange env s).mons.mw = s.mons.mw := by
  rw [arrange_mons]

@[simp] theorem arrange_mh (env : Env) (s : WM) :
    (arrange env s).mons.mh = s.mons.mh := by
  rw [arrange_mons]

@[simp] theorem arrange_wx (env : Env) (s : WM) :
    (arrange env s).mons.wx = s.mons.wx := by
  rw [arrange_mons]

@[simp] theorem arrange_wy (env : Env) (s : WM) :
    (arrange env s).mons.wy = s.mons.wy := by
  rw [arrange_mons]

@[simp] theorem arrange_ww (env : Env) (s : WM) :
    (arrange env s).mons.ww = s.mons.ww := by
  rw [arrange_mons]

@[simp] theorem arrange_wh (env : Env) (s : WM) :
    (arrange env s).mons.wh = s.mons.wh := by
  rw [arrange_mons]

@[simp] theorem arrange_seltags (env : Env) (s : WM) :
    (arrange env s).mons.seltags = s.mons.seltags := by
  rw [arrange_mons]

@[simp] theorem arrange_sellt (env : Env) (s : WM) :
    (arrange env s).mons.sellt = s.mons.sellt := by
  rw [arrange_mons]

@[simp] theorem arrange_tagset (env : Env) (s : WM) :
    (arrange env s).mons.tagset = s.mons.tagset := by
  rw [arrange_mons]

@[simp] theorem arrange_showbar (env : Env) (s : WM) :
    (arrange env s).mons.showbar = s.mons.showbar := by
  rw [arrange_mons]

@[simp] theorem arrange_topbar (env : Env) (s : WM) :
    (arrange env s).mons.topbar = s.mons.topbar := by
  rw [arrange_mons]

@[simp] theorem arrange_clients (env : Env) (s : WM) :
    (arrange env s).mons.clients = s.mons.clients := by
  rw [arrange_mons]

@[simp] theorem arrange_sel (env : Env) (s : WM) :
    (arrange env s).mons.sel = s.mons.sel := by
  rw [arrange_mons]

@[simp] theorem arrange_stack (env : Env) (s : WM) :
    (arrange env s).mons.stack = s.mons.stack := by
  rw [arrange_mons]

@[simp] theorem arrange_lt (env : Env) (s : WM) :
    (arrange env s).mons.lt = s.mons.lt := by
  rw [arrange_mons]

@[simp] theorem arrange_pertag (env : Env) (s : WM) :
    (arrange env s).mons.pertag = s.mons.pertag := by
  rw [arrange_mons]

@[simp] theorem focus_mfact (s : WM) (c : Option Nat) :
    (focus s c).mons.mfact = s.mons.mfact := by
  rw [focus_mons]

@[simp] theorem focus_nmaster (s : WM) (c : Option Nat) :
    (focus s c).mons.nmaster = s.mons.nmaster := by
  rw [focus_mons]

@[simp] theorem focus_barY (s : WM) (c : Option Nat) :
    (focus s c).mons.barY = s.mons.barY := by
  rw [focus_mons]

@[simp] theorem focus_mx (s : WM) (c : Option Nat) :
    (focus s c).mons.mx = s.mons.mx := by
  rw [focus_mons]

@[simp] theorem focus_my (s : WM) (c : Option Nat) :
    (focus s c).mons.my = s.mons.my := by
  rw [focus_mons]

@[simp] theorem focus_mw (s : WM) (c : Option Nat) :
    (focus s c).mons.mw = s.mons.mw := by
  rw [focus_mons]

@[simp] theorem focus_mh (s : WM) (c : Option Nat) :
    (focus s c).mons.mh = s.mons.mh := by
  rw [focus_mons]

@[simp] theorem focus_wx (s : WM) (c : Option Nat) :
    (focus s c).mons.wx = s.mons.wx := by
  rw [focus_mons]

@[simp] theorem focus_wy (s : WM) (c : Option Nat) :
    (focus s c).mons.wy = s.mons.wy := by
  rw [focus_mons]

@[simp] theorem focus_ww (s : WM) (c : Option Nat) :
    (focus s c).mons.ww = s.mons.ww := by
  rw [focus_mons]

@[simp] theorem focus_wh (s : WM) (c : Option Nat) :
    (focus s c).mons.wh = s.mons.wh := by
  rw [focus_mons]

@[simp] theorem focus_seltags (s : WM) (c : Option Nat) :
    (focus s c).mons.seltags = s.mons.seltags := by
  rw [focus_mons]

@[simp] theorem focus_sellt (s : WM) (c : Option Nat) :
    (focus s c).mons.sellt = s.mons.sellt := by
  rw [focus_mons]

@[simp] theorem focus_tagset (s : WM) (c : Option Nat) :
    (focus s c).mons.tagset = s.mons.tagset := by
  rw [focus_mons]

@[simp] theorem focus_showbar (s : WM) (c : Option Nat) :
    (focus s c).mons.showbar = s.mons.showbar := by
  rw [focus_mons]

@[simp] theorem focus_topbar (s : WM) (c : Option Nat) :
    (focus s c).mons.topbar = s.mons.topbar := by
  rw [focus_mons]

@[simp] theorem focus_clients (s : WM) (c : Option Nat) :
    (focus s c).mons.clients = s.mons.clients := by
  rw [focus_mons]

@[simp] theorem focus_lt (s : WM) (c : Option Nat) :
    (focus s c).mons.lt = s.mons.lt := by
  rw [focus_mons]

@[simp] theorem focus_pertag (s : WM) (c : Option Nat) :
    (focus s c).mons.pertag = s.mons.pertag := by
  rw [focus_mons]

/-! ## Bit positions -/

theorem and_shl_ne_zero_iff (v i : Nat) : v &&& (1 <<< i) ≠ 0 ↔ v.testBit i = true := by
  rw [Nat.one_shiftLeft]
  constructor
  · intro h
    by_contra hb
    apply h
    apply Nat.eq_of_testBit_eq
    intro j
    by_cases hj : i = j
    · subst hj; simp [hb]
    · simp [Nat.testBit_two_pow, hj]
  · intro h h0
    have : (v &&& 2 ^ i).testBit i = true := by simp [h, Nat.testBit_two_pow_self]
    rw [h0] at this
    simp at this

theorem lowbitFrom_spec (v : Nat) (fuel i : Nat) (hlow : ∀ j, j < i → v.testBit j = false)
    (hex : ∃ k, k < i + fuel ∧ v.testBit k = true) :
    v.testBit (lowbitFrom v fuel i) = true ∧ ∀ j, j < lowbitFrom v fuel i → v.testBit j = false := by
  induction fuel generalizing i with
  | zero =>
    obtain ⟨k, hk, hb⟩ := hex
    rw [hlow k (by omega)] at hb
    cases hb
  | succ f ih =>
    unfold lowbitFrom
    by_cases hb : v.testBit i = true
    · rw [if_pos ((and_shl_ne_zero_iff v i).mpr hb)]
      exact ⟨hb, hlow⟩
    · rw [if_neg (fun h => hb ((and_shl_ne_zero_iff v i).mp h))]
      apply ih
      · intro j hj
        by_cases hji : j = i
        · subst hji; simpa using hb
        · exact hlow j (by omega)
      · obtain ⟨k, hk, hkb⟩ := hex
        exact ⟨k, by omega, hkb⟩

theorem lowbit_spec {v : Nat} (h0 : v ≠ 0) (h32 : v < 4294967296) :
    v.testBit (lowbit v) = true ∧ ∀ j, j < lowbit v → v.testBit j = false := by
  apply lowbitFrom_spec
  · intro j hj; omega
  · obtain ⟨k, hk⟩ := Nat.ne_zero_implies_bit_true h0
    refine ⟨k, ?_, hk⟩
    by_contra hge
    have := Nat.testBit_implies_ge hk
    have : 2 ^ 32 ≤ 2 ^ k := Nat.pow_le_pow_right (by decide) (by omega)
    omega

/-! ## Size hints: the increment formula -/

theorem tmod_snap {a b : Int} (ha : 0 ≤ a) (hb : 0 < b) : a - a.tmod b = a / b * b := by
  rw [Int.tmod_eq_emod ha hb.le]
  have := Int.ediv_add_emod a b
  linarith [Int.mul_comm (a / b) b]

/-- C9: when size hints apply to the client, there are no aspect limits, both increments
are positive and the request is at least the base size, the bar height and 1 in each
direction, `applysizehints` returns the width
`max(minw, basew + floor((w - basew) / incw) * incw)`, capped at `maxw` when `maxw` is
non-zero, and likewise the height. -/
theorem applysizehints_increment (env : Env) (m : Monitor) (c : Client) (x y w h : Int)
    (interact : Bool)
    (happly : env.resizehints = true ∨ c.isfloating = true ∨ (m.lt m.sellt).arrange = none)
    (haspect : ¬ (c.mina > 0 ∧ c.maxa > 0))
    (hincw : 0 < c.incw) (hinch : 0 < c.inch)
    (hw : max c.basew (max (bh env) 1) ≤ w) (hh : max c.baseh (max (bh env) 1) ≤ h) :
    (applysizehints env m c x y w h interact).w
        = (if c.maxw ≠ 0 then min (max c.minw (c.basew + (w - c.basew) / c.incw * c.incw)) c.maxw
           else max c.minw (c.basew + (w - c.basew) / c.incw * c.incw))
    ∧ (applysizehints env m c x y w h interact).h
        = (if c.maxh ≠ 0 then min (max c.minh (c.baseh + (h - c.baseh) / c.inch * c.inch)) c.maxh
           else max c.minh (c.baseh + (h - c.baseh) / c.inch * c.inch)) := by
  have hw1 : c.basew ≤ w := le_trans (le_max_left _ _) hw
  have hw2 : bh env ≤ w := le_trans (le_trans (le_max_left _ _) (le_max_right _ _)) hw
  have hw3 : 1 ≤ w := le_trans (le_trans (le_max_right _ _) (le_max_right _ _)) hw
  have hh1 : c.baseh ≤ h := le_trans (le_max_left _ _) hh
  have hh2 : bh env ≤ h := le_trans (le_trans (le_max_left _ _) (le_max_right _ _)) hh
  have hh3 : 1 ≤ h := le_trans (le_trans (le_max_right _ _) (le_max_right _ _)) hh
  have happly : (env.resizehints || c.isfloating || (m.lt m.sellt).arrange.isNone) = true := by
    rcases happly with h1 | h1 | h1 <;> simp [h1]
  have hasp : (decide (c.mina > 0) && decide (c.maxa > 0)) = false := by
    simpa using haspect
  have e1 : max 1 w = w := max_eq_right hw3
  have e2 : max 1 h = h := max_eq_right hh3
  have sw := tmod_snap (sub_nonneg.mpr hw1) hincw
  have sh := tmod_snap (sub_nonneg.mpr hh1) hinch
  unfold applysizehints hintsize
  simp only [happly, hasp, e1, e2, if_neg (not_lt.mpr hw2), if_neg (not_lt.mpr hh2), ite_true,
    Bool.false_and, Bool.and_false]
  constructor
  · by_cases hb : (decide (c.basew = c.minw) && decide (c.baseh = c.minh)) = true
    · simp [hb, hincw.ne', sw, max_comm, add_comm]
    · simp [hb, hincw.ne', sw, max_comm, add_comm]
  · by_cases hb : (decide (c.basew = c.minw) && decide (c.baseh = c.minh)) = true
    · simp [hb, hinch.ne', sh, max_comm, add_comm]
    · simp [hb, hinch.ne', sh, max_comm, add_comm]

/-- Witness for C9: minimum 50x50, base 50x50, increments 10x10, request 83x97 gives
80x90. -/
theorem applysizehints_increment_witness :
    (applysizehints configDef startState.mons gridClient 0 0 83 97 true).w = 80
    ∧ (applysizehints configDef startState.mons gridClient 0 0 83 97 true).h = 90 := by
  have h := applysizehints_increment configDef startState.mons gridClient 0 0 83 97 true
    (by decide) (by decide) (by decide) (by decide) (by decide) (by decide)
  exact ⟨h.1.trans (by decide), h.2.trans (by decide)⟩

/-! ## Focus: retargeting -/

/-- C7: `focus(t)` with `t` null or not visible under the active tag-set selects the first
client of the stack list, scanning from its head, that is visible under the active
tag-set, and nothing when no client of the stack list is visible; `focus` is a total
function, so it returns in every state. -/
theorem focus_retarget (s : WM) (t : Option Nat)
    (ht : ∀ a, t = some a → ISVISIBLE s.mons (s.mem a) = false) :
    (focus s t).mons.sel = s.mons.stack.find? (fun a => ISVISIBLE s.mons (s.mem a))
    ∧ ((∀ a ∈ s.mons.stack, ISVISIBLE s.mons (s.mem a) = false) →
        (focus s t).mons.sel = none) := by
  have h1 : (focus s t).mons.sel = s.mons.stack.find? (fun a => ISVISIBLE s.mons (s.mem a)) := by
    rw [focus_sel, ← firstvisible_eq_find]
    cases t with
    | none => rfl
    | some a => simp [focustarget, ht a rfl]
  refine ⟨h1, fun hall => ?_⟩
  rw [h1, List.find?_eq_none]
  intro a ha
  simp [hall a ha]

/-- Witness for C7: with client 2 moved to a tag that is not viewed, `focus` on it selects
client 1, the first visible client of the stack. -/
theorem focus_retarget_witness :
    ISVISIBLE (tag configDef twoClients 2).mons ((tag configDef twoClients 2).mem 2) = false
    ∧ (focus (tag configDef twoClients 2) (some 2)).mons.sel = some 1 := by
  have hv : ISVISIBLE (tag configDef twoClients 2).mons ((tag configDef twoClients 2).mem 2)
      = false := by decide!
  refine ⟨hv, ?_⟩
  have h := focus_retarget (tag configDef twoClients 2) (some 2)
    (fun a ha => by cases ha; exact hv)
  exact h.1.trans (by decide!)

/-! ## `toggleview` -/

/-- C2: when the active tag-set XOR `(delta & TAGMASK)` is zero, `toggleview` leaves the
whole state unchanged; hence `toggleview` never turns a non-empty active tag-set into an
empty one. -/
theorem toggleview_empty_rejected (env : Env) (s : WM) (ui : Nat) :
    (s.mons.tagset s.mons.seltags ^^^ (ui &&& TAGMASK env) = 0 → toggleview env s ui = some s)
    ∧ (∀ t, toggleview env s ui = some t → s.mons.tagset s.mons.seltags ≠ 0 →
        t.mons.tagset t.mons.seltags ≠ 0) := by
  constructor
  · intro h
    simp [toggleview, h]
  · intro t ht hne
    unfold toggleview at ht
    dsimp only at ht
    split at ht
    · rename_i hnz
      split at ht
      · cases ht
      · cases ht
        simpa [loadpertag] using hnz
    · cases ht
      exact hne

/-- Witness for C2: toggling tag 1 while only tag 1 is viewed changes nothing. -/
theorem toggleview_empty_rejected_witness :
    twoClients.mons.tagset twoClients.mons.seltags ^^^ (1 &&& TAGMASK configDef) = 0
    ∧ toggleview configDef twoClients 1 = some twoClients :=
  ⟨by decide!, (toggleview_empty_rejected configDef twoClients 1).1 (by decide!)⟩

theorem u32_of_nat_lt {n : Nat} (h : n < 4294967296) : u32 (n : Int) = n := by
  unfold u32
  rw [Int.emod_eq_of_lt (by omega) (by omega)]
  simp

theorem loadpertag_lt (m : Monitor) (b : Bool) :
    (loadpertag m).lt b = m.pertag.ltidxs m.pertag.curtag b := by
  unfold loadpertag
  cases b <;> cases h : m.pertag.sellts m.pertag.curtag <;> simp [Function.update, h]

/-- C8: in a state with canonical index `k` between 1 and 32 and for a delta whose
result `R = active XOR (delta & TAGMASK)` is non-empty (and not the all-ones word, for
which the C code takes its `~0` branch), `toggleview` returns, makes `R` the active
tag-set and leaves the stored per-tag values alone.  If bit `k-1` is in `R` the index
stays `k` and the live master count, split factor, layout slot and layouts are those
stored for `k`; if it is not, the index becomes 1 + the position of the lowest set bit of
`R`. -/
theorem toggleview_keeps_current_tag (env : Env) (s : WM) (ui k : Nat)
    (hk : s.mons.pertag.curtag = k) (h1 : 1 ≤ k) (h32 : k ≤ 32)
    (hR0 : s.mons.tagset s.mons.seltags ^^^ (ui &&& TAGMASK env) ≠ 0)
    (hR32 : s.mons.tagset s.mons.seltags ^^^ (ui &&& TAGMASK env) < 4294967295) :
    ∃ t, toggleview env s ui = some t
      ∧ t.mons.tagset t.mons.seltags = s.mons.tagset s.mons.seltags ^^^ (ui &&& TAGMASK env)
      ∧ t.mons.pertag.nmasters = s.mons.pertag.nmasters
      ∧ t.mons.pertag.mfacts = s.mons.pertag.mfacts
      ∧ t.mons.pertag.sellts = s.mons.pertag.sellts
      ∧ t.mons.pertag.ltidxs = s.mons.pertag.ltidxs
      ∧ ((s.mons.tagset s.mons.seltags ^^^ (ui &&& TAGMASK env)).testBit (k - 1) = true →
          t.mons.pertag.curtag = k
          ∧ t.mons.nmaster = s.mons.pertag.nmasters k
          ∧ t.mons.mfact = s.mons.pertag.mfacts k
          ∧ t.mons.sellt = s.mons.pertag.sellts k
          ∧ ∀ b, t.mons.lt b = s.mons.pertag.ltidxs k b)
      ∧ ((s.mons.tagset s.mons.seltags ^^^ (ui &&& TAGMASK env)).testBit (k - 1) = false →
          t.mons.pertag.curtag
              = lowbit (s.mons.tagset s.mons.seltags ^^^ (ui &&& TAGMASK env)) + 1
          ∧ (s.mons.tagset s.mons.seltags ^^^ (ui &&& TAGMASK env)).testBit
              (t.mons.pertag.curtag - 1) = true
          ∧ ∀ j, j < t.mons.pertag.curtag - 1 →
              (s.mons.tagset s.mons.seltags ^^^ (ui &&& TAGMASK env)).testBit j = false) := by
  generalize hR : s.mons.tagset s.mons.seltags ^^^ (ui &&& TAGMASK env) = R at *
  have hsh : shl1 (u32 ((k : Int) - 1)) = some (1 <<< (k - 1)) := by
    have e : ((k : Int) - 1) = ((k - 1 : Nat) : Int) := by omega
    rw [e, u32_of_nat_lt (by omega)]
    simp [shl1]; omega
  have hall : R ≠ allOnes := by unfold allOnes; omega
  unfold toggleview
  simp only [hR, hR0, hall, hk, hsh, ne_eq, not_false_eq_true, if_true, if_false]
  refine ⟨_, rfl, ?_⟩
  by_cases hb : R.testBit (k - 1) = true
  · have hnz : ¬ (R &&& 1 <<< (k - 1) = 0) := (and_shl_ne_zero_iff R (k - 1)).mpr hb
    simp [hnz, hb, loadpertag_lt, hk]
    simp [loadpertag, hk]
  · have hz : R &&& 1 <<< (k - 1) = 0 := by
      by_contra h
      exact hb ((and_shl_ne_zero_iff R (k - 1)).mp h)
    have hb' : R.testBit (k - 1) = false := by simpa using hb
    have hl := lowbit_spec hR0 (by omega : R < 4294967296)
    simp [hz, hb', loadpertag_lt]
    simp [loadpertag, hl.1]
    exact hl.2

/-- Witness for C8: three tags, active set `{1}`, `toggleview({2})` gives the active set
`{1,2}` with the index still 1. -/
theorem toggleview_keeps_current_tag_witness :
    ∃ t, toggleview configDef startState 2 = some t
      ∧ t.mons.tagset t.mons.seltags = 3 ∧ t.mons.pertag.curtag = 1 := by
  obtain ⟨t, h1, h2, _, _, _, _, h3, _⟩ :=
    toggleview_keeps_current_tag configDef startState 2 1 (by decide) (by decide) (by decide)
      (by decide) (by decide)
  exact ⟨t, h1, h2.trans (by decide), (h3 (by decide)).1⟩

/-! ## `resize` on the path that skips the size hints -/

theorem bh_ge_two (env : Env) : 2 ≤ bh env := by
  unfold bh; omega

theorem applysizehints_skip_yh (env : Env) (m : Monitor) (c : Client) (x y w h : Int)
    (hskip : (env.resizehints || c.isfloating || (m.lt m.sellt).arrange.isNone) = false)
    (hy1 : y < m.wy + m.wh) (hy2 : m.wy < y + h + 2 * c.bw) (hh : bh env ≤ h) :
    (applysizehints env m c x y w h false).y = y
    ∧ (applysizehints env m c x y w h false).h = h := by
  have h2 := bh_ge_two env
  have e : max 1 h = h := max_eq_right (by omega)
  unfold applysizehints
  simp only [hskip, e, Bool.false_eq_true, if_false]
  constructor
  · rw [if_neg (by omega), if_neg (by omega)]
  · rw [if_neg (by omega)]

theorem applysizehints_skip_xw (env : Env) (m : Monitor) (c : Client) (x y w h : Int)
    (hskip : (env.resizehints || c.isfloating || (m.lt m.sellt).arrange.isNone) = false)
    (hx1 : x < m.wx + m.ww) (hx2 : m.wx < x + w + 2 * c.bw) (hw : bh env ≤ w) :
    (applysizehints env m c x y w h false).x = x
    ∧ (applysizehints env m c x y w h false).w = w := by
  have h2 := bh_ge_two env
  have e : max 1 w = w := max_eq_right (by omega)
  unfold applysizehints
  simp only [hskip, e, Bool.false_eq_true, if_false]
  constructor
  · rw [if_neg (by omega), if_neg (by omega)]
  · rw [if_neg (by omega)]

theorem applysizehints_changed (env : Env) (m : Monitor) (c : Client) (x y w h : Int)
    (b : Bool) :
    (applysizehints env m c x y w h b).changed = false ↔
      ((applysizehints env m c x y w h b).x = c.x ∧ (applysizehints env m c x y w h b).y = c.y
      ∧ (applysizehints env m c x y w h b).w = c.w
      ∧ (applysizehints env m c x y w h b).h = c.h) := by
  unfold applysizehints
  simp only [Bool.or_eq_false_iff, decide_eq_false_iff_not, ne_eq, not_not, and_assoc]

/-- After `resize` the client has the geometry `applysizehints` returned. -/
theorem resize_geom (env : Env) (m : Monitor) (c : Client) (x y w h : Int) (b : Bool) :
    (resize env m c x y w h b).x = (applysizehints env m c x y w h b).x
    ∧ (resize env m c x y w h b).y = (applysizehints env m c x y w h b).y
    ∧ (resize env m c x y w h b).w = (applysizehints env m c x y w h b).w
    ∧ (resize env m c x y w h b).h = (applysizehints env m c x y w h b).h := by
  unfold resize
  dsimp only
  by_cases hc : (applysizehints env m c x y w h b).changed = true
  · simp [hc, resizeclient]
  · have hc' : (applysizehints env m c x y w h b).changed = false := by simpa using hc
    obtain ⟨h1, h2, h3, h4⟩ := (applysizehints_changed env m c x y w h b).mp hc'
    simp [hc', h1, h2, h3, h4]

theorem resize_bw (env : Env) (m : Monitor) (c : Client) (x y w h : Int) (b : Bool) :
    (resize env m c x y w h b).bw = c.bw := by
  have := resize_sameButGeom env m c x y w h b
  unfold Client.sameButGeom at this; rw [this]

theorem sameButGeom_isfloating {c d : Client} (h : c.sameButGeom d) :
    d.isfloating = c.isfloating := by
  unfold Client.sameButGeom at h; rw [h]

theorem sameButGeom_bw {c d : Client} (h : c.sameButGeom d) : d.bw = c.bw := by
  unfold Client.sameButGeom at h; rw [h]

theorem monocleLoop_untouched (env : Env) (m : Monitor) (l : List Nat) (mem : Nat → Client)
    (a : Nat) (h : a ∉ l ∨ ((mem a).isfloating || !ISVISIBLE m (mem a)) = true) :
    monocleLoop env m l mem a = mem a := by
  induction l generalizing mem with
  | nil => rfl
  | cons b l ih =>
    unfold monocleLoop
    split
    · apply ih
      rcases h with h | h
      · exact Or.inl (fun hm => h (List.mem_cons_of_mem _ hm))
      · exact Or.inr h
    · rename_i hb
      have hab : a ≠ b := by
        rintro rfl
        rcases h with h | h
        · exact h (List.mem_cons_self _ _)
        · exact hb h
      rw [ih]
      · simp [Function.update, hab]
      · rcases h with h | h
        · exact Or.inl (fun hm => h (List.mem_cons_of_mem _ hm))
        · right; simpa [Function.update, hab] using h

/-! ## The monocle layout -/

theorem monocleLoop_ltsymbol (env : Env) (m : Monitor) (t : String) (l : List Nat)
    (mem : Nat → Client) :
    monocleLoop env { m with ltsymbol := t } l mem = monocleLoop env m l mem := by
  induction l generalizing mem with
  | nil => rfl
  | cons b l ih =>
    unfold monocleLoop
    rw [ih, ih]
    rfl

theorem monocle_mem (env : Env) (s : WM) :
    (monocle env s).mem = monocleLoop env s.mons s.mons.clients s.mem := by
  unfold monocle
  dsimp only
  split
  · exact monocleLoop_ltsymbol _ _ _ _ _
  · rfl

theorem monocleLoop_placed (env : Env) (m : Monitor) (hr : env.resizehints = false)
    (harr : (m.lt m.sellt).arrange.isNone = false) (l : List Nat) (mem : Nat → Client)
    (hroom : ∀ a ∈ l, ((mem a).isfloating || !ISVISIBLE m (mem a)) = false →
      0 ≤ (mem a).bw ∧ bh env ≤ m.ww - 2 * (mem a).bw ∧ bh env ≤ m.wh - 2 * (mem a).bw)
    (a : Nat) (ha : a ∈ l) (hta : ((mem a).isfloating || !ISVISIBLE m (mem a)) = false) :
    (monocleLoop env m l mem a).x = m.wx ∧ (monocleLoop env m l mem a).y = m.wy
    ∧ (monocleLoop env m l mem a).w = m.ww - 2 * (mem a).bw
    ∧ (monocleLoop env m l mem a).h = m.wh - 2 * (mem a).bw := by
  induction l generalizing mem with
  | nil => cases ha
  | cons b l ih =>
    unfold monocleLoop
    by_cases hb : ((mem b).isfloating || !ISVISIBLE m (mem b)) = true
    · rw [if_pos hb]
      have hab : a ≠ b := by
        rintro rfl
        rw [hb] at hta
        cases hta
      have hal : a ∈ l := by
        rcases List.mem_cons.mp ha with h | h
        · exact absurd h hab
        · exact h
      exact ih mem (fun a' ha' => hroom a' (List.mem_cons_of_mem _ ha')) hal hta
    · rw [if_neg hb]
      have hb' : ((mem b).isfloating || !ISVISIBLE m (mem b)) = false := by simpa using hb
      have hsame : SameButGeom mem (Function.update mem b
          (resize env m (mem b) m.wx m.wy (m.ww - 2 * (mem b).bw) (m.wh - 2 * (mem b).bw)
            false)) :=
        SameButGeom.update (resize_sameButGeom _ _ _ _ _ _ _ _)
      have htiled : ∀ a', ((Function.update mem b
          (resize env m (mem b) m.wx m.wy (m.ww - 2 * (mem b).bw) (m.wh - 2 * (mem b).bw)
            false) a').isfloating || !ISVISIBLE m (Function.update mem b
          (resize env m (mem b) m.wx m.wy (m.ww - 2 * (mem b).bw) (m.wh - 2 * (mem b).bw)
            false) a')) = ((mem a').isfloating || !ISVISIBLE m (mem a')) := by
        intro a'
        rw [sameButGeom_isfloating (hsame a'), hsame.visible m a']
      by_cases hal : a ∈ l
      · have := ih _ (fun a' ha' ht' => by
          rw [htiled a'] at ht'
          rw [sameButGeom_bw (hsame a')]
          exact hroom a' (List.mem_cons_of_mem _ ha') ht') hal (by rw [htiled a]; exact hta)
        rw [sameButGeom_bw (hsame a)] at this
        exact this
      · have hab : a = b := by
          rcases List.mem_cons.mp ha with h | h
          · exact h
          · exact absurd h hal
        subst hab
        rw [monocleLoop_untouched env m l _ a (Or.inl hal)]
        simp only [Function.update_same]
        obtain ⟨hbw, hw, hh⟩ := hroom a (List.mem_cons_self _ _) hb'
        have hfl : (mem a).isfloating = false := by
          simp only [Bool.or_eq_false_iff] at hb'
          exact hb'.1
        have hskip : (env.resizehints || (mem a).isfloating || (m.lt m.sellt).arrange.isNone)
            = false := by simp [hr, hfl, harr]
        have h2 := bh_ge_two env
        obtain ⟨g1, g2, g3, g4⟩ := resize_geom env m (mem a) m.wx m.wy
          (m.ww - 2 * (mem a).bw) (m.wh - 2 * (mem a).bw) false
        obtain ⟨x1, x2⟩ := applysizehints_skip_xw env m (mem a) m.wx m.wy
          (m.ww - 2 * (mem a).bw) (m.wh - 2 * (mem a).bw) hskip (by omega) (by omega) hw
        obtain ⟨y1, y2⟩ := applysizehints_skip_yh env m (mem a) m.wx m.wy
          (m.ww - 2 * (mem a).bw) (m.wh - 2 * (mem a).bw) hskip (by omega) (by omega) hh
        exact ⟨g1.trans x1, g2.trans y1, g3.trans x2, g4.trans y2⟩

/-- C10: when size hints are not applied to tiled clients (hint-respecting disabled, the
active layout has an arrange function) and, for every visible non-floating client, the
border width is non-negative and `ww - 2*bw` and `wh - 2*bw` are at least the bar
height, then after `monocle` every visible non-floating client of the insertion list has
the geometry `x = wx`, `y = wy`, `w = ww - 2*bw`, `h = wh - 2*bw`, and the record of every
floating or invisible client (and of every client outside the list) is unchanged. -/
theorem monocle_geometry (env : Env) (s : WM) (hr : env.resizehints = false)
    (harr : (s.mons.lt s.mons.sellt).arrange ≠ none)
    (hroom : ∀ a ∈ s.mons.clients, (s.mem a).isfloating = false →
      ISVISIBLE s.mons (s.mem a) = true →
      0 ≤ (s.mem a).bw ∧ bh env ≤ s.mons.ww - 2 * (s.mem a).bw
        ∧ bh env ≤ s.mons.wh - 2 * (s.mem a).bw) :
    (∀ a ∈ s.mons.clients, (s.mem a).isfloating = false → ISVISIBLE s.mons (s.mem a) = true →
      ((monocle env s).mem a).x = s.mons.wx ∧ ((monocle env s).mem a).y = s.mons.wy
      ∧ ((monocle env s).mem a).w = s.mons.ww - 2 * (s.mem a).bw
      ∧ ((monocle env s).mem a).h = s.mons.wh - 2 * (s.mem a).bw
      ∧ ((monocle env s).mem a).bw = (s.mem a).bw)
    ∧ (∀ a, (a ∉ s.mons.clients ∨ (s.mem a).isfloating = true
          ∨ ISVISIBLE s.mons (s.mem a) = false) → (monocle env s).mem a = s.mem a) := by
  have harr' : (s.mons.lt s.mons.sellt).arrange.isNone = false := by
    cases h : (s.mons.lt s.mons.sellt).arrange with
    | none => exact absurd h harr
    | some f => rfl
  rw [monocle_mem]
  constructor
  · intro a ha hf hv
    have ht : ((s.mem a).isfloating || !ISVISIBLE s.mons (s.mem a)) = false := by simp [hf, hv]
    obtain ⟨h1, h2, h3, h4⟩ := monocleLoop_placed env s.mons hr harr' s.mons.clients s.mem
      (fun a' ha' ht' => by
        simp only [Bool.or_eq_false_iff, Bool.not_eq_false'] at ht'
        exact hroom a' ha' ht'.1 ht'.2) a ha ht
    exact ⟨h1, h2, h3, h4, sameButGeom_bw (monocleLoop_sameButGeom env s.mons _ s.mem a)⟩
  · intro a h
    apply monocleLoop_untouched
    rcases h with h | h | h
    · exact Or.inl h
    · exact Or.inr (by simp [h])
    · exact Or.inr (by simp [h])

/-- Witness for C10: the two tiled clients of `twoClients` both get the window area less
their borders. -/
theorem monocle_geometry_witness :
    ((monocle configDef twoClients).mem 1).x = 0 ∧ ((monocle configDef twoClients).mem 1).y = 18
    ∧ ((monocle configDef twoClients).mem 1).w = 1022
    ∧ ((monocle configDef twoClients).mem 1).h = 748
    ∧ ((monocle configDef twoClients).mem 2).w = 1022
    ∧ ((monocle configDef twoClients).mem 2).h = 748 := by
  have h := (monocle_geometry configDef twoClients (by decide) (by decide!) (by decide!)).1
  obtain ⟨a1, a2, a3, a4, _⟩ := h 1 (by decide!) (by decide!) (by decide!)
  obtain ⟨_, _, b3, b4, _⟩ := h 2 (by decide!) (by decide!) (by decide!)
  exact ⟨a1.trans (by decide!), a2.trans (by decide!), a3.trans (by decide!),
    a4.trans (by decide!), b3.trans (by decide!), b4.trans (by decide!)⟩

/-! ## The write-through invariant of the per-tag settings -/

theorem PertagInv.of_params {m m2 : Monitor} (h : m2.params = m.params) (hi : PertagInv m) :
    PertagInv m2 := by
  simp only [Monitor.params, Prod.mk.injEq] at h
  obtain ⟨h1, h2, h3, h4, h5⟩ := h
  unfold PertagInv at *
  rw [h1, h2, h3, h4, h5]
  exact hi

@[simp] theorem arrange_params (env : Env) (s : WM) :
    (arrange env s).mons.params = s.mons.params := by
  simp [Monitor.params]

@[simp] theorem focus_params (s : WM) (c : Option Nat) :
    (focus s c).mons.params = s.mons.params := by
  simp [Monitor.params]

theorem loadpertag_inv (m : Monitor) : PertagInv (loadpertag m) := by
  refine ⟨rfl, rfl, rfl, fun b => ?_⟩
  rw [loadpertag_lt]
  rfl

theorem loadpertag_pertag (m : Monitor) : (loadpertag m).pertag = m.pertag := rfl

theorem tag_params (env : Env) (s : WM) (ui : Nat) :
    (tag env s ui).mons.params = s.mons.params := by
  unfold tag
  split
  · split
    · simp [WM.store]
    · rfl
  · rfl

theorem toggletag_params (env : Env) (s : WM) (ui : Nat) :
    (toggletag env s ui).mons.params = s.mons.params := by
  unfold toggletag
  split
  · rfl
  · dsimp only
    split
    · simp [WM.store]
    · rfl

theorem detach_params (s : WM) (c : Nat) : (detach s c).mons.params = s.mons.params := rfl

theorem attach_params (s : WM) (c : Nat) : (attach s c).mons.params = s.mons.params := rfl

theorem attachstack_params (s : WM) (c : Nat) :
    (attachstack s c).mons.params = s.mons.params := rfl

theorem detachstack_params (s : WM) (c : Nat) :
    (detachstack s c).mons.params = s.mons.params := by
  unfold detachstack
  dsimp only
  split <;> rfl

theorem pop_params (env : Env) (s : WM) (c : Nat) :
    (pop env s c).mons.params = s.mons.params := by
  simp [pop, detach_params, attach_params]

theorem unmanage_params (env : Env) (s : WM) (c : Nat) :
    (unmanage env s c).mons.params = s.mons.params := by
  simp [unmanage, detach_params, detachstack_params]

theorem manage_params (env : Env) (s : WM) (a w : Nat) (xw : XWindow) :
    (manage env s a w xw).mons.params = s.mons.params := by
  simp [manage]
  rfl

theorem view_inv (env : Env) (s : WM) (ui : Nat) (h : PertagInv s.mons) :
    PertagInv (view env s ui).mons := by
  unfold view
  dsimp only
  split
  · exact h
  · exact PertagInv.of_params ((arrange_params _ _).trans (focus_params _ _)) (loadpertag_inv _)

/-- Where `toggleview` returns, every run of it (`toggleviewRun`) ends in the state it
returns. -/
theorem toggleview_eq_run {env : Env} {s t : WM} {ui : Nat} (undef : Nat)
    (h : toggleview env s ui = some t) : toggleviewRun env s ui undef = t := by
  unfold toggleview at h
  unfold toggleviewRun
  dsimp only at h ⊢
  by_cases hnz : s.mons.tagset s.mons.seltags ^^^ (ui &&& TAGMASK env) = 0
  · rw [if_neg (by simpa using hnz)] at h ⊢
    cases h
    rfl
  · rw [if_pos hnz] at h ⊢
    split at h
    · cases h
    · rename_i bit hb
      cases h
      rw [hb]
      rfl

theorem reachable_of_toggleview {env : Env} {s t : WM} (ui : Nat) (h : Reachable env s)
    (ht : toggleview env s ui = some t) : Reachable env t := by
  rw [← toggleview_eq_run 0 ht]
  exact Reachable.toggleview ui 0 h

theorem toggleviewRun_inv (env : Env) (s : WM) (ui undef : Nat) (h : PertagInv s.mons) :
    PertagInv (toggleviewRun env s ui undef).mons := by
  unfold toggleviewRun
  dsimp only
  split
  · exact PertagInv.of_params ((arrange_params _ _).trans (focus_params _ _)) (loadpertag_inv _)
  · exact h

theorem setfullscreen_params (env : Env) (s : WM) (c : Nat) (b : Bool) :
    (setfullscreen env s c b).mons.params = s.mons.params := by
  unfold setfullscreen
  split
  · rfl
  · simp [WM.store]

theorem clientmessage_params (env : Env) (s : WM) (window : Nat) (msg : XClientMessage) :
    (clientmessage env s window msg).mons.params = s.mons.params := by
  cases msg with
  | netWMState action fs =>
    simp only [clientmessage]
    split
    · rfl
    · split
      · exact setfullscreen_params _ _ _ _
      · rfl
  | netActiveWindow =>
    simp only [clientmessage]
    split
    · rfl
    · rw [pop_params]
      split <;> rfl
  | other => rfl

theorem incnmaster_inv (env : Env) (s : WM) (i : Int) (h : PertagInv s.mons) :
    PertagInv (incnmaster env s i).mons := by
  unfold incnmaster
  refine PertagInv.of_params (arrange_params _ _) ?_
  obtain ⟨h1, h2, h3, h4⟩ := h
  exact ⟨by simp, by simpa using h2, by simpa using h3, by simpa using h4⟩

theorem setmfact_inv (env : Env) (s : WM) (f : Rat) (h : PertagInv s.mons) :
    PertagInv (setmfact env s f).mons := by
  unfold setmfact
  split
  · exact h
  · dsimp only
    generalize (if f < 1 then f32 (f + s.mons.mfact) else f32 (f64 (f - 1))) = g
    by_cases hg : g < f64 (1 / 10) ∨ g > f64 (9 / 10)
    · rw [if_pos hg]; exact h
    · rw [if_neg hg]
      refine PertagInv.of_params (arrange_params _ _) ?_
      obtain ⟨h1, h2, h3, h4⟩ := h
      exact ⟨by simpa using h1, by simp, by simpa using h3, by simpa using h4⟩

theorem setlayout_inv (env : Env) (s : WM) (v : Option Layout) (h : PertagInv s.mons) :
    PertagInv (setlayout env s v).mons := by
  obtain ⟨h1, h2, h3, h4⟩ := h
  have key : ∀ (b : Bool) (m1 : Monitor), PertagInv m1 →
      PertagInv (if b = true then arrange env { s with mons := m1 }
        else { s with mons := m1 }).mons := by
    intro b m1 hm
    split
    · exact PertagInv.of_params (arrange_params _ _) hm
    · exact hm
  cases v with
  | none =>
    unfold setlayout
    dsimp only
    apply key
    refine ⟨by simpa using h1, by simpa using h2, by simp, fun b => ?_⟩
    by_cases hb : b = !s.mons.pertag.sellts s.mons.pertag.curtag
    · subst hb; simp [Function.update]
    · simp [Function.update, hb, h4 b]
  | some l =>
    by_cases hl : l = s.mons.lt s.mons.sellt
    · unfold setlayout
      simp only [hl, ne_eq, not_true_eq_false, decide_False, Bool.false_eq_true, if_false]
      apply key
      refine ⟨by simpa using h1, by simpa using h2, by simpa using h3, fun b => ?_⟩
      by_cases hb : b = s.mons.sellt
      · subst hb; simp [Function.update]
      · simp [Function.update, hb, h4 b]
    · unfold setlayout
      simp only [hl, ne_eq, not_false_eq_true, decide_True, if_true]
      apply key
      refine ⟨by simpa using h1, by simpa using h2, by simp, fun b => ?_⟩
      by_cases hb : b = !s.mons.pertag.sellts s.mons.pertag.curtag
      · subst hb; simp [Function.update]
      · simp [Function.update, hb, h4 b]

theorem togglebar_params (env : Env) (s : WM) :
    (togglebar env s).mons.params = s.mons.params := by
  unfold togglebar
  rw [arrange_params]
  unfold updatebarpos
  dsimp only
  split <;> rfl

theorem togglefloating_params (env : Env) (s : WM) :
    (togglefloating env s).mons.params = s.mons.params := by
  unfold togglefloating
  split
  · rfl
  · dsimp only
    split
    · rfl
    · rw [arrange_params]; rfl

theorem focusstack_params (s : WM) (i : Int) :
    (focusstack s i).mons.params = s.mons.params := by
  unfold focusstack
  split
  · rfl
  · dsimp only
    split
    · exact focus_params _ _
    · rfl

theorem zoom_params (env : Env) (s t : WM) (h : zoom env s = some t) :
    t.mons.params = s.mons.params := by
  unfold zoom at h
  dsimp only at h
  split at h
  · cases h; rfl
  · split at h
    · split at h
      · cases h; rfl
      · split at h
        · cases h; rfl
        · cases h; exact pop_params _ _ _
    · split at h
      · cases h
      · cases h; exact pop_params _ _ _

theorem initial_inv (env : Env) (mem : Nat → Client) : PertagInv (initial env mem).mons := by
  have h : (initial env mem).mons.params = (createmon env).params := by
    simp only [initial, updategeom, updatebarpos]
    split
    · split <;> rfl
    · rfl
  refine PertagInv.of_params h ?_
  exact ⟨rfl, rfl, rfl, fun b => rfl⟩

/-- The write-through invariant holds in every reachable state. -/
theorem reachable_pertagInv {env : Env} {s : WM} (h : Reachable env s) : PertagInv s.mons := by
  induction h with
  | init mem => exact initial_inv env mem
  | manage a w xw _ _ _ ih => exact PertagInv.of_params (manage_params _ _ _ _ _) ih
  | unmanage c _ _ ih => exact PertagInv.of_params (unmanage_params _ _ _) ih
  | tag ui _ ih => exact PertagInv.of_params (tag_params _ _ _) ih
  | toggletag ui _ ih => exact PertagInv.of_params (toggletag_params _ _ _) ih
  | view ui _ ih => exact view_inv _ _ _ ih
  | toggleview ui undef _ ih => exact toggleviewRun_inv _ _ _ _ ih
  | clientmessage window msg _ ih => exact PertagInv.of_params (clientmessage_params _ _ _ _) ih
  | incnmaster i _ ih => exact incnmaster_inv _ _ _ ih
  | setmfact f _ ih => exact setmfact_inv _ _ _ ih
  | setlayout v _ ih => exact setlayout_inv _ _ _ ih
  | togglebar _ ih => exact PertagInv.of_params (togglebar_params _ _) ih
  | togglefloating _ ih => exact PertagInv.of_params (togglefloating_params _ _) ih
  | focus c _ _ ih => exact PertagInv.of_params (focus_params _ _) ih
  | focusstack i _ ih => exact PertagInv.of_params (focusstack_params _ _) ih
  | zoom _ hz ih => exact PertagInv.of_params (zoom_params _ _ _ hz) ih

/-! ## `view`: the round trip -/

theorem single_tag_and_mask (env : Env) {j : Nat} (hj : j < env.ntags) :
    (1 <<< j) &&& TAGMASK env = 1 <<< j := by
  unfold TAGMASK
  rw [Nat.one_shiftLeft, Nat.one_shiftLeft, Nat.and_pow_two_sub_one_eq_mod]
  exact Nat.mod_eq_of_lt (Nat.pow_lt_pow_right (by decide) hj)

theorem view_fields (env : Env) (s : WM) (ui : Nat)
    (h1 : ui &&& TAGMASK env ≠ s.mons.tagset s.mons.seltags) :
    (view env s ui).mons.seltags = !s.mons.seltags
    ∧ (view env s ui).mons.tagset
        = (if ui &&& TAGMASK env ≠ 0 then
             Function.update s.mons.tagset (!s.mons.seltags) (ui &&& TAGMASK env)
           else s.mons.tagset)
    ∧ (view env s ui).mons.pertag
        = { s.mons.pertag with
            prevtag := s.mons.pertag.curtag,
            curtag := if ui &&& TAGMASK env ≠ 0 then (if ui = allOnes then 0 else lowbit ui + 1)
                      else s.mons.pertag.prevtag }
    ∧ PertagInv (view env s ui).mons := by
  unfold view
  dsimp only
  rw [if_neg h1]
  by_cases h0 : ui &&& TAGMASK env = 0
  · simp only [h0, ne_eq, not_true_eq_false, if_false, arrange_seltags, focus_seltags,
      arrange_tagset, focus_tagset, arrange_pertag, focus_pertag]
    exact ⟨rfl, rfl, rfl,
      PertagInv.of_params ((arrange_params _ _).trans (focus_params _ _)) (loadpertag_inv _)⟩
  · simp only [h0, ne_eq, not_false_eq_true, if_true, arrange_seltags, focus_seltags,
      arrange_tagset, focus_tagset, arrange_pertag, focus_pertag]
    exact ⟨rfl, rfl, rfl,
      PertagInv.of_params ((arrange_params _ _).trans (focus_params _ _)) (loadpertag_inv _)⟩

/-- C3: in every reachable state with active tag-set `A` and canonical index `k`, and for
every single-tag mask `m = 1 << j` (with `j` below the number of tags) different from `A`:
`view(m)` makes `m` the active set, and a following `view(0)` restores the tag-set
selector, the active tag-set `A`, the canonical index `k`, and the live master count,
split factor, selected layout slot and both layout assignments that were in force before
the first `view`. -/
theorem view_roundtrip (env : Env) (s : WM) (j : Nat) (hr : Reachable env s)
    (hj : j < env.ntags) (hne : 1 <<< j ≠ s.mons.tagset s.mons.seltags) :
    (view env s (1 <<< j)).mons.tagset (view env s (1 <<< j)).mons.seltags = 1 <<< j
    ∧ (view env (view env s (1 <<< j)) 0).mons.seltags = s.mons.seltags
    ∧ (view env (view env s (1 <<< j)) 0).mons.tagset s.mons.seltags
        = s.mons.tagset s.mons.seltags
    ∧ (view env (view env s (1 <<< j)) 0).mons.pertag.curtag = s.mons.pertag.curtag
    ∧ (view env (view env s (1 <<< j)) 0).mons.nmaster = s.mons.nmaster
    ∧ (view env (view env s (1 <<< j)) 0).mons.mfact = s.mons.mfact
    ∧ (view env (view env s (1 <<< j)) 0).mons.sellt = s.mons.sellt
    ∧ (view env (view env s (1 <<< j)) 0).mons.lt = s.mons.lt := by
  have hm := single_tag_and_mask env hj
  have hm0 : (1 <<< j) &&& TAGMASK env ≠ 0 := by
    rw [hm, Nat.one_shiftLeft]; exact (Nat.two_pow_pos j).ne'
  obtain ⟨a1, a2, a3, _⟩ := view_fields env s (1 <<< j) (by rw [hm]; exact hne)
  rw [if_pos hm0] at a2
  have hact : (view env s (1 <<< j)).mons.tagset (view env s (1 <<< j)).mons.seltags
      = 1 <<< j := by
    rw [a1, a2, hm]; simp
  obtain ⟨b1, b2, b3, b4⟩ := view_fields env (view env s (1 <<< j)) 0 (by
    rw [hact, Nat.zero_and, Nat.one_shiftLeft]; exact (Nat.two_pow_pos j).ne)
  simp only [Nat.zero_and, ne_eq, not_true_eq_false, if_false] at b2 b3
  have hcur : (view env (view env s (1 <<< j)) 0).mons.pertag.curtag = s.mons.pertag.curtag := by
    rw [b3, a3]
  have harrs : (view env (view env s (1 <<< j)) 0).mons.pertag.nmasters = s.mons.pertag.nmasters
      ∧ (view env (view env s (1 <<< j)) 0).mons.pertag.mfacts = s.mons.pertag.mfacts
      ∧ (view env (view env s (1 <<< j)) 0).mons.pertag.sellts = s.mons.pertag.sellts
      ∧ (view env (view env s (1 <<< j)) 0).mons.pertag.ltidxs = s.mons.pertag.ltidxs := by
    rw [b3, a3]; exact ⟨rfl, rfl, rfl, rfl⟩
  obtain ⟨i1, i2, i3, i4⟩ := reachable_pertagInv hr
  obtain ⟨k1, k2, k3, k4⟩ := b4
  refine ⟨hact, ?_, ?_, hcur, ?_, ?_, ?_, ?_⟩
  · rw [b1, a1]; simp
  · rw [b2, a2]
    cases hs : s.mons.seltags <;> simp [Function.update]
  · rw [k1, hcur, harrs.1, ← i1]
  · rw [k2, hcur, harrs.2.1, ← i2]
  · rw [k3, hcur, harrs.2.2.1, ← i3]
  · funext b
    rw [k4, hcur, harrs.2.2.2, ← i4]

theorem startState_reachable : Reachable configDef startState := Reachable.init zeroMem

theorem oneClient_reachable : Reachable configDef oneClient :=
  Reachable.manage 1 101 plainWindow startState_reachable (by decide) (by decide)

theorem twoClients_reachable : Reachable configDef twoClients :=
  Reachable.manage 2 102 plainWindow oneClient_reachable (by decide!) (by decide!)

theorem tunedState_reachable : Reachable configDef tunedState :=
  Reachable.incnmaster 1 twoClients_reachable

/-- Witness for C3: with master count 2 on tag 1, viewing tag 2 loads its master count 1,
and `view(0)` brings back tag 1 with master count 2. -/
theorem view_roundtrip_witness :
    (view configDef tunedState (1 <<< 1)).mons.nmaster = 1
    ∧ (view configDef (view configDef tunedState (1 <<< 1)) 0).mons.nmaster = 2
    ∧ (view configDef (view configDef tunedState (1 <<< 1)) 0).mons.pertag.curtag = 1 := by
  have h := view_roundtrip configDef tunedState 1 tunedState_reachable (by decide) (by decide!)
  exact ⟨by decide!, h.2.2.2.2.1.trans (by decide!), h.2.2.2.1.trans (by decide!)⟩

/-! ## The tag invariant -/

theorem validTags_and_mask (env : Env) {x : Nat} (h : x &&& TAGMASK env ≠ 0) :
    ValidTags env (x &&& TAGMASK env) :=
  ⟨h, by rw [Nat.and_assoc, Nat.and_self]⟩

theorem validTags_xor (env : Env) {t u : Nat} (ht : ValidTags env t)
    (h : t ^^^ (u &&& TAGMASK env) ≠ 0) : ValidTags env (t ^^^ (u &&& TAGMASK env)) :=
  ⟨h, by rw [Nat.and_xor_distrib_right, ht.2, Nat.and_assoc, Nat.and_self]⟩

theorem validTags_one (env : Env) (h : 1 ≤ env.ntags) : ValidTags env 1 := by
  refine ⟨by decide, ?_⟩
  have := single_tag_and_mask env (j := 0) (by omega)
  simpa using this

theorem TagInv.of_tagview {env : Env} {s t : WM} (h : t.tagview = s.tagview)
    (hi : TagInv env s) : TagInv env t := by
  simp only [WM.tagview, Prod.mk.injEq] at h
  obtain ⟨h1, h2, h3⟩ := h
  refine ⟨fun b => by rw [h1]; exact hi.1 b, fun a ha => ?_⟩
  rw [h2] at ha
  have := congrFun h3 a
  simp only at this
  rw [this]
  exact hi.2 a ha

theorem focus_mem_tags (s : WM) (c : Option Nat) (a : Nat) :
    ((focus s c).mem a).tags = (s.mem a).tags := by
  cases h : focustarget s c with
  | none => rw [focus_none h]
  | some b =>
    rw [focus_some h]
    by_cases hab : a = b
    · subst hab; simp
    · simp [Function.update, hab]

@[simp] theorem focus_tagview (s : WM) (c : Option Nat) : (focus s c).tagview = s.tagview := by
  simp only [WM.tagview, focus_tagset, focus_clients, focus_mem_tags]

@[simp] theorem arrange_tagview (env : Env) (s : WM) : (arrange env s).tagview = s.tagview := by
  simp only [WM.tagview, arrange_tagset, arrange_clients, sameButGeom_tags (arrange_mem env s _)]

theorem erase_tagInv {env : Env} {s t : WM} (hi : TagInv env s)
    (h1 : t.mons.tagset = s.mons.tagset) (h2 : ∀ a ∈ t.mons.clients, a ∈ s.mons.clients)
    (h3 : t.mem = s.mem) : TagInv env t :=
  ⟨fun b => by rw [h1]; exact hi.1 b, fun a ha => by rw [h3]; exact hi.2 a (h2 a ha)⟩

theorem detach_tagInv {env : Env} {s : WM} (c : Nat) (hi : TagInv env s) :
    TagInv env (detach s c) :=
  erase_tagInv hi rfl (fun a ha => by
    simp only [detach, unlink_chainAfter] at ha
    exact List.mem_of_mem_erase ha) rfl

theorem detachstack_tagview (s : WM) (c : Nat) : (detachstack s c).tagview = s.tagview := by
  unfold detachstack
  dsimp only
  split <;> rfl

theorem attach_tagInv {env : Env} {s : WM} (c : Nat) (hi : TagInv env s)
    (hc : ValidTags env (s.mem c).tags) : TagInv env (attach s c) :=
  ⟨hi.1, fun a ha => by
    rcases List.mem_cons.mp ha with h | h
    · subst h; exact hc
    · exact hi.2 a h⟩

theorem pop_tagInv {env : Env} {s : WM} (c : Nat) (hi : TagInv env s)
    (hc : c ∈ s.mons.clients) : TagInv env (pop env s c) := by
  unfold pop
  refine TagInv.of_tagview ((arrange_tagview _ _).trans (focus_tagview _ _)) ?_
  exact attach_tagInv c (detach_tagInv c hi) (hi.2 c hc)

theorem unmanage_tagInv {env : Env} {s : WM} (c : Nat) (hi : TagInv env s) :
    TagInv env (unmanage env s c) := by
  unfold unmanage
  refine TagInv.of_tagview ((arrange_tagview _ _).trans (focus_tagview _ _)) ?_
  exact TagInv.of_tagview (detachstack_tagview _ _) (detach_tagInv c hi)

theorem store_tagInv {env : Env} {s : WM} (a : Nat) (c : Client) (hi : TagInv env s)
    (hc : a ∈ s.mons.clients → ValidTags env c.tags) : TagInv env (s.store a c) :=
  ⟨hi.1, fun b hb => by
    by_cases hba : b = a
    · subst hba; simpa [WM.store] using hc hb
    · simpa [WM.store, Function.update, hba] using hi.2 b hb⟩

theorem tag_tagInv {env : Env} {s : WM} (ui : Nat) (hi : TagInv env s) :
    TagInv env (tag env s ui) := by
  unfold tag
  split
  · split
    · rename_i h
      refine TagInv.of_tagview ((arrange_tagview _ _).trans (focus_tagview _ _)) ?_
      exact store_tagInv _ _ hi (fun _ => validTags_and_mask env h)
    · exact hi
  · exact hi

theorem toggletag_tagInv {env : Env} {s : WM} (ui : Nat) (hi : TagInv env s) :
    TagInv env (toggletag env s ui) := by
  unfold toggletag
  split
  · exact hi
  · dsimp only
    split
    · rename_i h
      refine TagInv.of_tagview ((arrange_tagview _ _).trans (focus_tagview _ _)) ?_
      exact store_tagInv _ _ hi (fun hc => validTags_xor env (hi.2 _ hc) h)
    · exact hi

theorem tagset_tagInv {env : Env} {s : WM} (m1 : Monitor) (hi : TagInv env s)
    (h1 : ∀ b, ValidTags env (m1.tagset b)) (h2 : m1.clients = s.mons.clients) :
    TagInv env { s with mons := m1 } :=
  ⟨h1, fun a ha => hi.2 a (by rw [← h2]; exact ha)⟩

theorem validTags_update {env : Env} {f : Bool → Nat} (hf : ∀ b, ValidTags env (f b)) (b0 : Bool)
    {v : Nat} (hv : ValidTags env v) (b : Bool) : ValidTags env (Function.update f b0 v b) := by
  by_cases h : b = b0
  · subst h; simpa using hv
  · simpa [Function.update, h] using hf b

theorem view_tagInv {env : Env} {s : WM} (ui : Nat) (hi : TagInv env s) :
    TagInv env (view env s ui) := by
  unfold view
  dsimp only
  split
  · exact hi
  · refine TagInv.of_tagview ((arrange_tagview _ _).trans (focus_tagview _ _)) ?_
    apply tagset_tagInv _ hi
    · intro b
      split
      · rename_i h
        exact validTags_update hi.1 _ (validTags_and_mask env h) b
      · exact hi.1 b
    · split <;> rfl

theorem toggleviewRun_tagInv {env : Env} {s : WM} (ui undef : Nat) (hi : TagInv env s) :
    TagInv env (toggleviewRun env s ui undef) := by
  unfold toggleviewRun
  dsimp only
  split
  · rename_i hnz
    refine TagInv.of_tagview ((arrange_tagview _ _).trans (focus_tagview _ _)) ?_
    apply tagset_tagInv _ hi
    · intro b
      exact validTags_update hi.1 _ (validTags_xor env (hi.1 _) hnz) b
    · rfl
  · exact hi

theorem applyrules_tags (env : Env) (m : Monitor) (rc rn : Option String) (c : Client)
    (h : ValidTags env (m.tagset m.seltags)) : ValidTags env (applyrules env m rc rn c).tags := by
  unfold applyrules
  dsimp only
  split
  · rename_i hnz
    exact validTags_and_mask env hnz
  · exact h

theorem enterfullscreen_tags (m : Monitor) (c : Client) : (enterfullscreen m c).tags = c.tags :=
  rfl

theorem leavefullscreen_tags (c : Client) : (leavefullscreen c).tags = c.tags := rfl

theorem updatewindowtype_tags (m : Monitor) (f d : Bool) (c : Client) :
    (updatewindowtype m f d c).tags = c.tags := by
  unfold updatewindowtype
  cases f <;> cases d <;> rfl

theorem updatesizehints_tags (h : Option XSizeHints) (c : Client) :
    (updatesizehints h c).tags = c.tags := rfl

theorem updatewmhints_tags (h : Option XWMHints) (b : Bool) (c : Client) :
    (updatewmhints h b c).tags = c.tags := by
  unfold updatewmhints
  split
  · rfl
  · dsimp only
    split <;> split <;> rfl

theorem manageClient_tags (env : Env) (m : Monitor) (w : Nat) (xw : XWindow) (b : Bool)
    (h : ValidTags env (m.tagset m.seltags)) :
    ValidTags env (manageClient env m w xw b).tags := by
  have key := applyrules_tags env m xw.resClass xw.resName
    (updatetitle xw.name { Client.zero with win := w }) h
  unfold manageClient
  dsimp only
  have e : ∀ c : Client, (if (!c.isfloating) = true then
      { c with isfloating := c.isfixed, oldstate := c.isfixed } else c).tags = c.tags := by
    intro c; split <;> rfl
  rw [e, updatewmhints_tags, updatesizehints_tags, updatewindowtype_tags]
  dsimp only
  split <;> split <;> exact key

theorem manage_tagInv {env : Env} {s : WM} (a w : Nat) (xw : XWindow) (hi : TagInv env s)
    (ha : a ∉ s.mons.clients) : TagInv env (manage env s a w xw) := by
  unfold manage
  dsimp only
  refine TagInv.of_tagview ((focus_tagview _ _).trans (arrange_tagview _ _)) ?_
  refine ⟨hi.1, fun b hb => ?_⟩
  have hb' : b ∈ a :: s.mons.clients := hb
  rcases List.mem_cons.mp hb' with h | h
  · subst h
    simpa [attachstack, attach, WM.store] using manageClient_tags env s.mons w xw _ (hi.1 _)
  · have hba : b ≠ a := fun e => ha (e ▸ h)
    simpa [attachstack, attach, WM.store, Function.update, hba] using hi.2 b h

theorem wintoclient_mem {s : WM} {w c : Nat} (h : wintoclient s w = some c) :
    c ∈ s.mons.clients :=
  List.mem_of_find?_eq_some h

theorem setfullscreen_tagview (env : Env) (s : WM) (c : Nat) (b : Bool) :
    (setfullscreen env s c b).tagview = s.tagview := by
  unfold setfullscreen
  split
  · simp only [WM.tagview, WM.store, Prod.mk.injEq, true_and]
    funext a
    by_cases h : a = c
    · subst h; simp [enterfullscreen_tags]
    · simp [Function.update, h]
  · rw [arrange_tagview]
    simp only [WM.tagview, WM.store, Prod.mk.injEq, true_and]
    funext a
    by_cases h : a = c
    · subst h; simp [leavefullscreen_tags]
    · simp [Function.update, h]

theorem clientmessage_tagInv {env : Env} {s : WM} (window : Nat) (msg : XClientMessage)
    (hi : TagInv env s) : TagInv env (clientmessage env s window msg) := by
  cases msg with
  | netWMState action fs =>
    simp only [clientmessage]
    split
    · exact hi
    · split
      · exact TagInv.of_tagview (setfullscreen_tagview _ _ _ _) hi
      · exact hi
  | netActiveWindow =>
    simp only [clientmessage]
    split
    · exact hi
    · rename_i c hc
      have hmem := wintoclient_mem hc
      apply pop_tagInv c _ (by split <;> exact hmem)
      split
      · apply tagset_tagInv _ hi
        · intro b
          exact validTags_update hi.1 _ (hi.2 c hmem) b
        · rfl
      · exact hi
  | other => exact hi

theorem incnmaster_tagview (env : Env) (s : WM) (i : Int) :
    (incnmaster env s i).tagview = s.tagview := by
  unfold incnmaster
  rw [arrange_tagview]; rfl

theorem setmfact_tagview (env : Env) (s : WM) (f : Rat) :
    (setmfact env s f).tagview = s.tagview := by
  unfold setmfact
  split
  · rfl
  · dsimp only
    generalize (if f < 1 then f32 (f + s.mons.mfact) else f32 (f64 (f - 1))) = g
    by_cases hg : g < f64 (1 / 10) ∨ g > f64 (9 / 10)
    · rw [if_pos hg]
    · rw [if_neg hg, arrange_tagview]; rfl

theorem setlayout_tagview (env : Env) (s : WM) (v : Option Layout) :
    (setlayout env s v).tagview = s.tagview := by
  unfold setlayout
  dsimp only
  split
  · rw [arrange_tagview]; rfl
  · rfl

theorem togglebar_tagview (env : Env) (s : WM) : (togglebar env s).tagview = s.tagview := by
  unfold togglebar
  rw [arrange_tagview]
  unfold updatebarpos
  dsimp only
  split <;> rfl

theorem togglefloating_tagview (env : Env) (s : WM) :
    (togglefloating env s).tagview = s.tagview := by
  unfold togglefloating
  split
  · rfl
  · rename_i a _
    dsimp only
    split
    · rfl
    · rw [arrange_tagview]
      simp only [WM.tagview, WM.store, Prod.mk.injEq, true_and]
      funext b
      by_cases h : b = a
      · subst h
        simp only [Function.update_same]
        split
        · rw [sameButGeom_tags (resize_sameButGeom _ _ _ _ _ _ _ _)]
        · rfl
      · simp [Function.update, h]

theorem focusstack_tagview (s : WM) (i : Int) : (focusstack s i).tagview = s.tagview := by
  unfold focusstack
  split
  · rfl
  · dsimp only
    split
    · exact focus_tagview _ _
    · rfl

theorem nexttiled_subset (m : Monitor) (mem : Nat → Client) (l : List Nat) :
    ∀ a ∈ nexttiled m mem l, a ∈ l := by
  induction l with
  | nil => intro a h; cases h
  | cons b l ih =>
    intro a h
    unfold nexttiled at h
    split at h
    · exact List.mem_cons_of_mem _ (ih a h)
    · exact h

theorem chainAfter_subset (c : Nat) (l : List Nat) : ∀ a ∈ chainAfter c l, a ∈ l := by
  induction l with
  | nil => intro a h; cases h
  | cons b l ih =>
    intro a h
    unfold chainAfter at h
    split at h
    · exact List.mem_cons_of_mem _ h
    · exact List.mem_cons_of_mem _ (ih a h)

/-! ## The list invariant -/

theorem ListInv.of_listview {s t : WM} (h : t.listview = s.listview) (hi : ListInv s) :
    ListInv t := by
  simp only [WM.listview, Prod.mk.injEq] at h
  obtain ⟨h1, h2, h3⟩ := h
  unfold ListInv
  rw [h1, h2, h3]
  exact hi

@[simp] theorem arrange_listview (env : Env) (s : WM) :
    (arrange env s).listview = s.listview := by
  simp [WM.listview]

theorem firstvisible_mem {m : Monitor} {mem : Nat → Client} {l : List Nat} {a : Nat}
    (h : firstvisible m mem l = some a) : a ∈ l := by
  rw [firstvisible_eq_find] at h
  exact List.mem_of_find?_eq_some h

theorem lastvisible_mem {m : Monitor} {mem : Nat → Client} {l : List Nat} {acc : Option Nat}
    {a : Nat} (h : lastvisible m mem l acc = some a) : a ∈ l ∨ acc = some a := by
  induction l generalizing acc with
  | nil => exact Or.inr h
  | cons b l ih =>
    unfold lastvisible at h
    split at h
    · rcases ih h with h1 | h1
      · exact Or.inl (List.mem_cons_of_mem _ h1)
      · cases h1; exact Or.inl (List.mem_cons_self _ _)
    · rcases ih h with h1 | h1
      · exact Or.inl (List.mem_cons_of_mem _ h1)
      · exact Or.inr h1

theorem focustarget_mem {s : WM} {c : Option Nat} {a : Nat} (h : focustarget s c = some a) :
    a ∈ s.mons.stack ∨ c = some a := by
  cases c with
  | none => exact Or.inl (firstvisible_mem h)
  | some b =>
    simp only [focustarget] at h
    split at h
    · exact Or.inl (firstvisible_mem h)
    · exact Or.inr h

theorem focus_listInv {s : WM} (c : Option Nat) (hi : ListInv s)
    (hc : ∀ a, c = some a → a ∈ s.mons.stack) : ListInv (focus s c) := by
  obtain ⟨h1, h2, h3, h4⟩ := hi
  cases h : focustarget s c with
  | none =>
    rw [focus_none h]
    exact ⟨h1, h2, h3, fun c hc => by cases hc⟩
  | some a =>
    have ha : a ∈ s.mons.stack := by
      rcases focustarget_mem h with h5 | h5
      · exact h5
      · exact hc a h5
    rw [focus_some h]
    refine ⟨h1, ?_, ?_, ?_⟩
    · exact List.nodup_cons.mpr ⟨fun hm => (List.Nodup.mem_erase_iff h2).mp hm |>.1 rfl,
        h2.erase a⟩
    · intro b
      show b ∈ a :: s.mons.stack.erase a ↔ b ∈ s.mons.clients
      rw [← h3 b]
      by_cases hba : b = a
      · subst hba; simp [ha]
      · simp [hba, List.mem_erase_of_ne hba]
    · intro c hc
      cases hc
      exact List.mem_cons_self _ _

theorem manage_listInv {env : Env} {s : WM} (a w : Nat) (xw : XWindow) (hi : ListInv s)
    (ha : a ∉ s.mons.clients) (hs : a ∉ s.mons.stack) : ListInv (manage env s a w xw) := by
  obtain ⟨h1, h2, h3, h4⟩ := hi
  unfold manage
  dsimp only
  apply focus_listInv none _ (fun a h => by cases h)
  apply ListInv.of_listview (arrange_listview _ _)
  refine ⟨List.nodup_cons.mpr ⟨ha, h1⟩, List.nodup_cons.mpr ⟨hs, h2⟩, ?_, ?_⟩
  · intro b
    show b ∈ a :: s.mons.stack ↔ b ∈ a :: s.mons.clients
    simp [h3 b]
  · intro c hc
    cases hc
    exact List.mem_cons_self _ _

theorem detach_detachstack_listInv {s : WM} (c : Nat) (hi : ListInv s) :
    ListInv (detachstack (detach s c) c) := by
  obtain ⟨h1, h2, h3, h4⟩ := hi
  have hmem : ∀ b, b ∈ s.mons.stack.erase c ↔ b ∈ s.mons.clients.erase c := by
    intro b
    rw [List.Nodup.mem_erase_iff h2, List.Nodup.mem_erase_iff h1, h3 b]
  unfold detachstack
  simp only [detach, unlink_chainAfter]
  split
  · exact ⟨h1.erase c, h2.erase c, hmem, fun b hb => firstvisible_mem hb⟩
  · rename_i hsel
    refine ⟨h1.erase c, h2.erase c, hmem, fun b hb => ?_⟩
    have hbc : b ≠ c := by
      rintro rfl
      exact hsel hb
    exact (List.mem_erase_of_ne hbc).mpr (h4 b hb)

theorem unmanage_listInv {env : Env} {s : WM} (c : Nat) (hi : ListInv s) :
    ListInv (unmanage env s c) := by
  unfold unmanage
  apply ListInv.of_listview (arrange_listview _ _)
  exact focus_listInv none (detach_detachstack_listInv c hi) (fun a h => by cases h)

theorem pop_listInv {env : Env} {s : WM} (c : Nat) (hi : ListInv s) (hc : c ∈ s.mons.clients) :
    ListInv (pop env s c) := by
  obtain ⟨h1, h2, h3, h4⟩ := hi
  unfold pop
  apply ListInv.of_listview (arrange_listview _ _)
  apply focus_listInv
  · refine ⟨?_, h2, ?_, h4⟩
    · simp only [attach, detach, unlink_chainAfter]
      exact List.nodup_cons.mpr ⟨fun hm => (List.Nodup.mem_erase_iff h1).mp hm |>.1 rfl,
        h1.erase c⟩
    · intro b
      simp only [attach, detach, unlink_chainAfter]
      rw [h3 b]
      by_cases hbc : b = c
      · subst hbc; simp [hc]
      · simp [hbc, List.mem_erase_of_ne hbc]
  · intro a ha
    cases ha
    exact (h3 c).mpr hc

theorem store_listview (s : WM) (a : Nat) (c : Client) : (s.store a c).listview = s.listview :=
  rfl

/-- The call `focus(NULL)` followed by `arrange`, the tail of most commands, keeps the
list invariant. -/
theorem arrange_focus_none_listInv {env : Env} {s : WM} (hi : ListInv s) :
    ListInv (arrange env (focus s none)) :=
  ListInv.of_listview (arrange_listview _ _) (focus_listInv none hi (fun a h => by cases h))

theorem tag_listInv {env : Env} {s : WM} (ui : Nat) (hi : ListInv s) :
    ListInv (tag env s ui) := by
  unfold tag
  split
  · split
    · exact arrange_focus_none_listInv (ListInv.of_listview (store_listview _ _ _) hi)
    · exact hi
  · exact hi

theorem toggletag_listInv {env : Env} {s : WM} (ui : Nat) (hi : ListInv s) :
    ListInv (toggletag env s ui) := by
  unfold toggletag
  split
  · exact hi
  · dsimp only
    split
    · exact arrange_focus_none_listInv (ListInv.of_listview (store_listview _ _ _) hi)
    · exact hi

theorem loadpertag_lists (m : Monitor) :
    (loadpertag m).clients = m.clients ∧ (loadpertag m).stack = m.stack
    ∧ (loadpertag m).sel = m.sel := ⟨rfl, rfl, rfl⟩

theorem view_listInv {env : Env} {s : WM} (ui : Nat) (hi : ListInv s) :
    ListInv (view env s ui) := by
  unfold view
  dsimp only
  split
  · exact hi
  · apply arrange_focus_none_listInv
    apply ListInv.of_listview _ hi
    split <;> rfl

theorem toggleviewRun_listInv {env : Env} {s : WM} (ui undef : Nat) (hi : ListInv s) :
    ListInv (toggleviewRun env s ui undef) := by
  unfold toggleviewRun
  dsimp only
  split
  · apply arrange_focus_none_listInv
    exact ListInv.of_listview rfl hi
  · exact hi

theorem setfullscreen_listview (env : Env) (s : WM) (c : Nat) (b : Bool) :
    (setfullscreen env s c b).listview = s.listview := by
  unfold setfullscreen
  split
  · rfl
  · rw [arrange_listview]; rfl

theorem clientmessage_listInv {env : Env} {s : WM} (window : Nat) (msg : XClientMessage)
    (hi : ListInv s) : ListInv (clientmessage env s window msg) := by
  cases msg with
  | netWMState action fs =>
    simp only [clientmessage]
    split
    · exact hi
    · split
      · exact ListInv.of_listview (setfullscreen_listview _ _ _ _) hi
      · exact hi
  | netActiveWindow =>
    simp only [clientmessage]
    split
    · exact hi
    · rename_i c hc
      have hmem := wintoclient_mem hc
      apply pop_listInv c _ (by split <;> exact hmem)
      split
      · exact ListInv.of_listview rfl hi
      · exact hi
  | other => exact hi

theorem incnmaster_listview (env : Env) (s : WM) (i : Int) :
    (incnmaster env s i).listview = s.listview := by
  unfold incnmaster
  rw [arrange_listview]; rfl

theorem setmfact_listview (env : Env) (s : WM) (f : Rat) :
    (setmfact env s f).listview = s.listview := by
  unfold setmfact
  split
  · rfl
  · dsimp only
    generalize (if f < 1 then f32 (f + s.mons.mfact) else f32 (f64 (f - 1))) = g
    by_cases hg : g < f64 (1 / 10) ∨ g > f64 (9 / 10)
    · rw [if_pos hg]
    · rw [if_neg hg, arrange_listview]; rfl

theorem setlayout_listview (env : Env) (s : WM) (v : Option Layout) :
    (setlayout env s v).listview = s.listview := by
  unfold setlayout
  dsimp only
  split
  · rw [arrange_listview]; rfl
  · rfl

theorem togglebar_listview (env : Env) (s : WM) : (togglebar env s).listview = s.listview := by
  unfold togglebar
  rw [arrange_listview]
  unfold updatebarpos
  dsimp only
  split <;> rfl

theorem togglefloating_listview (env : Env) (s : WM) :
    (togglefloating env s).listview = s.listview := by
  unfold togglefloating
  split
  · rfl
  · dsimp only
    split
    · rfl
    · rw [arrange_listview]; rfl

theorem focusstack_listInv {s : WM} (i : Int) (hi : ListInv s) : ListInv (focusstack s i) := by
  unfold focusstack
  split
  · exact hi
  · rename_i sel hsel
    dsimp only
    split
    · rename_i c hc
      apply focus_listInv _ hi
      intro a ha
      cases ha
      rw [hi.2.2.1]
      split at hc
      · split at hc
        · rename_i c1 h1
          cases hc
          exact chainAfter_subset _ _ _ (firstvisible_mem h1)
        · exact firstvisible_mem hc
      · split at hc
        · rename_i c1 h1
          cases hc
          rcases lastvisible_mem h1 with h2 | h2
          · exact (List.takeWhile_sublist _).subset h2
          · cases h2
        · rcases lastvisible_mem hc with h2 | h2
          · exact (List.dropWhile_sublist _).subset h2
          · cases h2
    · exact hi

theorem zoom_listInv {env : Env} {s t : WM} (hi : ListInv s) (h : zoom env s = some t) :
    ListInv t := by
  unfold zoom at h
  dsimp only at h
  split at h
  · cases h; exact hi
  · split at h
    · split at h
      · cases h; exact hi
      · rename_i c hc
        split at h
        · cases h; exact hi
        · rename_i c1 hc1
          cases h
          apply pop_listInv c1 hi
          have := List.mem_of_mem_head? hc1
          exact chainAfter_subset c _ _ (nexttiled_subset _ _ _ _ this)
    · split at h
      · cases h
      · rename_i c hc
        cases h
        exact pop_listInv c hi ((hi.2.2.1 c).mp (hi.2.2.2 c hc))

theorem initial_listInv (env : Env) (mem : Nat → Client) : ListInv (initial env mem) := by
  have h : (initial env mem).listview = ([], [], none) := by
    simp only [initial, updategeom, updatebarpos, WM.listview]
    split
    · split <;> rfl
    · rfl
  simp only [WM.listview, Prod.mk.injEq] at h
  obtain ⟨h1, h2, h3⟩ := h
  unfold ListInv
  rw [h1, h2, h3]
  exact ⟨List.nodup_nil, List.nodup_nil, fun a => Iff.rfl, fun c hc => by cases hc⟩

/-- In every reachable state the insertion list and the stack list hold the same clients,
each once, and the selected client is one of them. -/
theorem reachable_listInv {env : Env} {s : WM} (h : Reachable env s) : ListInv s := by
  induction h with
  | init mem => exact initial_listInv env mem
  | manage a w xw _ ha hs ih => exact manage_listInv a w xw ih ha hs
  | unmanage c _ _ ih => exact unmanage_listInv c ih
  | tag ui _ ih => exact tag_listInv ui ih
  | toggletag ui _ ih => exact toggletag_listInv ui ih
  | view ui _ ih => exact view_listInv ui ih
  | toggleview ui undef _ ih => exact toggleviewRun_listInv ui undef ih
  | clientmessage window msg _ ih => exact clientmessage_listInv window msg ih
  | incnmaster i _ ih => exact ListInv.of_listview (incnmaster_listview _ _ _) ih
  | setmfact f _ ih => exact ListInv.of_listview (setmfact_listview _ _ _) ih
  | setlayout v _ ih => exact ListInv.of_listview (setlayout_listview _ _ _) ih
  | togglebar _ ih => exact ListInv.of_listview (togglebar_listview _ _) ih
  | togglefloating _ ih => exact ListInv.of_listview (togglefloating_listview _ _) ih
  | focus c _ hc ih => exact focus_listInv _ ih (fun a ha => by cases ha; exact (ih.2.2.1 c).mpr hc)
  | focusstack i _ ih => exact focusstack_listInv i ih
  | zoom _ hz ih => exact zoom_listInv ih hz

/-! ## The tag invariant in reachable states -/

theorem zoom_tagInv {env : Env} {s t : WM} (hi : TagInv env s) (hsel : ∀ c, s.mons.sel = some c →
    c ∈ s.mons.clients) (h : zoom env s = some t) : TagInv env t := by
  unfold zoom at h
  dsimp only at h
  split at h
  · cases h; exact hi
  · split at h
    · split at h
      · cases h; exact hi
      · rename_i c hc
        split at h
        · cases h; exact hi
        · rename_i c1 hc1
          cases h
          apply pop_tagInv c1 hi
          have := List.mem_of_mem_head? hc1
          exact chainAfter_subset c _ _ (nexttiled_subset _ _ _ _ this)
    · split at h
      · cases h
      · rename_i c hc
        cases h
        exact pop_tagInv c hi (hsel c hc)

theorem initial_tagInv (env : Env) (mem : Nat → Client) (hn : 1 ≤ env.ntags) :
    TagInv env (initial env mem) := by
  have h : (initial env mem).mons.tagset = (fun _ => 1) ∧ (initial env mem).mons.clients = [] := by
    simp only [initial, updategeom, updatebarpos]
    split
    · split <;> exact ⟨rfl, rfl⟩
    · exact ⟨rfl, rfl⟩
  refine ⟨fun b => by rw [h.1]; exact validTags_one env hn, fun a ha => ?_⟩
  rw [h.2] at ha
  cases ha

/-- The tag invariant holds in every reachable state. -/
theorem reachable_tagInv {env : Env} {s : WM} (hn : 1 ≤ env.ntags) (h : Reachable env s) :
    TagInv env s := by
  induction h with
  | init mem => exact initial_tagInv env mem hn
  | manage a w xw _ ha _ ih => exact manage_tagInv a w xw ih ha
  | unmanage c _ _ ih => exact unmanage_tagInv c ih
  | tag ui _ ih => exact tag_tagInv ui ih
  | toggletag ui _ ih => exact toggletag_tagInv ui ih
  | view ui _ ih => exact view_tagInv ui ih
  | toggleview ui undef _ ih => exact toggleviewRun_tagInv ui undef ih
  | clientmessage window msg _ ih => exact clientmessage_tagInv window msg ih
  | incnmaster i _ ih => exact TagInv.of_tagview (incnmaster_tagview _ _ _) ih
  | setmfact f _ ih => exact TagInv.of_tagview (setmfact_tagview _ _ _) ih
  | setlayout v _ ih => exact TagInv.of_tagview (setlayout_tagview _ _ _) ih
  | togglebar _ ih => exact TagInv.of_tagview (togglebar_tagview _ _) ih
  | togglefloating _ ih => exact TagInv.of_tagview (togglefloating_tagview _ _) ih
  | focus c _ _ ih => exact TagInv.of_tagview (focus_tagview _ _) ih
  | focusstack i _ ih => exact TagInv.of_tagview (focusstack_tagview _ _) ih
  | zoom hs hz ih =>
    have hl := reachable_listInv hs
    exact zoom_tagInv ih (fun c hc => (hl.2.2.1 c).mp (hl.2.2.2 c hc)) hz

/-- C1: in every state reachable from the initial state (by `manage`, `unmanage`, `tag`,
`toggletag`, `view`, every run of `toggleview`, the client messages, and the other
modelled commands), with at least one tag configured, the tag bitmask of every managed
client is non-zero and is a subset of `TAGMASK`. -/
theorem managed_tags_valid (env : Env) (s : WM) (hn : 1 ≤ env.ntags) (h : Reachable env s) :
    ∀ a ∈ s.mons.clients,
      (s.mem a).tags ≠ 0 ∧ (s.mem a).tags &&& TAGMASK env = (s.mem a).tags :=
  (reachable_tagInv hn h).2

theorem pastShift_reachable : Reachable configDef pastShift :=
  Reachable.toggleview 1 2147483648 (Reachable.view allOnes twoClients_reachable)

/-- Witness for C1: after client 2 of `twoClients` was moved to tag 2, both managed clients
have valid tags; and so they have in `pastShift`, after a run of `toggleview` from the
canonical index 0. -/
theorem managed_tags_valid_witness :
    (((tag configDef twoClients 2).mem 1).tags = 1
      ∧ ((tag configDef twoClients 2).mem 2).tags = 2
      ∧ ∀ a ∈ (tag configDef twoClients 2).mons.clients,
        ((tag configDef twoClients 2).mem a).tags ≠ 0
        ∧ ((tag configDef twoClients 2).mem a).tags &&& TAGMASK configDef
            = ((tag configDef twoClients 2).mem a).tags)
    ∧ ((view configDef twoClients allOnes).mons.pertag.curtag = 0
      ∧ pastShift.mons.clients = [2, 1]
      ∧ ∀ a ∈ pastShift.mons.clients,
        (pastShift.mem a).tags ≠ 0
        ∧ (pastShift.mem a).tags &&& TAGMASK configDef = (pastShift.mem a).tags) :=
  ⟨⟨by decide!, by decide!,
    managed_tags_valid configDef (tag configDef twoClients 2) (by decide)
      (Reachable.tag 2 twoClients_reachable)⟩,
    by decide!, by decide!,
    managed_tags_valid configDef pastShift (by decide) pastShift_reachable⟩

/-! ## Size hints: idempotence -/

theorem snap_nonneg_eq {i z : Int} (hi : 0 < i) (hz : 0 ≤ z) : snap i z = i * (z / i) := by
  unfold snap
  rw [if_pos hi.ne', Int.tmod_eq_emod hz hi.le]
  have := Int.ediv_add_emod z i
  omega

theorem snap_neg (i z : Int) : snap i (-z) = - snap i z := by
  unfold snap
  split
  · have : (-z).tmod i = -(z.tmod i) := by
      rw [Int.tmod_def, Int.tmod_def, Int.neg_tdiv]; ring
    rw [this]; ring
  · rfl

theorem snap_bounds_nonneg {i z : Int} (hi : 0 ≤ i) (hz : 0 ≤ z) :
    0 ≤ snap i z ∧ snap i z ≤ z := by
  rcases hi.lt_or_eq with hi | hi
  · unfold snap
    rw [if_pos hi.ne']
    have h1 := Int.tmod_nonneg i hz
    have h2 : z.tmod i ≤ z := by
      rw [Int.tmod_eq_emod hz hi.le]
      have e := Int.ediv_add_emod z i
      have p := Int.mul_nonneg hi.le (Int.ediv_nonneg hz hi.le)
      omega
    omega
  · subst hi; simp [snap, hz]

theorem snap_mono {i z z2 : Int} (hi : 0 ≤ i) (h : z ≤ z2) : snap i z ≤ snap i z2 := by
  rcases hi.lt_or_eq with hi | hi
  · by_cases hz : 0 ≤ z
    · rw [snap_nonneg_eq hi hz, snap_nonneg_eq hi (le_trans hz h)]
      exact Int.mul_le_mul_of_nonneg_left (Int.ediv_le_ediv hi h) hi.le
    · by_cases hz2 : 0 ≤ z2
      · have h1 := snap_bounds_nonneg hi.le (z := -z) (by omega)
        have h2 := snap_bounds_nonneg hi.le hz2
        rw [snap_neg] at h1
        omega
      · have e1 : snap i z = - snap i (-z) := by rw [snap_neg]; ring
        have e2 : snap i z2 = - snap i (-z2) := by rw [snap_neg]; ring
        rw [e1, e2, snap_nonneg_eq hi (by omega), snap_nonneg_eq hi (by omega)]
        have := Int.mul_le_mul_of_nonneg_left (Int.ediv_le_ediv hi (by omega : -z2 ≤ -z)) hi.le
        omega
  · subst hi; simpa [snap] using h

theorem snap_snap (i z : Int) : snap i (snap i z) = snap i z := by
  unfold snap
  split
  · have : (z - z.tmod i).tmod i = 0 := by
      have : z - z.tmod i = i * z.tdiv i := by rw [Int.tmod_def]; ring
      rw [this, Int.mul_tmod_right]
    rw [this]; ring
  · rfl


theorem hintsize_noaspect (c : Client) (w h : Int) (ha : ¬ (c.mina > 0 ∧ c.maxa > 0)) :
    hintsize c w h
      = (hint1 c.basew c.incw c.minw c.maxw w, hint1 c.baseh c.inch c.minh c.maxh h) := by
  have hasp : (decide (c.mina > 0) && decide (c.maxa > 0)) = false := by simpa using ha
  unfold hintsize hint1 snap
  simp only [hasp, Bool.false_and, Bool.false_eq_true, if_false]
  by_cases hb : (decide (c.basew = c.minw) && decide (c.baseh = c.minh)) = true
  · simp [hb]
  · simp [hb]

/-- The one-dimensional size adjustment, after the floors at 1 and at the bar height, is
idempotent when the base size is at most the minimum size and the maximum size, if set,
is at least the minimum size and the bar height and lies on the increment grid. -/
theorem hint1_idem (B b i mn mx w : Int) (hB : 2 ≤ B) (hi : 0 ≤ i) (hb : b ≤ mn)
    (hmx : mx = 0 ∨ (mn ≤ mx ∧ B ≤ mx ∧ snap i (mx - b) = mx - b)) :
    hint1 b i mn mx (max (hint1 b i mn mx (max w B)) B) = hint1 b i mn mx (max w B) := by
  have m1 : ∀ z z2 : Int, z ≤ z2 → snap i z ≤ snap i z2 := fun z z2 h => snap_mono hi h
  have t1 := snap_snap i (max w B - b)
  have hw1 : B ≤ max w B := le_max_right _ _
  generalize max w B = w1 at *
  have a1 := m1 (snap i (w1 - b)) (w1 - b)
  have a2 := m1 (w1 - b) (snap i (w1 - b))
  generalize ht : snap i (w1 - b) = t at *
  have key : ∀ r : Int, r = hint1 b i mn mx w1 → hint1 b i mn mx (max r B) = r := by
    intro r hr
    have b1 := m1 (max r B - b) (w1 - b)
    have b2 := m1 (w1 - b) (max r B - b)
    have b3 := m1 t (max r B - b)
    have b4 := m1 (max r B - b) t
    have b5 := m1 (mx - b) (max r B - b)
    have b6 := m1 (max r B - b) (mx - b)
    have b7 := fun h : 0 ≤ max r B - b => (snap_bounds_nonneg hi h).2
    have b8 := fun h : 0 ≤ w1 - b => (snap_bounds_nonneg hi h).2
    rw [ht] at b1 b2
    unfold hint1 at hr ⊢
    rw [ht] at hr
    generalize snap i (max r B - b) = u at *
    simp only [max_def, min_def] at *
    rcases hmx with hmx | ⟨hm1, hm2, hm3⟩
    · subst hmx
      simp only [ne_eq, not_true_eq_false, if_false] at *
      split_ifs at * <;> omega
    · by_cases h0 : mx = 0
      · subst h0
        simp only [ne_eq, not_true_eq_false, if_false] at *
        split_ifs at * <;> omega
      · simp only [ne_eq, h0, not_false_eq_true, if_true] at *
        rw [hm3] at b5 b6
        split_ifs at * <;> omega
  exact key _ rfl

theorem applysizehints_changed_eq (env : Env) (m : Monitor) (c : Client) (x y w h : Int)
    (b : Bool) :
    (applysizehints env m c x y w h b).changed
      = (decide ((applysizehints env m c x y w h b).x ≠ c.x)
        || decide ((applysizehints env m c x y w h b).y ≠ c.y)
        || decide ((applysizehints env m c x y w h b).w ≠ c.w)
        || decide ((applysizehints env m c x y w h b).h ≠ c.h)) := rfl

theorem hinted_eq_of_geom (env : Env) (m : Monitor) (c : Client) (x y w h x2 y2 w2 h2 : Int)
    (b : Bool)
    (hx : (applysizehints env m c x2 y2 w2 h2 b).x = (applysizehints env m c x y w h b).x)
    (hy : (applysizehints env m c x2 y2 w2 h2 b).y = (applysizehints env m c x y w h b).y)
    (hw : (applysizehints env m c x2 y2 w2 h2 b).w = (applysizehints env m c x y w h b).w)
    (hh : (applysizehints env m c x2 y2 w2 h2 b).h = (applysizehints env m c x y w h b).h) :
    applysizehints env m c x2 y2 w2 h2 b = applysizehints env m c x y w h b := by
  have e1 := applysizehints_changed_eq env m c x2 y2 w2 h2 b
  have e2 := applysizehints_changed_eq env m c x y w h b
  rw [hx, hy, hw, hh, ← e2] at e1
  cases h1 : applysizehints env m c x2 y2 w2 h2 b
  cases h2 : applysizehints env m c x y w h b
  rw [h1, h2] at hx hy hw hh e1
  simp only at hx hy hw hh e1
  rw [hx, hy, hw, hh, e1]

/-- The size returned by `applysizehints`. -/
theorem applysizehints_size (env : Env) (m : Monitor) (c : Client) (x y w h : Int) (b : Bool) :
    (applysizehints env m c x y w h b).w
      = (if env.resizehints || c.isfloating || (m.lt m.sellt).arrange.isNone then
          (hintsize c (max w (bh env)) (max h (bh env))).1 else max w (bh env))
    ∧ (applysizehints env m c x y w h b).h
      = (if env.resizehints || c.isfloating || (m.lt m.sellt).arrange.isNone then
          (hintsize c (max w (bh env)) (max h (bh env))).2 else max h (bh env)) := by
  have h2 := bh_ge_two env
  have ew : (if max 1 w < bh env then bh env else max 1 w) = max w (bh env) := by
    simp only [max_def]; split_ifs <;> omega
  have eh : (if max 1 h < bh env then bh env else max 1 h) = max h (bh env) := by
    simp only [max_def]; split_ifs <;> omega
  unfold applysizehints
  simp only [ew, eh]
  constructor <;> split <;> rfl

/-- The position returned by `applysizehints`, with `r` the position before the clamps. -/
theorem applysizehints_pos (env : Env) (m : Monitor) (c : Client) (x y w h : Int) (b : Bool) :
    (applysizehints env m c x y w h b).x
      = (if b then
          (if (if x > env.sw then env.sw - WIDTH c else x) + max 1 w + 2 * c.bw < 0 then 0
           else (if x > env.sw then env.sw - WIDTH c else x))
         else
          (if (if x ≥ m.wx + m.ww then m.wx + m.ww - WIDTH c else x) + max 1 w + 2 * c.bw ≤ m.wx
           then m.wx else (if x ≥ m.wx + m.ww then m.wx + m.ww - WIDTH c else x)))
    ∧ (applysizehints env m c x y w h b).y
      = (if b then
          (if (if y > env.sh then env.sh - HEIGHT c else y) + max 1 h + 2 * c.bw < 0 then 0
           else (if y > env.sh then env.sh - HEIGHT c else y))
         else
          (if (if y ≥ m.wy + m.wh then m.wy + m.wh - HEIGHT c else y) + max 1 h + 2 * c.bw ≤ m.wy
           then m.wy else (if y ≥ m.wy + m.wh then m.wy + m.wh - HEIGHT c else y))) := by
  unfold applysizehints
  cases b <;> exact ⟨rfl, rfl⟩

theorem snap_of_grid {i z : Int} (h : i = 0 ∨ z.tmod i = 0) : snap i z = z := by
  unfold snap
  rcases h with h | h
  · simp [h]
  · simp [h]

/-- The two position clamps of the interactive mode, applied twice. -/
theorem clamp_interact_idem (sw W bw x w1 w2 p : Int)
    (hp : p = (if (if x > sw then sw - W else x) + w1 + 2 * bw < 0 then 0
               else (if x > sw then sw - W else x)))
    (h : (0 ≤ sw ∧ w1 ≤ w2) ∨ (0 ≤ bw ∧ 0 ≤ x ∧ x ≤ sw ∧ 1 ≤ w1 ∧ 1 ≤ w2)) :
    (if (if p > sw then sw - W else p) + w2 + 2 * bw < 0 then 0
     else (if p > sw then sw - W else p)) = p := by
  subst hp
  split_ifs <;> omega

/-- The two position clamps of the programmatic mode, applied twice. -/
theorem clamp_program_idem (wx ww W bw x w1 w2 p : Int)
    (hp : p = (if (if x ≥ wx + ww then wx + ww - W else x) + w1 + 2 * bw ≤ wx then wx
               else (if x ≥ wx + ww then wx + ww - W else x)))
    (h : (0 < ww ∧ w1 ≤ w2) ∨ (0 ≤ bw ∧ wx ≤ x ∧ x < wx + ww ∧ 1 ≤ w1 ∧ 1 ≤ w2)) :
    (if (if p ≥ wx + ww then wx + ww - W else p) + w2 + 2 * bw ≤ wx then wx
     else (if p ≥ wx + ww then wx + ww - W else p)) = p := by
  subst hp
  split_ifs <;> omega

/-- C4, amended: `applysizehints` is idempotent (feeding back the geometry it returns, with
the same client and mode, returns the same result) in two cases.  First, when the size
hints are skipped (hint-respecting disabled, client not floating, layout with an arrange
function) and the screen extents are non-negative (interactive mode) or the window area is
non-empty (programmatic mode).  Second, when there are no aspect limits, the border width
is non-negative, the requested position lies on the screen (interactive) or in the window
area (programmatic), the increments are non-negative, the base size is at most the minimum
size, and each maximum size is either unset or at least the minimum size and the bar
height and a whole number of increments above the base size. -/
theorem applysizehints_idempotent (env : Env) (m : Monitor) (c : Client) (x y w h : Int)
    (interact : Bool)
    (hcase :
      ((env.resizehints || c.isfloating || (m.lt m.sellt).arrange.isNone) = false
        ∧ (if interact then 0 ≤ env.sw ∧ 0 ≤ env.sh else 0 < m.ww ∧ 0 < m.wh))
      ∨ (¬ (c.mina > 0 ∧ c.maxa > 0) ∧ 0 ≤ c.bw
        ∧ (if interact then 0 ≤ x ∧ x ≤ env.sw ∧ 0 ≤ y ∧ y ≤ env.sh
           else m.wx ≤ x ∧ x < m.wx + m.ww ∧ m.wy ≤ y ∧ y < m.wy + m.wh)
        ∧ 0 ≤ c.incw ∧ 0 ≤ c.inch ∧ c.basew ≤ c.minw ∧ c.baseh ≤ c.minh
        ∧ (c.maxw = 0 ∨ (c.minw ≤ c.maxw ∧ bh env ≤ c.maxw
            ∧ (c.incw = 0 ∨ (c.maxw - c.basew).tmod c.incw = 0)))
        ∧ (c.maxh = 0 ∨ (c.minh ≤ c.maxh ∧ bh env ≤ c.maxh
            ∧ (c.inch = 0 ∨ (c.maxh - c.baseh).tmod c.inch = 0))))) :
    applysizehints env m c (applysizehints env m c x y w h interact).x
        (applysizehints env m c x y w h interact).y (applysizehints env m c x y w h interact).w
        (applysizehints env m c x y w h interact).h interact
      = applysizehints env m c x y w h interact := by
  have h2 := bh_ge_two env
  obtain ⟨sw1, sh1⟩ := applysizehints_size env m c x y w h interact
  obtain ⟨px1, py1⟩ := applysizehints_pos env m c x y w h interact
  generalize hr : applysizehints env m c x y w h interact = r at *
  obtain ⟨sw2, sh2⟩ := applysizehints_size env m c r.x r.y r.w r.h interact
  obtain ⟨px2, py2⟩ := applysizehints_pos env m c r.x r.y r.w r.h interact
  have e1 : 1 ≤ max 1 w := le_max_left _ _
  have e2 : 1 ≤ max 1 r.w := le_max_left _ _
  have e3 : 1 ≤ max 1 h := le_max_left _ _
  have e4 : 1 ≤ max 1 r.h := le_max_left _ _
  have hskipw : (env.resizehints || c.isfloating || (m.lt m.sellt).arrange.isNone) = false →
      max 1 w ≤ max 1 r.w ∧ max 1 h ≤ max 1 r.h := by
    intro hs
    rw [sw1, sh1, hs]
    simp only [Bool.false_eq_true, if_false, max_def]
    constructor <;> split_ifs <;> omega
  rw [← hr]
  apply hinted_eq_of_geom
  all_goals rw [hr]
  · -- x
    rw [px2]
    cases interact
    · simp only [Bool.false_eq_true, if_false] at px1 hcase ⊢
      apply clamp_program_idem _ _ _ _ x (max 1 w) _ _ px1
      rcases hcase with ⟨hs, hp⟩ | ⟨_, hbw, hp, _⟩
      · exact Or.inl ⟨hp.1, (hskipw hs).1⟩
      · exact Or.inr ⟨hbw, hp.1, hp.2.1, e1, e2⟩
    · simp only [if_true] at px1 hcase ⊢
      apply clamp_interact_idem _ _ _ x (max 1 w) _ _ px1
      rcases hcase with ⟨hs, hp⟩ | ⟨_, hbw, hp, _⟩
      · exact Or.inl ⟨hp.1, (hskipw hs).1⟩
      · exact Or.inr ⟨hbw, hp.1, hp.2.1, e1, e2⟩
  · -- y
    rw [py2]
    cases interact
    · simp only [Bool.false_eq_true, if_false] at py1 hcase ⊢
      apply clamp_program_idem _ _ _ _ y (max 1 h) _ _ py1
      rcases hcase with ⟨hs, hp⟩ | ⟨_, hbw, hp, _⟩
      · exact Or.inl ⟨hp.2, (hskipw hs).2⟩
      · exact Or.inr ⟨hbw, hp.2.2.1, hp.2.2.2, e3, e4⟩
    · simp only [if_true] at py1 hcase ⊢
      apply clamp_interact_idem _ _ _ y (max 1 h) _ _ py1
      rcases hcase with ⟨hs, hp⟩ | ⟨_, hbw, hp, _⟩
      · exact Or.inl ⟨hp.2, (hskipw hs).2⟩
      · exact Or.inr ⟨hbw, hp.2.2.1, hp.2.2.2, e3, e4⟩
  · -- w
    rw [sw2]
    by_cases hH : (env.resizehints || c.isfloating || (m.lt m.sellt).arrange.isNone) = true
    · rcases hcase with ⟨hs, _⟩ | ⟨ha, _, _, hi, _, hb, _, hmx, _⟩
      · rw [hs] at hH; cases hH
      · rw [hH] at sw1 sh1 ⊢
        simp only [if_true] at sw1 sh1 ⊢
        rw [hintsize_noaspect _ _ _ ha] at sw1 sh1 ⊢
        simp only at sw1 sh1 ⊢
        rw [sw1]
        apply hint1_idem _ _ _ _ _ _ h2 hi hb
        rcases hmx with hmx | ⟨g1, g2, g3⟩
        · exact Or.inl hmx
        · exact Or.inr ⟨g1, g2, snap_of_grid g3⟩
    · have hH' : (env.resizehints || c.isfloating || (m.lt m.sellt).arrange.isNone) = false :=
        Bool.eq_false_iff.mpr hH
      rw [hH'] at sw1 ⊢
      simp only [Bool.false_eq_true, if_false] at sw1 ⊢
      rw [sw1]
      simp only [max_def]; split_ifs <;> omega
  · -- h
    rw [sh2]
    by_cases hH : (env.resizehints || c.isfloating || (m.lt m.sellt).arrange.isNone) = true
    · rcases hcase with ⟨hs, _⟩ | ⟨ha, _, _, _, hi, _, hb, _, hmx⟩
      · rw [hs] at hH; cases hH
      · rw [hH] at sw1 sh1 ⊢
        simp only [if_true] at sw1 sh1 ⊢
        rw [hintsize_noaspect _ _ _ ha] at sw1 sh1 ⊢
        simp only at sw1 sh1 ⊢
        rw [sh1]
        apply hint1_idem _ _ _ _ _ _ h2 hi hb
        rcases hmx with hmx | ⟨g1, g2, g3⟩
        · exact Or.inl hmx
        · exact Or.inr ⟨g1, g2, snap_of_grid g3⟩
    · have hH' : (env.resizehints || c.isfloating || (m.lt m.sellt).arrange.isNone) = false :=
        Bool.eq_false_iff.mpr hH
      rw [hH'] at sh1 ⊢
      simp only [Bool.false_eq_true, if_false] at sh1 ⊢
      rw [sh1]
      simp only [max_def]; split_ifs <;> omega

/-- Counterexample for C4: a floating client with width increment 10 and maximum width 45.
The request 100x100 is cut to the maximum width 45; fed back, 45 is rounded down to 40. -/
theorem applysizehints_not_idempotent :
    applysizehints configDef startState.mons cappedClient 0 30 100 100 true
      = { x := 0, y := 30, w := 45, h := 100, changed := true }
    ∧ applysizehints configDef startState.mons cappedClient 0 30 45 100 true
      = { x := 0, y := 30, w := 40, h := 100, changed := true } := by
  constructor <;> decide

/-- Witness for C4 as amended: for the client with minimum and base size 50x50 and
increments 10x10, the result 80x90 of the request 83x97 is returned again. -/
theorem applysizehints_idempotent_witness :
    applysizehints configDef startState.mons gridClient 10 20 83 97 true
      = { x := 10, y := 20, w := 80, h := 90, changed := true }
    ∧ applysizehints configDef startState.mons gridClient 10 20 80 90 true
      = applysizehints configDef startState.mons gridClient 10 20 83 97 true :=
  ⟨by decide,
   applysizehints_idempotent configDef startState.mons gridClient 10 20 83 97 true
    (Or.inr ⟨by decide, by decide, by decide, by decide, by decide, by decide, by decide,
      Or.inl (by decide), Or.inl (by decide)⟩)⟩

/-! ## The tile layout: columns -/

theorem u32_of_range {z : Int} (h0 : 0 ≤ z) (h1 : z < 4294967296) : ((u32 z : Nat) : Int) = z := by
  unfold u32
  rw [Int.emod_eq_of_lt h0 h1]
  exact Int.toNat_of_nonneg h0

theorem i32_u32 {z : Int} (h0 : -2147483648 ≤ z) (h1 : z < 2147483648) : i32 (u32 z) = z := by
  unfold i32 u32
  have hm : (0 : Int) ≤ z % 4294967296 := Int.emod_nonneg _ (by decide)
  have hlt : z % 4294967296 < 4294967296 := Int.emod_lt_of_pos _ (by decide)
  have e : (((z % 4294967296).toNat % 4294967296 : Nat) : Int) = z % 4294967296 := by
    rw [Nat.mod_eq_of_lt (by omega)]
    exact Int.toNat_of_nonneg hm
  by_cases hz : 0 ≤ z
  · have e2 : z % 4294967296 = z := Int.emod_eq_of_lt hz (by omega)
    rw [if_pos (by omega)]
    omega
  · have e2 : z % 4294967296 = z + 4294967296 := by
      have : (z + 4294967296) % 4294967296 = z + 4294967296 :=
        Int.emod_eq_of_lt (by omega) (by omega)
      rw [← this]; simp
    rw [if_neg (by omega)]
    omega

theorem tiled_cons (m : Monitor) (mem : Nat → Client) (a : Nat) (l : List Nat) :
    tiled m mem (a :: l)
      = if (mem a).isfloating || !ISVISIBLE m (mem a) then tiled m mem l
        else a :: tiled m mem l := by
  unfold tiled
  by_cases h : ((mem a).isfloating || !ISVISIBLE m (mem a)) = true
  · rw [List.filter_cons, h]; rfl
  · rw [Bool.not_eq_true] at h
    rw [List.filter_cons, h]; rfl

theorem tiled_congr (m : Monitor) {mem mem2 : Nat → Client} (h : SameButGeom mem mem2)
    (l : List Nat) : tiled m mem2 l = tiled m mem l := by
  unfold tiled
  congr 1
  funext a
  rw [sameButGeom_isfloating (h a), h.visible m a]

theorem counttiled_eq (m : Monitor) (mem : Nat → Client) (l : List Nat) :
    counttiled m mem l = (tiled m mem l).length := by
  induction l with
  | nil => rfl
  | cons a l ih =>
    rw [tiled_cons]
    unfold counttiled
    split <;> simp [ih]

theorem tileLoop_untouched (env : Env) (m : Monitor) (n mw g : Nat) (l : List Nat)
    (i my ty : Nat) (mem : Nat → Client) (a : Nat) (h : a ∉ l) :
    tileLoop env m n mw g l i my ty mem a = mem a := by
  induction l generalizing mem i my ty with
  | nil => rfl
  | cons b l ih =>
    have hab : a ≠ b := fun e => h (e ▸ List.mem_cons_self _ _)
    have hal : a ∉ l := fun hm => h (List.mem_cons_of_mem _ hm)
    unfold tileLoop
    dsimp only
    split
    · exact ih _ _ _ _ hal
    · split
      · rw [ih _ _ _ _ hal]; simp [Function.update, hab]
      · rw [ih _ _ _ _ hal]; simp [Function.update, hab]

/-- On the path that skips the size hints, `resize` gives a tiled client exactly the
vertical placement asked for when it lies in the window area and is at least as high as
the bar. -/
theorem resize_place (env : Env) (m : Monitor) (c : Client) (x y w h : Int)
    (hr : env.resizehints = false) (hf : c.isfloating = false)
    (harr : (m.lt m.sellt).arrange.isNone = false)
    (hy1 : y < m.wy + m.wh) (hy2 : m.wy ≤ y) (hbw : 0 ≤ c.bw) (hh : bh env ≤ h) :
    (resize env m c x y w h false).y = y ∧ (resize env m c x y w h false).h = h
    ∧ (resize env m c x y w h false).bw = c.bw := by
  have h2 := bh_ge_two env
  have hskip : (env.resizehints || c.isfloating || (m.lt m.sellt).arrange.isNone) = false := by
    simp [hr, hf, harr]
  obtain ⟨_, g2, _, g4⟩ := resize_geom env m c x y w h false
  obtain ⟨y1, y2⟩ := applysizehints_skip_yh env m c x y w h hskip hy1 (by omega) hh
  exact ⟨g2.trans y1, g4.trans y2, resize_bw _ _ _ _ _ _ _ _⟩

/-- The share `R / d` of the space `R` among `d` slots: it leaves room for whoever fits
`d` times into `R`, and so does what remains for the other `d - 1` slots. -/
theorem share_room {R d q : Int} (hd : 1 ≤ d) (hq : q * d ≤ R) :
    q ≤ R / d ∧ R / d * d ≤ R ∧ q * (d - 1) ≤ R - R / d := by
  have hd0 : 0 < d := by omega
  have h1 : q ≤ R / d := (Int.le_ediv_iff_mul_le hd0).mpr hq
  have h2 : R / d * d ≤ R := Int.ediv_mul_le R hd0.ne'
  refine ⟨h1, h2, ?_⟩
  have h3 : q * (d - 1) ≤ R / d * (d - 1) := Int.mul_le_mul_of_nonneg_right h1 (by omega)
  have h4 : R / d * (d - 1) = R / d * d - R / d := by ring
  omega

theorem minMaster_le (n : Nat) (nm : Int) : minMaster n nm ≤ n := by
  unfold minMaster; split <;> omega

theorem lt_master_iff {n i : Nat} (nm : Int) (hi : i < n) :
    i < u32 nm ↔ i < minMaster n nm := by
  unfold minMaster; split <;> omega

set_option maxHeartbeats 1000000 in
theorem tileLoop_columns (env : Env) (m : Monitor) (n mw g : Nat)
    (hr : env.resizehints = false) (harr : (m.lt m.sellt).arrange.isNone = false)
    (hg : g ≤ 2) (hwh : m.wh < 2147483648) (hwy0 : -2147483648 ≤ m.wy)
    (hwy1 : m.wy + m.wh < 2147483648) (hn : n < 4294967296)
    (l : List Nat) (i my ty : Nat) (mem : Nat → Client)
    (hnd : l.Nodup)
    (hcount : i + (tiled m mem l).length = n)
    (hmy : (my : Int) ≤ m.wh) (hty : (ty : Int) ≤ m.wh)
    (hmaster : ∀ a ∈ (tiled m mem l).take (minMaster n m.nmaster - i),
        0 ≤ (mem a).bw
        ∧ (bh env + 2 * (mem a).bw) * ((minMaster n m.nmaster : Int) - i) ≤ m.wh - my)
    (hstack : ∀ a ∈ (tiled m mem l).drop (minMaster n m.nmaster - i),
        0 ≤ (mem a).bw
        ∧ (bh env + 2 * (mem a).bw) * ((n : Int) - (max i (minMaster n m.nmaster) : Nat))
            ≤ m.wh - ty) :
    Column (tileLoop env m n mw g l i my ty mem) 0 (m.wy + m.wh) (m.wy + my)
        ((tiled m mem l).take (minMaster n m.nmaster - i))
    ∧ Column (tileLoop env m n mw g l i my ty mem) (2 - (g : Int)) (m.wy + m.wh) (m.wy + ty)
        ((tiled m mem l).drop (minMaster n m.nmaster - i)) := by
  have hbh := bh_ge_two env
  induction l generalizing i my ty mem with
  | nil => simp [tiled, Column]
  | cons a l ih =>
    have hal : a ∉ l := (List.nodup_cons.mp hnd).1
    have hndl : l.Nodup := (List.nodup_cons.mp hnd).2
    by_cases ht : ((mem a).isfloating || !ISVISIBLE m (mem a)) = true
    · have e : tiled m mem (a :: l) = tiled m mem l := by rw [tiled_cons, if_pos ht]
      rw [e] at hcount hmaster hstack ⊢
      have e2 : tileLoop env m n mw g (a :: l) i my ty mem = tileLoop env m n mw g l i my ty mem := by
        rw [tileLoop]; simp only [ht, if_true]
      rw [e2]
      exact ih i my ty mem hndl hcount hmy hty hmaster hstack
    · have ht' : ((mem a).isfloating || !ISVISIBLE m (mem a)) = false := Bool.eq_false_iff.mpr ht
      have hfl : (mem a).isfloating = false := by
        simp only [Bool.or_eq_false_iff] at ht'; exact ht'.1
      have e : tiled m mem (a :: l) = a :: tiled m mem l := by
        rw [tiled_cons, if_neg ht]
      rw [e] at hcount hmaster hstack ⊢
      simp only [List.length_cons] at hcount
      have hin : i < n := by omega
      have hk := minMaster_le n m.nmaster
      by_cases hi : i < u32 m.nmaster
      · -- master column
        have hik : i < minMaster n m.nmaster := (lt_master_iff m.nmaster hin).mp hi
        obtain ⟨d, hd⟩ : ∃ d, minMaster n m.nmaster - i = d + 1 := ⟨minMaster n m.nmaster - i - 1, by omega⟩
        rw [hd] at hmaster hstack ⊢
        simp only [List.take_succ_cons, List.drop_succ_cons] at hmaster hstack ⊢
        obtain ⟨hbw, hroom⟩ := hmaster a (List.mem_cons_self _ _)
        have hdI : ((minMaster n m.nmaster : Int) - i) = (d : Int) + 1 := by omega
        rw [hdI] at hroom
        have hR0 : (0 : Int) ≤ m.wh - my := by
          have : 0 ≤ (bh env + 2 * (mem a).bw) * ((d : Int) + 1) :=
            Int.mul_nonneg (by omega) (by omega)
          omega
        obtain ⟨s1, s2, s3⟩ := share_room (R := m.wh - my) (d := (d : Int) + 1)
          (q := bh env + 2 * (mem a).bw) (by omega) hroom
        have hfR : (m.wh - my) / ((d : Int) + 1) ≤ m.wh - my :=
          Int.ediv_le_self _ hR0
        have hf0 : 0 ≤ (m.wh - my) / ((d : Int) + 1) := by omega
        -- the share as computed on unsigned values
        have eh : ((u32 (m.wh - my) / u32 ((minMaster n m.nmaster : Int) - i) : Nat) : Int)
            = (m.wh - my) / ((d : Int) + 1) := by
          rw [Int.natCast_div, u32_of_range hR0 (by omega), hdI,
            u32_of_range (by omega) (by omega)]
        have hRpos : (2 : Int) ≤ m.wh - my := by
          have : (bh env + 2 * (mem a).bw) * 1 ≤ (bh env + 2 * (mem a).bw) * ((d : Int) + 1) :=
            Int.mul_le_mul_of_nonneg_left (by omega) (by omega)
          omega
        have ey : i32 (u32 (m.wy + my)) = m.wy + my := i32_u32 (by omega) (by omega)
        have ehh : i32 (u32 (((u32 (m.wh - my) / u32 ((minMaster n m.nmaster : Int) - i) : Nat) : Int)
            - 2 * (mem a).bw)) = (m.wh - my) / ((d : Int) + 1) - 2 * (mem a).bw := by
          rw [eh]; exact i32_u32 (by omega) (by omega)
        have e2 : tileLoop env m n mw g (a :: l) i my ty mem
            = tileLoop env m n mw g l (i + 1)
                (u32 (my + HEIGHT (resize env m (mem a) m.wx (m.wy + my)
                  (i32 (u32 ((mw : Int) - g * (mem a).bw)))
                  ((m.wh - my) / ((d : Int) + 1) - 2 * (mem a).bw) false))) ty
                (Function.update mem a (resize env m (mem a) m.wx (m.wy + my)
                  (i32 (u32 ((mw : Int) - g * (mem a).bw)))
                  ((m.wh - my) / ((d : Int) + 1) - 2 * (mem a).bw) false)) := by
          rw [tileLoop]
          simp only [ht, hi, if_true, if_false, Bool.false_eq_true, ey, ehh]
        obtain ⟨p1, p2, p3⟩ := resize_place env m (mem a) m.wx (m.wy + my)
          (i32 (u32 ((mw : Int) - g * (mem a).bw)))
          ((m.wh - my) / ((d : Int) + 1) - 2 * (mem a).bw) hr hfl harr (by omega) (by omega) hbw
          (by omega)
        generalize hc1 : resize env m (mem a) m.wx (m.wy + my)
          (i32 (u32 ((mw : Int) - g * (mem a).bw)))
          ((m.wh - my) / ((d : Int) + 1) - 2 * (mem a).bw) false = c1 at *
        have hH : HEIGHT c1 = (m.wh - my) / ((d : Int) + 1) := by
          unfold HEIGHT; rw [p2, p3]; ring
        have hsame : SameButGeom mem (Function.update mem a c1) := by
          apply SameButGeom.update
          rw [← hc1]; exact resize_sameButGeom _ _ _ _ _ _ _ _
        have emy : ((u32 (my + HEIGHT c1) : Nat) : Int) = my + (m.wh - my) / ((d : Int) + 1) := by
          rw [hH]; exact u32_of_range (by omega) (by omega)
        rw [e2]
        have hti := tiled_congr m hsame l
        have IH := ih (i + 1) (u32 (my + HEIGHT c1)) ty (Function.update mem a c1) hndl
          (by rw [hti]; omega) (by rw [emy]; omega) hty
          (by
            have ed : minMaster n m.nmaster - (i + 1) = d := by omega
            rw [hti, ed]
            intro b hb
            obtain ⟨q1, q2⟩ := hmaster b (List.mem_cons_of_mem _ hb)
            rw [hdI] at q2
            obtain ⟨_, _, r3⟩ := share_room (R := m.wh - my) (d := (d : Int) + 1)
              (q := bh env + 2 * (mem b).bw) (by omega) q2
            rw [sameButGeom_bw (hsame b), emy]
            refine ⟨q1, ?_⟩
            have : ((minMaster n m.nmaster : Int) - ((i + 1 : Nat) : Int)) = (d : Int) := by omega
            rw [this]
            have : (d : Int) + 1 - 1 = d := by ring
            rw [this] at r3
            omega)
          (by
            have ed : minMaster n m.nmaster - (i + 1) = d := by omega
            rw [hti, ed]
            intro b hb
            obtain ⟨q1, q2⟩ := hstack b hb
            rw [sameButGeom_bw (hsame b)]
            refine ⟨q1, ?_⟩
            have : max (i + 1) (minMaster n m.nmaster) = max i (minMaster n m.nmaster) := by omega
            rw [this]; exact q2)
        have ed : minMaster n m.nmaster - (i + 1) = d := by omega
        rw [hti, ed] at IH
        refine ⟨?_, IH.2⟩
        have hma : tileLoop env m n mw g l (i + 1) (u32 (my + HEIGHT c1)) ty
            (Function.update mem a c1) a = c1 := by
          rw [tileLoop_untouched _ _ _ _ _ _ _ _ _ _ _ hal]; simp
        have hlen : ((tiled m mem l).take d).length = d := by
          rw [List.length_take]; omega
        generalize tileLoop env m n mw g l (i + 1) (u32 (my + HEIGHT c1)) ty
            (Function.update mem a c1) = memf at IH hma ⊢
        refine ⟨by rw [hma, p1], ?_, ?_, ?_⟩
        · rw [hma, hH, hlen]; congr 1; ring
        · rw [hma, hH]; omega
        · rw [hma, hH]
          have : m.wy + my + (m.wh - my) / ((d : Int) + 1) - 0 * c1.bw
              = m.wy + ((u32 (my + HEIGHT c1) : Nat) : Int) := by rw [emy]; ring
          rw [this]; exact IH.1
      · -- stack column
        have hik : minMaster n m.nmaster ≤ i := by
          have := (lt_master_iff m.nmaster hin).not.mp hi
          omega
        have hd0 : minMaster n m.nmaster - i = 0 := by omega
        have hmax : max i (minMaster n m.nmaster) = i := by omega
        rw [hd0] at hstack ⊢
        rw [hmax] at hstack
        simp only [List.take_zero, List.drop_zero] at hstack ⊢
        obtain ⟨d, hd⟩ : ∃ d, n - i = d + 1 := ⟨n - i - 1, by omega⟩
        have hdI : ((n : Int) - i) = (d : Int) + 1 := by omega
        have hlen : (tiled m mem l).length = d := by omega
        obtain ⟨hbw, hroom⟩ := hstack a (List.mem_cons_self _ _)
        rw [hdI] at hroom
        have hR0 : (0 : Int) ≤ m.wh - ty := by
          have : 0 ≤ (bh env + 2 * (mem a).bw) * ((d : Int) + 1) :=
            Int.mul_nonneg (by omega) (by omega)
          omega
        obtain ⟨s1, s2, s3⟩ := share_room (R := m.wh - ty) (d := (d : Int) + 1)
          (q := bh env + 2 * (mem a).bw) (by omega) hroom
        have hfR : (m.wh - ty) / ((d : Int) + 1) ≤ m.wh - ty :=
          Int.ediv_le_self _ hR0
        have eh : ((u32 (m.wh - ty) / u32 ((n : Int) - i) : Nat) : Int)
            = (m.wh - ty) / ((d : Int) + 1) := by
          rw [Int.natCast_div, u32_of_range hR0 (by omega), hdI,
            u32_of_range (by omega) (by omega)]
        have hRpos : (2 : Int) ≤ m.wh - ty := by
          have : (bh env + 2 * (mem a).bw) * 1 ≤ (bh env + 2 * (mem a).bw) * ((d : Int) + 1) :=
            Int.mul_le_mul_of_nonneg_left (by omega) (by omega)
          omega
        have ey : i32 (u32 (m.wy + ty)) = m.wy + ty := i32_u32 (by omega) (by omega)
        have ehh : i32 (u32 (((u32 (m.wh - ty) / u32 ((n : Int) - i) : Nat) : Int)
            - 2 * (mem a).bw)) = (m.wh - ty) / ((d : Int) + 1) - 2 * (mem a).bw := by
          rw [eh]; exact i32_u32 (by omega) (by omega)
        have e2 : tileLoop env m n mw g (a :: l) i my ty mem
            = tileLoop env m n mw g l (i + 1) my
                (u32 (ty + HEIGHT (resize env m (mem a) (i32 (u32 (m.wx + mw))) (m.wy + ty)
                  (i32 (u32 (m.ww - mw - 2 * (mem a).bw)))
                  ((m.wh - ty) / ((d : Int) + 1) - 2 * (mem a).bw) false)
                  - (2 - (g : Int)) * (resize env m (mem a) (i32 (u32 (m.wx + mw))) (m.wy + ty)
                  (i32 (u32 (m.ww - mw - 2 * (mem a).bw)))
                  ((m.wh - ty) / ((d : Int) + 1) - 2 * (mem a).bw) false).bw))
                (Function.update mem a (resize env m (mem a) (i32 (u32 (m.wx + mw))) (m.wy + ty)
                  (i32 (u32 (m.ww - mw - 2 * (mem a).bw)))
                  ((m.wh - ty) / ((d : Int) + 1) - 2 * (mem a).bw) false)) := by
          rw [tileLoop]
          simp only [ht, hi, if_false, Bool.false_eq_true, ey, ehh]
        obtain ⟨p1, p2, p3⟩ := resize_place env m (mem a) (i32 (u32 (m.wx + mw))) (m.wy + ty)
          (i32 (u32 (m.ww - mw - 2 * (mem a).bw)))
          ((m.wh - ty) / ((d : Int) + 1) - 2 * (mem a).bw) hr hfl harr (by omega) (by omega) hbw
          (by omega)
        generalize hc1 : resize env m (mem a) (i32 (u32 (m.wx + mw))) (m.wy + ty)
          (i32 (u32 (m.ww - mw - 2 * (mem a).bw)))
          ((m.wh - ty) / ((d : Int) + 1) - 2 * (mem a).bw) false = c1 at *
        have hH : HEIGHT c1 = (m.wh - ty) / ((d : Int) + 1) := by
          unfold HEIGHT; rw [p2, p3]; ring
        have hsame : SameButGeom mem (Function.update mem a c1) := by
          apply SameButGeom.update
          rw [← hc1]; exact resize_sameButGeom _ _ _ _ _ _ _ _
        have hov0 : 0 ≤ (2 - (g : Int)) * (mem a).bw := Int.mul_nonneg (by omega) hbw
        have hov2 : (2 - (g : Int)) * (mem a).bw ≤ 2 * (mem a).bw :=
          Int.mul_le_mul_of_nonneg_right (by omega) hbw
        have ety : ((u32 (ty + HEIGHT c1 - (2 - (g : Int)) * c1.bw) : Nat) : Int)
            = ty + (m.wh - ty) / ((d : Int) + 1) - (2 - (g : Int)) * (mem a).bw := by
          rw [hH, p3]; exact u32_of_range (by omega) (by omega)
        rw [e2]
        have hti := tiled_congr m hsame l
        have IH := ih (i + 1) my (u32 (ty + HEIGHT c1 - (2 - (g : Int)) * c1.bw))
          (Function.update mem a c1) hndl
          (by rw [hti]; omega) hmy (by rw [ety]; omega)
          (by
            have ed : minMaster n m.nmaster - (i + 1) = 0 := by omega
            rw [hti, ed]
            intro b hb
            simp at hb)
          (by
            have ed : minMaster n m.nmaster - (i + 1) = 0 := by omega
            rw [hti, ed]
            intro b hb
            simp only [List.drop_zero] at hb
            obtain ⟨q1, q2⟩ := hstack b (List.mem_cons_of_mem _ hb)
            rw [hdI] at q2
            obtain ⟨_, _, r3⟩ := share_room (R := m.wh - ty) (d := (d : Int) + 1)
              (q := bh env + 2 * (mem b).bw) (by omega) q2
            rw [sameButGeom_bw (hsame b), ety]
            refine ⟨q1, ?_⟩
            have hm2 : max (i + 1) (minMaster n m.nmaster) = i + 1 := by omega
            rw [hm2]
            have : ((n : Int) - ((i + 1 : Nat) : Int)) = (d : Int) + 1 - 1 := by omega
            rw [this]
            omega)
        have ed : minMaster n m.nmaster - (i + 1) = 0 := by omega
        rw [hti, ed] at IH
        simp only [List.take_zero, List.drop_zero] at IH
        refine ⟨trivial, ?_⟩
        have hma : tileLoop env m n mw g l (i + 1) my
            (u32 (ty + HEIGHT c1 - (2 - (g : Int)) * c1.bw))
            (Function.update mem a c1) a = c1 := by
          rw [tileLoop_untouched _ _ _ _ _ _ _ _ _ _ _ hal]; simp
        generalize tileLoop env m n mw g l (i + 1) my
            (u32 (ty + HEIGHT c1 - (2 - (g : Int)) * c1.bw))
            (Function.update mem a c1) = memf at IH hma ⊢
        refine ⟨by rw [hma, p1], ?_, ?_, ?_⟩
        · rw [hma, hH, hlen]; congr 1; ring
        · rw [hma, hH, p3]; omega
        · rw [hma, hH, p3]
          have : m.wy + ty + (m.wh - ty) / ((d : Int) + 1) - (2 - (g : Int)) * (mem a).bw
              = m.wy + ((u32 (ty + HEIGHT c1 - (2 - (g : Int)) * c1.bw) : Nat) : Int) := by
            rw [ety]; ring
          rw [this]; exact IH.2

/-- The heights of a column add up to its extent, plus the overlaps of all its clients but
the last. -/
theorem Column.sum_heights {mem : Nat → Client} {ov yend : Int} {l : List Nat} {y0 : Int}
    (h : Column mem ov yend y0 l) (hne : l ≠ []) :
    (l.map (fun a => HEIGHT (mem a))).sum
      = yend - y0 + ov * (l.dropLast.map (fun a => (mem a).bw)).sum := by
  induction l generalizing y0 with
  | nil => exact absurd rfl hne
  | cons a l ih =>
    obtain ⟨_, h2, _, h4⟩ := h
    cases l with
    | nil =>
      simp only [List.length_nil, Nat.cast_zero, zero_add, Int.ediv_one] at h2
      simp [h2]
    | cons b l =>
      have := ih h4 (by simp)
      simp only [List.map_cons, List.sum_cons, List.dropLast_cons₂] at this ⊢
      rw [this]; ring

/-- Every client of a column starts at or below the start of the column. -/
theorem Column.start_le {mem : Nat → Client} {ov yend : Int} {l : List Nat} {y0 : Int}
    (h : Column mem ov yend y0 l) : ∀ b ∈ l, y0 ≤ (mem b).y := by
  induction l generalizing y0 with
  | nil => intro b hb; cases hb
  | cons a l ih =>
    obtain ⟨h1, _, h3, h4⟩ := h
    intro b hb
    rcases List.mem_cons.mp hb with e | e
    · subst e; omega
    · have := ih h4 b e
      omega

/-- In a column every client starts at or below the end of each client before it, less the
overlap. -/
theorem Column.pairwise {mem : Nat → Client} {ov yend : Int} {l : List Nat} {y0 : Int}
    (h : Column mem ov yend y0 l) :
    l.Pairwise (fun a b => (mem a).y + HEIGHT (mem a) - ov * (mem a).bw ≤ (mem b).y) := by
  induction l generalizing y0 with
  | nil => exact List.Pairwise.nil
  | cons a l ih =>
    obtain ⟨h1, _, _, h4⟩ := h
    refine List.Pairwise.cons (fun b hb => ?_) (ih h4)
    have := h4.start_le b hb
    omega

theorem tiled_length_le (m : Monitor) (mem : Nat → Client) (l : List Nat) :
    (tiled m mem l).length ≤ l.length := List.length_filter_le _ _

/-- The columns `tile` builds, when every share leaves room for the bar height and the
borders. -/
theorem tile_columns (env : Env) (s : WM) (hr : env.resizehints = false)
    (harr : (s.mons.lt s.mons.sellt).arrange ≠ none)
    (hnd : s.mons.clients.Nodup) (hlen : s.mons.clients.length < 4294967296)
    (hwy : 0 ≤ s.mons.wy) (hwh : 0 ≤ s.mons.wh)
    (hyh : s.mons.wy + s.mons.wh < 2147483648)
    (hroomM : ∀ a ∈ masterColumn s, 0 ≤ (s.mem a).bw
      ∧ bh env + 2 * (s.mem a).bw ≤ s.mons.wh / ((masterColumn s).length : Int))
    (hroomS : ∀ a ∈ stackColumn s, 0 ≤ (s.mem a).bw
      ∧ bh env + 2 * (s.mem a).bw ≤ s.mons.wh / ((stackColumn s).length : Int)) :
    Column (tile env s).mem 0 (s.mons.wy + s.mons.wh) s.mons.wy (masterColumn s)
    ∧ Column (tile env s).mem (2 - (numgapsOf env (tiledClients s).length : Int))
        (s.mons.wy + s.mons.wh) s.mons.wy (stackColumn s) := by
  have harr' : (s.mons.lt s.mons.sellt).arrange.isNone = false := by
    cases h : (s.mons.lt s.mons.sellt).arrange with
    | none => exact absurd h harr
    | some f => rfl
  have hn : (tiledClients s).length < 4294967296 :=
    lt_of_le_of_lt (tiled_length_le _ _ _) hlen
  have hk := minMaster_le (tiledClients s).length s.mons.nmaster
  have hlM : (masterColumn s).length = minMaster (tiledClients s).length s.mons.nmaster := by
    unfold masterColumn; rw [List.length_take]; omega
  have hlS : (stackColumn s).length
      = (tiledClients s).length - minMaster (tiledClients s).length s.mons.nmaster := by
    unfold stackColumn; rw [List.length_drop]
  unfold tile
  rw [counttiled_eq]
  by_cases h0 : (tiledClients s).length = 0
  · have e : tiledClients s = [] := List.length_eq_zero.mp h0
    have e1 : (tiled s.mons s.mem s.mons.clients).length = 0 := h0
    simp only [e1, if_true]
    simp [masterColumn, stackColumn, e, Column]
  · have e1 : ¬ (tiled s.mons s.mem s.mons.clients).length = 0 := h0
    simp only [e1, if_false]
    have hg : numgapsOf env (tiled s.mons s.mem s.mons.clients).length ≤ 2 := by
      unfold numgapsOf; split <;> omega
    have key := tileLoop_columns env s.mons (tiled s.mons s.mem s.mons.clients).length
      (masterWidth s.mons (tiled s.mons s.mem s.mons.clients).length)
      (numgapsOf env (tiled s.mons s.mem s.mons.clients).length) hr harr' hg (by omega) (by omega) hyh hn
      s.mons.clients 0 0 0 s.mem hnd (by simp) (by simpa using hwh) (by simpa using hwh)
      (by
        intro a ha
        simp only [Nat.sub_zero] at ha
        obtain ⟨q1, q2⟩ := hroomM a ha
        refine ⟨q1, ?_⟩
        rw [hlM] at q2
        have hpos : 0 < minMaster (tiledClients s).length s.mons.nmaster := by
          have := List.length_pos_of_mem ha
          rw [List.length_take] at this
          exact lt_of_lt_of_le this (min_le_left _ _)
        have hposI : (0 : Int) < (minMaster (tiledClients s).length s.mons.nmaster : Int) := by
          exact_mod_cast hpos
        have := (Int.le_ediv_iff_mul_le hposI).mp q2
        simpa [tiledClients] using this)
      (by
        intro a ha
        simp only [Nat.sub_zero] at ha
        obtain ⟨q1, q2⟩ := hroomS a ha
        refine ⟨q1, ?_⟩
        rw [hlS] at q2
        have hpos : 0 < (tiledClients s).length
            - minMaster (tiledClients s).length s.mons.nmaster := by
          have := List.length_pos_of_mem ha
          rw [List.length_drop] at this
          exact this
        have hposI : (0 : Int) < (((tiledClients s).length
            - minMaster (tiledClients s).length s.mons.nmaster : Nat) : Int) := by
          exact_mod_cast hpos
        have := (Int.le_ediv_iff_mul_le hposI).mp q2
        have hcast : (((tiledClients s).length
            - minMaster (tiledClients s).length s.mons.nmaster : Nat) : Int)
            = ((tiledClients s).length : Int)
              - ((max 0 (minMaster (tiledClients s).length s.mons.nmaster) : Nat) : Int) := by
          rw [Nat.zero_max]; omega
        rw [hcast] at this
        simpa [tiledClients] using this)
    simpa [masterColumn, stackColumn, tiledClients] using key

/-! ## The tile layout: heights and overlap -/

theorem tile_sameButGeom (env : Env) (s : WM) : SameButGeom s.mem (tile env s).mem := by
  unfold tile
  dsimp only
  split
  · exact SameButGeom.refl _
  · exact tileLoop_sameButGeom _ _ _ _ _ _ _ _ _ _

/-- C5, amended: for the tile layout with size hints skipped (hint-respecting disabled, a
layout with an arrange function), an insertion list without repetition whose length fits
an `unsigned int`, a window area inside the non-negative `int` range, non-negative border
widths, and when the smallest share of each column leaves room (`bh + 2*bw` is at most
`wh` divided by the number of clients of the column): the heights with borders of the
clients of the master column add up to exactly `wh`, and those of the clients of the stack
column add up to `wh` plus `(2 - numgaps)` border widths for every stack client but the
last, which is exactly `wh` when borders are counted twice. -/
theorem tile_column_heights (env : Env) (s : WM) (hr : env.resizehints = false)
    (harr : (s.mons.lt s.mons.sellt).arrange ≠ none)
    (hnd : s.mons.clients.Nodup) (hlen : s.mons.clients.length < 4294967296)
    (hwy : 0 ≤ s.mons.wy) (hwh : 0 ≤ s.mons.wh)
    (hyh : s.mons.wy + s.mons.wh < 2147483648)
    (hroomM : ∀ a ∈ masterColumn s, 0 ≤ (s.mem a).bw
      ∧ bh env + 2 * (s.mem a).bw ≤ s.mons.wh / ((masterColumn s).length : Int))
    (hroomS : ∀ a ∈ stackColumn s, 0 ≤ (s.mem a).bw
      ∧ bh env + 2 * (s.mem a).bw ≤ s.mons.wh / ((stackColumn s).length : Int)) :
    (masterColumn s ≠ [] →
      ((masterColumn s).map (fun a => HEIGHT ((tile env s).mem a))).sum = s.mons.wh)
    ∧ (stackColumn s ≠ [] →
      ((stackColumn s).map (fun a => HEIGHT ((tile env s).mem a))).sum
        = s.mons.wh + (2 - (numgapsOf env (tiledClients s).length : Int))
            * ((stackColumn s).dropLast.map (fun a => (s.mem a).bw)).sum) := by
  obtain ⟨h1, h2⟩ := tile_columns env s hr harr hnd hlen hwy hwh hyh hroomM hroomS
  constructor
  · intro hne
    rw [h1.sum_heights hne]; ring
  · intro hne
    rw [h2.sum_heights hne]
    have e : (stackColumn s).dropLast.map (fun a => ((tile env s).mem a).bw)
        = (stackColumn s).dropLast.map (fun a => (s.mem a).bw) :=
      List.map_congr_left (fun a _ => sameButGeom_bw (tile_sameButGeom env s a))
    rw [e]; ring

/-- Counterexample for C5: on a screen that leaves a window area 100 pixels high, with bar
height 18 and border width 1, seven tiled clients and master count 1.  The six clients of
the stack column each get the bar height as their height, 20 with borders, so their
heights add up to 120, which is 20 more than `wh`, while `N - 1` is 6. -/
theorem tile_heights_exceed :
    lowScreen.resizehints = false
    ∧ (crowded.mons.lt crowded.mons.sellt).arrange = some ArrangeFn.tile
    ∧ crowded.mons.wh = 100 ∧ (tiledClients crowded).length = 7
    ∧ stackColumn crowded = [6, 5, 4, 3, 2, 1]
    ∧ ((stackColumn crowded).map (fun a => HEIGHT ((tile lowScreen crowded).mem a))).sum
        = 120 := by
  refine ⟨by decide, by decide!, by decide!, by decide!, by decide!, by decide!⟩

/-- Witness for C5 as amended: the two clients of the stack column of `threeClients` have
heights that add up to the height 750 of the window area. -/
theorem tile_column_heights_witness :
    stackColumn threeClients = [2, 1]
    ∧ ((stackColumn threeClients).map
        (fun a => HEIGHT ((tile configDef threeClients).mem a))).sum = 750 := by
  have h := (tile_column_heights configDef threeClients (by decide) (by decide!) (by decide!)
    (by decide!) (by decide!) (by decide!) (by decide!) (by decide!) (by decide!)).2
    (by decide!)
  exact ⟨by decide!, h.trans (by decide!)⟩

/-- C6, amended: under the conditions of C5 as amended, in the master column every client
starts at or below the end `y + h + 2*bw` of each client placed before it, so the vertical
intervals of two master clients are disjoint; in the stack column every client starts at or
below the end of each client placed before it less `(2 - numgaps)` border widths: the
intervals are disjoint when borders are counted twice, and with a single gap consecutive
clients share one border width. -/
theorem tile_columns_disjoint (env : Env) (s : WM) (hr : env.resizehints = false)
    (harr : (s.mons.lt s.mons.sellt).arrange ≠ none)
    (hnd : s.mons.clients.Nodup) (hlen : s.mons.clients.length < 4294967296)
    (hwy : 0 ≤ s.mons.wy) (hwh : 0 ≤ s.mons.wh)
    (hyh : s.mons.wy + s.mons.wh < 2147483648)
    (hroomM : ∀ a ∈ masterColumn s, 0 ≤ (s.mem a).bw
      ∧ bh env + 2 * (s.mem a).bw ≤ s.mons.wh / ((masterColumn s).length : Int))
    (hroomS : ∀ a ∈ stackColumn s, 0 ≤ (s.mem a).bw
      ∧ bh env + 2 * (s.mem a).bw ≤ s.mons.wh / ((stackColumn s).length : Int)) :
    (masterColumn s).Pairwise (fun a b =>
      ((tile env s).mem a).y + HEIGHT ((tile env s).mem a) ≤ ((tile env s).mem b).y)
    ∧ (stackColumn s).Pairwise (fun a b =>
      ((tile env s).mem a).y + HEIGHT ((tile env s).mem a)
        - (2 - (numgapsOf env (tiledClients s).length : Int)) * (s.mem a).bw
        ≤ ((tile env s).mem b).y) := by
  obtain ⟨h1, h2⟩ := tile_columns env s hr harr hnd hlen hwy hwh hyh hroomM hroomS
  constructor
  · exact h1.pairwise.imp (fun {a b} h => by omega)
  · exact h2.pairwise.imp (fun {a b} h => by
      rw [sameButGeom_bw (tile_sameButGeom env s a)] at h; exact h)

/-- Counterexample for C6: in the state of the counterexample for C5, the clients 4 and 1
are both in the stack column; client 4 occupies the rows 58 to 77 and client 1 the rows 66
to 85. -/
theorem tile_stack_overlap :
    4 ∈ stackColumn crowded ∧ 1 ∈ stackColumn crowded
    ∧ ((tile lowScreen crowded).mem 4).y = 58 ∧ HEIGHT ((tile lowScreen crowded).mem 4) = 20
    ∧ ((tile lowScreen crowded).mem 1).y = 66 ∧ HEIGHT ((tile lowScreen crowded).mem 1) = 20 := by
  refine ⟨by decide!, by decide!, by decide!, by decide!, by decide!, by decide!⟩

/-- Witness for C6 as amended: in `threeClients`, with double gaps, client 1 of the stack
column starts where client 2 ends. -/
theorem tile_columns_disjoint_witness :
    stackColumn threeClients = [2, 1]
    ∧ (stackColumn threeClients).Pairwise (fun a b =>
      ((tile configDef threeClients).mem a).y + HEIGHT ((tile configDef threeClients).mem a)
        - (2 - (numgapsOf configDef (tiledClients threeClients).length : Int))
          * (threeClients.mem a).bw
        ≤ ((tile configDef threeClients).mem b).y) :=
  ⟨by decide!,
   (tile_columns_disjoint configDef threeClients (by decide) (by decide!) (by decide!)
    (by decide!) (by decide!) (by decide!) (by decide!) (by decide!) (by decide!)).2⟩

/-! ## The monocle layout: the layout symbol -/

theorem countvisible_eq (m : Monitor) (mem : Nat → Client) (l : List Nat) :
    countvisible m mem l = (l.filter (fun a => ISVISIBLE m (mem a))).length := by
  induction l with
  | nil => rfl
  | cons a l ih =>
    by_cases h : ISVISIBLE m (mem a) = true
    · simp [countvisible, h, ih]
    · simp [countvisible, h, ih]

theorem toString_i32 {n : Nat} (h : n < 2147483648) : toString (i32 n) = toString n := by
  unfold i32
  rw [Nat.mod_eq_of_lt (by omega), if_pos h]
  rfl

/-- C11: let `n` be the number of visible clients of the insertion list.  After `monocle`,
if `n > 0` (and `n` is below `2^31`, so that the `unsigned int` counter printed with `%d`
shows as itself) the layout symbol of the monitor is `"[n]"` with `n` in decimal; if no
client is visible the layout symbol is the one before the call. -/
theorem monocle_symbol (env : Env) (s : WM) :
    (0 < (s.mons.clients.filter (fun a => ISVISIBLE s.mons (s.mem a))).length →
      (s.mons.clients.filter (fun a => ISVISIBLE s.mons (s.mem a))).length < 2147483648 →
      (monocle env s).mons.ltsymbol
        = "[" ++ toString (s.mons.clients.filter (fun a => ISVISIBLE s.mons (s.mem a))).length
            ++ "]")
    ∧ ((s.mons.clients.filter (fun a => ISVISIBLE s.mons (s.mem a))).length = 0 →
      (monocle env s).mons.ltsymbol = s.mons.ltsymbol) := by
  rw [← countvisible_eq]
  unfold monocle
  dsimp only
  constructor
  · intro h0 h31
    rw [if_pos h0, toString_i32 h31]
  · intro h0
    rw [if_neg (by omega)]

/-- Witness for C11: with four visible clients the layout symbol becomes `"[4]"`. -/
theorem monocle_symbol_witness :
    (fourClients.mons.clients.filter
        (fun a => ISVISIBLE fourClients.mons (fourClients.mem a))).length = 4
    ∧ (monocle configDef fourClients).mons.ltsymbol = "[4]" := by
  have h := (monocle_symbol configDef fourClients).1 (by decide!) (by decide!)
  exact ⟨by decide!, h.trans (by decide!)⟩

/-! ## `toggletag` -/

/-- C19: in a state with a selected client `c` and for every argument `ui`: if
`c->tags ^ (ui & TAGMASK)` is zero, `toggletag` returns the state unchanged; otherwise the
tags of `c` become exactly that value and the tags of every other client stay as they
were. -/
theorem toggletag_tags (env : Env) (s : WM) (ui c : Nat) (hsel : s.mons.sel = some c) :
    ((s.mem c).tags ^^^ (ui &&& TAGMASK env) = 0 → toggletag env s ui = s)
    ∧ ((s.mem c).tags ^^^ (ui &&& TAGMASK env) ≠ 0 →
        ((toggletag env s ui).mem c).tags = (s.mem c).tags ^^^ (ui &&& TAGMASK env)
        ∧ ∀ a, a ≠ c → ((toggletag env s ui).mem a).tags = (s.mem a).tags) := by
  unfold toggletag
  rw [hsel]
  dsimp only
  constructor
  · intro h0
    rw [if_neg (by simpa using h0)]
  · intro h0
    rw [if_pos h0]
    constructor
    · rw [sameButGeom_tags (arrange_mem env _ c), focus_mem_tags]
      simp [WM.store]
    · intro a hac
      rw [sameButGeom_tags (arrange_mem env _ a), focus_mem_tags]
      simp [WM.store, Function.update, hac]

/-- Witness for C19: in `twoClients` the selected client 2 has tag 1; toggling tag 2 gives
it the tags 3 and leaves client 1 on tag 1, toggling tag 1 is rejected. -/
theorem toggletag_tags_witness :
    toggletag configDef twoClients 1 = twoClients
    ∧ ((toggletag configDef twoClients 2).mem 2).tags = 3
    ∧ ((toggletag configDef twoClients 2).mem 1).tags = 1 := by
  have h := toggletag_tags configDef twoClients
  exact ⟨(h 1 2 (by decide!)).1 (by decide!),
    ((h 2 2 (by decide!)).2 (by decide!)).1.trans (by decide!),
    (((h 2 2 (by decide!)).2 (by decide!)).2 1 (by decide)).trans (by decide!)⟩

/-! ## `setmfact` -/

/-- The `float` and `double` constants of `config.def.h` and of `setmfact`, as IEEE 754
rounds them: `0.55f`, `0.05f`, `-0.05f`, and the `double` constants `0.1` and `0.9`. -/
theorem float_constants :
    configDef.mfact = 9227469 / 16777216 ∧ mfactUp = 13421773 / 268435456
    ∧ mfactDown = -13421773 / 268435456
    ∧ f64 (1 / 10) = 3602879701896397 / 36028797018963968
    ∧ f64 (9 / 10) = 8106479329266893 / 9007199254740992 := by
  decide!

/-- C20: in a state whose selected layout has an arrange function and for every argument
`d`, let `f` be the resulting factor as the program computes it: `mfact + d`, a `float`
sum, when `d < 1.0`, and `d - 1.0`, a `double` difference stored in the `float f`,
otherwise.  If `f < 0.1` or `f > 0.9` (the `double` constants), `setmfact` returns the
state unchanged; otherwise the live split factor and the entry of `pertag->mfacts` at the
current index, which stays the same, both become `f`. -/
theorem setmfact_range (env : Env) (s : WM) (d : Rat)
    (harr : (s.mons.lt s.mons.sellt).arrange ≠ none) :
    (((if d < 1 then f32 (s.mons.mfact + d) else f32 (f64 (d - 1))) < f64 (1 / 10)
        ∨ (if d < 1 then f32 (s.mons.mfact + d) else f32 (f64 (d - 1))) > f64 (9 / 10)) →
      setmfact env s d = s)
    ∧ (¬ ((if d < 1 then f32 (s.mons.mfact + d) else f32 (f64 (d - 1))) < f64 (1 / 10)
        ∨ (if d < 1 then f32 (s.mons.mfact + d) else f32 (f64 (d - 1))) > f64 (9 / 10)) →
      (setmfact env s d).mons.mfact
          = (if d < 1 then f32 (s.mons.mfact + d) else f32 (f64 (d - 1)))
      ∧ (setmfact env s d).mons.pertag.curtag = s.mons.pertag.curtag
      ∧ (setmfact env s d).mons.pertag.mfacts s.mons.pertag.curtag
          = (if d < 1 then f32 (s.mons.mfact + d) else f32 (f64 (d - 1)))) := by
  have hg : (if d < 1 then f32 (d + s.mons.mfact) else f32 (f64 (d - 1)))
      = (if d < 1 then f32 (s.mons.mfact + d) else f32 (f64 (d - 1))) := by
    rw [add_comm]
  have hN : (s.mons.lt s.mons.sellt).arrange.isNone = false := by
    cases h : (s.mons.lt s.mons.sellt).arrange with
    | none => exact absurd h harr
    | some f => rfl
  unfold setmfact
  simp only [hN, Bool.false_eq_true, if_false, hg]
  generalize (if d < 1 then f32 (s.mons.mfact + d) else f32 (f64 (d - 1))) = g
  constructor
  · intro h
    rw [if_pos h]
  · intro h
    rw [if_neg h]
    simp

/-- Witness for C20.  On `twoClients` (split factor `0.55f`) the argument `+0.05` gives the
`float` nearest to 0.6, and the argument 1.95, which asks for 0.95, is rejected.  At the
upper bound: after six presses of `+0.05` the factor is `0.85000002`, and the seventh is
rejected, its `float` sum `0.9000001` being above the `double` 0.9; from the factor 0.5
the argument `0.4f` is accepted, the `float` sum being `0.9f`, which is below the `double`
0.9. -/
theorem setmfact_range_witness :
    (setmfact configDef twoClients mfactUp).mons.mfact = 5033165 / 8388608
    ∧ (setmfact configDef twoClients mfactUp).mons.pertag.mfacts twoClients.mons.pertag.curtag
        = 5033165 / 8388608
    ∧ setmfact configDef twoClients (f32 (f64 (195 / 100))) = twoClients
    ∧ sixWider.mons.mfact = 14260635 / 16777216
    ∧ setmfact configDef sixWider mfactUp = sixWider
    ∧ halfSplit.mons.mfact = 1 / 2
    ∧ (setmfact configDef halfSplit (f32 (f64 (2 / 5)))).mons.mfact = 7549747 / 8388608 := by
  have h := setmfact_range configDef twoClients
  have h6 := setmfact_range configDef sixWider mfactUp (by decide!)
  have h5 := setmfact_range configDef halfSplit (f32 (f64 (2 / 5))) (by decide!)
  exact ⟨((h mfactUp (by decide!)).2 (by decide!)).1.trans (by decide!),
    ((h mfactUp (by decide!)).2 (by decide!)).2.2.trans (by decide!),
    (h (f32 (f64 (195 / 100))) (by decide!)).1 (by decide!),
    by decide!, h6.1 (by decide!), by decide!, (h5.2 (by decide!)).1.trans (by decide!)⟩

/-! ## `view`: the canonical index -/

theorem testBit_and_mask (env : Env) (x j : Nat) :
    (x &&& TAGMASK env).testBit j = (x.testBit j && decide (j < env.ntags)) := by
  unfold TAGMASK
  rw [Nat.testBit_and, Nat.one_shiftLeft, Nat.testBit_two_pow_sub_one]

theorem allOnes_and_mask (env : Env) (hn : env.ntags ≤ 31) :
    allOnes &&& TAGMASK env = TAGMASK env := by
  apply Nat.eq_of_testBit_eq
  intro j
  rw [testBit_and_mask]
  have h : allOnes = 2 ^ 32 - 1 := by decide
  rw [h, Nat.testBit_two_pow_sub_one]
  unfold TAGMASK
  rw [Nat.one_shiftLeft, Nat.testBit_two_pow_sub_one]
  by_cases hj : j < env.ntags
  · have : j < 32 := by omega
    simp [hj, this]
  · simp [hj]

theorem lowbit_and_mask (env : Env) {ui : Nat} (h0 : ui &&& TAGMASK env ≠ 0)
    (h32 : ui < 4294967296) :
    (ui &&& TAGMASK env).testBit (lowbit ui) = true
    ∧ ∀ j, j < lowbit ui → (ui &&& TAGMASK env).testBit j = false := by
  have hui : ui ≠ 0 := by
    rintro rfl
    simp at h0
  obtain ⟨hb, hlow⟩ := lowbit_spec hui h32
  obtain ⟨k, hk⟩ := Nat.ne_zero_implies_bit_true h0
  rw [testBit_and_mask] at hk
  simp only [Bool.and_eq_true, decide_eq_true_eq] at hk
  have hle : lowbit ui ≤ k := by
    by_contra hlt
    rw [hlow k (by omega)] at hk
    exact absurd hk.1 (by simp)
  constructor
  · rw [testBit_and_mask, hb]
    simp
    omega
  · intro j hj
    rw [testBit_and_mask, hlow j hj]
    rfl

/-- C15: with at most 31 tags (the limit `ldwm.c` checks when it is compiled), for every
state and every argument `ui` (an `unsigned int`) whose valid bits
`v = ui & TAGMASK` are non-zero, differ from the active tag-set and are not all the tags
(`v ≠ TAGMASK`): `view` flips the tag-set selector, makes `v` the active tag-set while the
set that was active stays in the other slot, records the old canonical index as the
previous index, and sets the canonical index to `i + 1` where `i` is the position of the
lowest set bit of `v`. -/
theorem view_single (env : Env) (s : WM) (ui : Nat) (hn : env.ntags ≤ 31)
    (h32 : ui < 4294967296)
    (h0 : ui &&& TAGMASK env ≠ 0)
    (hne : ui &&& TAGMASK env ≠ s.mons.tagset s.mons.seltags)
    (hall : ui &&& TAGMASK env ≠ TAGMASK env) :
    (view env s ui).mons.seltags = (!s.mons.seltags)
    ∧ (view env s ui).mons.tagset (view env s ui).mons.seltags = ui &&& TAGMASK env
    ∧ (view env s ui).mons.tagset s.mons.seltags = s.mons.tagset s.mons.seltags
    ∧ (view env s ui).mons.pertag.prevtag = s.mons.pertag.curtag
    ∧ ∃ i, (view env s ui).mons.pertag.curtag = i + 1
        ∧ (ui &&& TAGMASK env).testBit i = true
        ∧ ∀ j, j < i → (ui &&& TAGMASK env).testBit j = false := by
  obtain ⟨a1, a2, a3, _⟩ := view_fields env s ui hne
  rw [if_pos h0] at a2
  rw [if_pos h0] at a3
  have hno : ui ≠ allOnes := by
    rintro rfl
    exact hall (allOnes_and_mask env hn)
  refine ⟨a1, ?_, ?_, ?_, lowbit ui, ?_, lowbit_and_mask env h0 h32⟩
  · rw [a1, a2]; simp
  · rw [a2]
    cases hs : s.mons.seltags <;> simp [Function.update]
  · rw [a3]
  · rw [a3]
    simp [hno]

/-- Witness for C15: from the start state (tag 1 viewed, index 1) `view(6)` makes the tags
2 and 3 the active set, keeps tag 1 in the other slot and sets the index to 2. -/
theorem view_single_witness :
    (view configDef startState 6).mons.tagset (view configDef startState 6).mons.seltags = 6
    ∧ (view configDef startState 6).mons.tagset startState.mons.seltags = 1
    ∧ (view configDef startState 6).mons.pertag.prevtag = 1
    ∧ (view configDef startState 6).mons.pertag.curtag = 2 := by
  have h := view_single configDef startState 6 (by decide) (by decide) (by decide) (by decide)
    (by decide)
  exact ⟨h.2.1.trans (by decide), h.2.2.1.trans (by decide), h.2.2.2.1.trans (by decide),
    by decide!⟩

/-! ## `view`: all tags -/

theorem tagmask_ne_zero (env : Env) (hn : 1 ≤ env.ntags) : TAGMASK env ≠ 0 := by
  unfold TAGMASK
  rw [Nat.one_shiftLeft]
  have : 2 ^ 1 ≤ 2 ^ env.ntags := Nat.pow_le_pow_right (by decide) hn
  omega

/-- C16, as amended: with between 1 and 31 tags, for every state whose active tag-set is
not the set of all tags, `view` with the argument `~0` (all 32 bits set) makes all the tags
the active tag-set, sets the canonical index to 0 and loads the master count, the split
factor, the layout slot and both layouts from the `Pertag` entry 0. -/
theorem view_all (env : Env) (s : WM) (hn1 : 1 ≤ env.ntags) (hn : env.ntags ≤ 31)
    (hact : s.mons.tagset s.mons.seltags ≠ TAGMASK env) :
    (view env s allOnes).mons.tagset (view env s allOnes).mons.seltags = TAGMASK env
    ∧ (view env s allOnes).mons.pertag.curtag = 0
    ∧ (view env s allOnes).mons.nmaster = s.mons.pertag.nmasters 0
    ∧ (view env s allOnes).mons.mfact = s.mons.pertag.mfacts 0
    ∧ (view env s allOnes).mons.sellt = s.mons.pertag.sellts 0
    ∧ ∀ b, (view env s allOnes).mons.lt b = s.mons.pertag.ltidxs 0 b := by
  have hm := allOnes_and_mask env hn
  have h0 : allOnes &&& TAGMASK env ≠ 0 := by rw [hm]; exact tagmask_ne_zero env hn1
  obtain ⟨a1, a2, a3, k1, k2, k3, k4⟩ := view_fields env s allOnes (by rw [hm]; exact hact.symm)
  rw [if_pos h0] at a2
  rw [if_pos h0, if_pos rfl] at a3
  have hcur : (view env s allOnes).mons.pertag.curtag = 0 := by rw [a3]
  refine ⟨?_, hcur, ?_, ?_, ?_, ?_⟩
  · rw [a1, a2, hm]; simp
  · rw [k1, hcur, a3]
  · rw [k2, hcur, a3]
  · rw [k3, hcur, a3]
  · intro b
    rw [k4, hcur, a3]

/-- C16 fails as stated: in `tunedState` (tag 1 viewed, master count 2 stored for the
index 1 and 1 for the index 0) the argument 7 has all three valid bits set, and `view(7)`
sets the canonical index to 1, not 0, and loads the master count 2 of the entry 1. -/
theorem view_mask_all_index :
    tunedState.mons.tagset tunedState.mons.seltags ≠ TAGMASK configDef
    ∧ 7 &&& TAGMASK configDef = TAGMASK configDef
    ∧ (view configDef tunedState 7).mons.pertag.curtag = 1
    ∧ (view configDef tunedState 7).mons.nmaster = 2
    ∧ tunedState.mons.pertag.nmasters 0 = 1 := by
  decide!

/-- Witness for C16: from `tunedState`, `view(~0)` shows the tags 1 to 3, sets the index to
0 and loads the master count 1 of the entry 0. -/
theorem view_all_witness :
    (view configDef tunedState allOnes).mons.tagset
        (view configDef tunedState allOnes).mons.seltags = 7
    ∧ (view configDef tunedState allOnes).mons.pertag.curtag = 0
    ∧ (view configDef tunedState allOnes).mons.nmaster = 1 := by
  have h := view_all configDef tunedState (by decide) (by decide) (by decide!)
  exact ⟨h.1.trans (by decide), h.2.1, h.2.2.1.trans (by decide!)⟩

/-! ## `toggleview`: all tags -/

theorem twoTagsViewed_reachable : Reachable configDef twoTagsViewed := by
  cases h : toggleview configDef startState 2 with
  | none =>
    have : (toggleview configDef startState 2).isSome = true := by decide!
    rw [h] at this
    cases this
  | some t =>
    have ht : twoTagsViewed = t := by
      unfold twoTagsViewed
      rw [h]
      rfl
    rw [ht]
    exact reachable_of_toggleview 2 startState_reachable h

/-- C17, evaluated where it fails: in the reachable state `twoTagsViewed` the tags 1 and 2
are viewed with the canonical index 1; toggling tag 3 makes the active tag-set the set of
all tags, 7, and `toggleview` leaves the canonical index and the previous index at 1. -/
theorem toggleview_all_tags_index :
    Reachable configDef twoTagsViewed
    ∧ twoTagsViewed.mons.tagset twoTagsViewed.mons.seltags ^^^ (4 &&& TAGMASK configDef)
        = TAGMASK configDef
    ∧ twoTagsViewed.mons.pertag.curtag = 1
    ∧ (toggleview configDef twoTagsViewed 4).map
        (fun u => (u.mons.tagset u.mons.seltags, u.mons.pertag.curtag, u.mons.pertag.prevtag))
        = some (7, 1, 1) :=
  ⟨twoTagsViewed_reachable, by decide!, by decide!, by decide!⟩

/-! ## The write-through invariant from `createmon` -/

theorem createmon_inv (env : Env) : PertagInv (createmon env) := by
  refine ⟨rfl, rfl, rfl, ?_⟩
  intro b
  rfl

/-- C18: in every state reached from the monitor of `createmon` by `view`, every run of
`toggleview`, `incnmaster`, `setmfact` and `setlayout`, the live master count, split
factor, selected layout slot and both layouts of the monitor are the values stored in the
`Pertag` entry at the current canonical index. -/
theorem settings_write_through (env : Env) (s : WM) (h : SettingsReachable env s) :
    s.mons.nmaster = s.mons.pertag.nmasters s.mons.pertag.curtag
    ∧ s.mons.mfact = s.mons.pertag.mfacts s.mons.pertag.curtag
    ∧ s.mons.sellt = s.mons.pertag.sellts s.mons.pertag.curtag
    ∧ ∀ b, s.mons.lt b = s.mons.pertag.ltidxs s.mons.pertag.curtag b := by
  have hi : PertagInv s.mons := by
    induction h with
    | created mem => exact createmon_inv env
    | view ui _ ih => exact view_inv env _ ui ih
    | toggleview ui undef _ ih => exact toggleviewRun_inv env _ ui undef ih
    | incnmaster i _ ih => exact incnmaster_inv env _ i ih
    | setmfact f _ ih => exact setmfact_inv env _ f ih
    | setlayout v _ ih => exact setlayout_inv env _ v ih
  exact hi

/-- Witness for C18: after `view(2)` and `setmfact(+0.05)` the live split factor, the
`float` nearest to 0.6, is the one stored for the index 2; in `settingsPastShift`, after
a run of `toggleview` from the canonical index 0, the index is 2 and the live master count
is the 1 stored for the index 2, not the 2 stored for the index 0. -/
theorem settings_write_through_witness :
    (tagTwoTuned.mons.pertag.curtag = 2
      ∧ tagTwoTuned.mons.mfact = 5033165 / 8388608
      ∧ tagTwoTuned.mons.pertag.mfacts 2 = 5033165 / 8388608)
    ∧ (settingsPastShift.mons.pertag.curtag = 2
      ∧ settingsPastShift.mons.pertag.nmasters 0 = 2
      ∧ settingsPastShift.mons.pertag.nmasters 2 = 1
      ∧ settingsPastShift.mons.nmaster = 1) := by
  have h := settings_write_through configDef tagTwoTuned
    (SettingsReachable.setmfact _ (SettingsReachable.view 2 (SettingsReachable.created zeroMem)))
  have h2 := settings_write_through configDef settingsPastShift
    (SettingsReachable.toggleview 1 2147483648 (SettingsReachable.incnmaster 1
      (SettingsReachable.view allOnes (SettingsReachable.created zeroMem))))
  have hc : tagTwoTuned.mons.pertag.curtag = 2 := by decide!
  have hm : tagTwoTuned.mons.mfact = 5033165 / 8388608 := by decide!
  have hc2 : settingsPastShift.mons.pertag.curtag = 2 := by decide!
  have hn2 : settingsPastShift.mons.pertag.nmasters 2 = 1 := by decide!
  refine ⟨⟨hc, hm, ?_⟩, hc2, by decide!, hn2, ?_⟩
  · rw [← hc, ← h.2.1, hm]
  · rw [h2.1, hc2, hn2]

/-! ## `unmanage` -/

theorem firstvisible_congr {m m2 : Monitor} {mem mem2 : Nat → Client}
    (hm : m2.tagset m2.seltags = m.tagset m.seltags) (ht : ∀ a, (mem2 a).tags = (mem a).tags)
    (l : List Nat) : firstvisible m2 mem2 l = firstvisible m mem l := by
  induction l with
  | nil => rfl
  | cons a l ih => simp only [firstvisible, ISVISIBLE, hm, ht, ih]

theorem firstvisible_cons_erase {m : Monitor} {mem : Nat → Client} {l : List Nat} {a : Nat}
    (h : firstvisible m mem l = some a) : firstvisible m mem (a :: l.erase a) = some a := by
  have hv : ISVISIBLE m (mem a) = true := by
    rw [firstvisible_eq_find] at h
    simpa using List.find?_some h
  simp [firstvisible, hv]

theorem unmanage_eq (env : Env) (s : WM) (c : Nat) :
    (unmanage env s c).mons.clients = s.mons.clients.erase c
    ∧ (unmanage env s c).mons.sel = firstvisible s.mons s.mem (s.mons.stack.erase c)
    ∧ (unmanage env s c).mons.stack =
        (match firstvisible s.mons s.mem (s.mons.stack.erase c) with
         | some a => a :: (s.mons.stack.erase c).erase a
         | none => s.mons.stack.erase c)
    ∧ (unmanage env s c).mons.tagset (unmanage env s c).mons.seltags
        = s.mons.tagset s.mons.seltags
    ∧ ∀ a, ((unmanage env s c).mem a).tags = (s.mem a).tags := by
  have hst : (detachstack (detach s c) c).mons.stack = s.mons.stack.erase c := by
    unfold detachstack
    simp only [detach, unlink_chainAfter]
    split <;> rfl
  have hmem : (detachstack (detach s c) c).mem = s.mem := by
    unfold detachstack
    simp only [detach]
    split <;> rfl
  have htag : (detachstack (detach s c) c).mons.tagset = s.mons.tagset := by
    unfold detachstack
    simp only [detach]
    split <;> rfl
  have hsel : (detachstack (detach s c) c).mons.seltags = s.mons.seltags := by
    unfold detachstack
    simp only [detach]
    split <;> rfl
  have hcl : (detachstack (detach s c) c).mons.clients = s.mons.clients.erase c := by
    unfold detachstack
    simp only [detach, unlink_chainAfter]
    split <;> rfl
  have hft : focustarget (detachstack (detach s c) c) none
      = firstvisible s.mons s.mem (s.mons.stack.erase c) := by
    show firstvisible _ _ _ = _
    rw [hst, hmem]
    exact firstvisible_congr (by rw [htag, hsel]) (fun _ => rfl) _
  unfold unmanage
  refine ⟨?_, ?_, ?_, ?_, ?_⟩
  · rw [arrange_clients, focus_clients, hcl]
  · rw [arrange_sel, focus_sel, hft]
  · rw [arrange_stack]
    cases h : firstvisible s.mons s.mem (s.mons.stack.erase c) with
    | none => rw [focus_none (hft.trans h)]; exact hst
    | some a =>
      rw [focus_some (hft.trans h)]
      show a :: (detachstack (detach s c) c).mons.stack.erase a = _
      rw [hst]
  · rw [arrange_tagset, arrange_seltags, focus_tagset, focus_seltags, htag, hsel]
  · intro a
    rw [sameButGeom_tags (arrange_mem env _ a), focus_mem_tags, hmem]

theorem mixedStack_reachable : Reachable configDef mixedStack :=
  Reachable.view 1 (Reachable.manage 3 103 plainWindow
    (Reachable.view 2 twoClients_reachable) (by decide!) (by decide!))

/-- C12, as amended: for every reachable state and every managed client `c`: after
`unmanage(c)`, `c` is in neither the insertion list nor the stack list; the insertion list
is the old one without `c`, so the remaining clients keep their order in it; the selected
client is the first visible client of the remaining stack list, or `NULL` if none is
visible; and the stack list is the old one without `c` in which the newly selected client
was moved to the front, the others keeping their order.  In particular, when `c` is the
only client, the selection is `NULL` and both lists are empty. -/
theorem unmanage_lists (env : Env) (s : WM) (c : Nat) (hr : Reachable env s)
    (_hc : c ∈ s.mons.clients) :
    c ∉ (unmanage env s c).mons.clients
    ∧ c ∉ (unmanage env s c).mons.stack
    ∧ (unmanage env s c).mons.clients = s.mons.clients.erase c
    ∧ (unmanage env s c).mons.sel = firstvisible s.mons s.mem (s.mons.stack.erase c)
    ∧ (unmanage env s c).mons.sel
        = firstvisible (unmanage env s c).mons (unmanage env s c).mem
            (unmanage env s c).mons.stack
    ∧ (unmanage env s c).mons.stack =
        (match (unmanage env s c).mons.sel with
         | some a => a :: (s.mons.stack.erase c).erase a
         | none => s.mons.stack.erase c)
    ∧ (s.mons.clients = [c] →
        (unmanage env s c).mons.sel = none ∧ (unmanage env s c).mons.clients = []
        ∧ (unmanage env s c).mons.stack = []) := by
  obtain ⟨h1, h2, h3, h4⟩ := reachable_listInv hr
  obtain ⟨e1, e2, e3, e4, e5⟩ := unmanage_eq env s c
  have hnc : c ∉ s.mons.stack.erase c := fun hm => ((List.Nodup.mem_erase_iff h2).mp hm).1 rfl
  have hfin : firstvisible (unmanage env s c).mons (unmanage env s c).mem
      (unmanage env s c).mons.stack = firstvisible s.mons s.mem (unmanage env s c).mons.stack :=
    firstvisible_congr e4 e5 _
  refine ⟨?_, ?_, e1, e2, ?_, ?_, ?_⟩
  · rw [e1]
    exact fun hm => ((List.Nodup.mem_erase_iff h1).mp hm).1 rfl
  · rw [e3]
    cases h : firstvisible s.mons s.mem (s.mons.stack.erase c) with
    | none => exact hnc
    | some a =>
      have ha := firstvisible_mem h
      intro hm
      rcases List.mem_cons.mp hm with hca | hca
      · subst hca; exact hnc ha
      · exact hnc (List.mem_of_mem_erase hca)
  · rw [hfin, e2, e3]
    cases h : firstvisible s.mons s.mem (s.mons.stack.erase c) with
    | none => exact h.symm
    | some a => exact (firstvisible_cons_erase h).symm
  · rw [e3, e2]
  · intro hone
    have hstack : s.mons.stack.erase c = [] := by
      apply List.eq_nil_iff_forall_not_mem.mpr
      intro b hb
      have hb2 := (List.Nodup.mem_erase_iff h2).mp hb
      have : b ∈ s.mons.clients := (h3 b).mp hb2.2
      rw [hone] at this
      exact hb2.1 (List.mem_singleton.mp this)
    rw [e1, e2, e3, hstack, hone]
    simp [firstvisible]

/-- C12 fails as stated: in the reachable state `mixedStack` the stack list is `[2, 3, 1]`
with the clients 2 and 1 on the viewed tag 1 and the client 3 on tag 2; `unmanage(2)`
selects the client 1 and moves it to the front, so the stack list becomes `[1, 3]`: the
remaining clients 3 and 1 do not keep their relative order. -/
theorem unmanage_reorders_stack :
    Reachable configDef mixedStack
    ∧ 2 ∈ mixedStack.mons.clients
    ∧ mixedStack.mons.stack = [2, 3, 1]
    ∧ (unmanage configDef mixedStack 2).mons.stack = [1, 3]
    ∧ ¬ List.Sublist (unmanage configDef mixedStack 2).mons.stack mixedStack.mons.stack := by
  have hs : mixedStack.mons.stack = [2, 3, 1] := by decide!
  have hu : (unmanage configDef mixedStack 2).mons.stack = [1, 3] := by decide!
  refine ⟨mixedStack_reachable, by decide!, hs, hu, ?_⟩
  rw [hs, hu]
  decide

/-- Witness for C12: unmanaging the selected client 2 of `twoClients` leaves the client 1
selected and alone in both lists; unmanaging the only client of `oneClient` leaves no
selection and empty lists. -/
theorem unmanage_lists_witness :
    (unmanage configDef twoClients 2).mons.clients = [1]
    ∧ (unmanage configDef twoClients 2).mons.sel = some 1
    ∧ (unmanage configDef oneClient 1).mons.sel = none
    ∧ (unmanage configDef oneClient 1).mons.stack = [] := by
  have h := unmanage_lists configDef twoClients 2 twoClients_reachable (by decide!)
  have h1 := unmanage_lists configDef oneClient 1 oneClient_reachable (by decide!)
  exact ⟨h.2.2.1.trans (by decide!), h.2.2.2.1.trans (by decide!),
    (h1.2.2.2.2.2.2 (by decide!)).1, (h1.2.2.2.2.2.2 (by decide!)).2.2⟩

/-! ## The selection invariant -/

theorem SelInv.of_views {s t : WM} (h1 : t.tagview = s.tagview) (h2 : t.listview = s.listview)
    (h3 : t.mons.seltags = s.mons.seltags) (hi : SelInv s) : SelInv t := by
  simp only [WM.tagview, Prod.mk.injEq] at h1
  simp only [WM.listview, Prod.mk.injEq] at h2
  intro c hc
  rw [h2.2.2] at hc
  have := hi c hc
  have ht : (t.mem c).tags = (s.mem c).tags := congrFun h1.2.2 c
  simpa only [ISVISIBLE, ht, h1.1, h3] using this

theorem focustarget_visible {s : WM} {c : Option Nat} {a : Nat} (h : focustarget s c = some a) :
    ISVISIBLE s.mons (s.mem a) = true := by
  have hf : ∀ {b}, firstvisible s.mons s.mem s.mons.stack = some b →
      ISVISIBLE s.mons (s.mem b) = true := by
    intro b hb
    rw [firstvisible_eq_find] at hb
    simpa using List.find?_some hb
  cases c with
  | none => exact hf h
  | some b =>
    simp only [focustarget] at h
    split at h
    · exact hf h
    · rename_i hv
      cases h
      simpa using hv

theorem focus_selInv (s : WM) (c : Option Nat) : SelInv (focus s c) := by
  intro a ha
  rw [focus_sel] at ha
  have hv := focustarget_visible ha
  simpa only [ISVISIBLE, focus_tagset, focus_seltags, focus_mem_tags] using hv

theorem arrange_selInv {env : Env} {s : WM} (hi : SelInv s) : SelInv (arrange env s) :=
  SelInv.of_views (arrange_tagview _ _) (arrange_listview _ _) (arrange_seltags _ _) hi

theorem pop_selInv (env : Env) (s : WM) (c : Nat) : SelInv (pop env s c) :=
  arrange_selInv (focus_selInv _ _)

theorem setfullscreen_seltags (env : Env) (s : WM) (c : Nat) (b : Bool) :
    (setfullscreen env s c b).mons.seltags = s.mons.seltags := by
  unfold setfullscreen
  split
  · rfl
  · rw [arrange_seltags]; rfl

theorem incnmaster_seltags (env : Env) (s : WM) (i : Int) :
    (incnmaster env s i).mons.seltags = s.mons.seltags := by
  unfold incnmaster
  rw [arrange_seltags]

theorem setmfact_seltags (env : Env) (s : WM) (f : Rat) :
    (setmfact env s f).mons.seltags = s.mons.seltags := by
  unfold setmfact
  split
  · rfl
  · dsimp only
    generalize (if f < 1 then f32 (f + s.mons.mfact) else f32 (f64 (f - 1))) = g
    by_cases hg : g < f64 (1 / 10) ∨ g > f64 (9 / 10)
    · rw [if_pos hg]
    · rw [if_neg hg, arrange_seltags]

theorem setlayout_seltags (env : Env) (s : WM) (v : Option Layout) :
    (setlayout env s v).mons.seltags = s.mons.seltags := by
  unfold setlayout
  dsimp only
  split
  · rw [arrange_seltags]
  · rfl

theorem togglebar_seltags (env : Env) (s : WM) :
    (togglebar env s).mons.seltags = s.mons.seltags := by
  unfold togglebar
  rw [arrange_seltags]
  unfold updatebarpos
  dsimp only
  split <;> rfl

theorem togglefloating_seltags (env : Env) (s : WM) :
    (togglefloating env s).mons.seltags = s.mons.seltags := by
  unfold togglefloating
  split
  · rfl
  · dsimp only
    split
    · rfl
    · rw [arrange_seltags]; rfl

theorem clientmessage_selInv {env : Env} {s : WM} (window : Nat) (msg : XClientMessage)
    (hi : SelInv s) : SelInv (clientmessage env s window msg) := by
  cases msg with
  | netWMState action fs =>
    simp only [clientmessage]
    split
    · exact hi
    · split
      · exact SelInv.of_views (setfullscreen_tagview _ _ _ _) (setfullscreen_listview _ _ _ _)
          (setfullscreen_seltags _ _ _ _) hi
      · exact hi
  | netActiveWindow =>
    simp only [clientmessage]
    split
    · exact hi
    · exact pop_selInv _ _ _
  | other => exact hi

theorem zoom_selInv {env : Env} {s t : WM} (hi : SelInv s) (h : zoom env s = some t) :
    SelInv t := by
  unfold zoom at h
  dsimp only at h
  split at h
  · cases h; exact hi
  · split at h
    · split at h
      · cases h; exact hi
      · split at h
        · cases h; exact hi
        · cases h
          exact pop_selInv _ _ _
    · split at h
      · cases h
      · cases h
        exact pop_selInv _ _ _

theorem initial_selInv (env : Env) (mem : Nat → Client) : SelInv (initial env mem) := by
  have h : (initial env mem).listview = ([], [], none) := by
    simp only [initial, updategeom, updatebarpos, WM.listview]
    split
    · split <;> rfl
    · rfl
  simp only [WM.listview, Prod.mk.injEq] at h
  intro c hc
  rw [h.2.2] at hc
  cases hc

/-- In every reachable state the selected client, if any, is visible. -/
theorem reachable_selInv {env : Env} {s : WM} (h : Reachable env s) : SelInv s := by
  induction h with
  | init mem => exact initial_selInv env mem
  | manage a w xw _ ha hs ih => exact focus_selInv _ _
  | unmanage c _ _ ih => exact arrange_selInv (focus_selInv _ _)
  | tag ui _ ih =>
    unfold tag
    split
    · split
      · exact arrange_selInv (focus_selInv _ _)
      · exact ih
    · exact ih
  | toggletag ui _ ih =>
    unfold toggletag
    split
    · exact ih
    · dsimp only
      split
      · exact arrange_selInv (focus_selInv _ _)
      · exact ih
  | view ui _ ih =>
    unfold view
    dsimp only
    split
    · exact ih
    · exact arrange_selInv (focus_selInv _ _)
  | toggleview ui undef _ ih =>
    unfold toggleviewRun
    dsimp only
    split
    · exact arrange_selInv (focus_selInv _ _)
    · exact ih
  | clientmessage window msg _ ih => exact clientmessage_selInv window msg ih
  | incnmaster i _ ih =>
    exact SelInv.of_views (incnmaster_tagview _ _ _) (incnmaster_listview _ _ _)
      (incnmaster_seltags _ _ _) ih
  | setmfact f _ ih =>
    exact SelInv.of_views (setmfact_tagview _ _ _) (setmfact_listview _ _ _)
      (setmfact_seltags _ _ _) ih
  | setlayout v _ ih =>
    exact SelInv.of_views (setlayout_tagview _ _ _) (setlayout_listview _ _ _)
      (setlayout_seltags _ _ _) ih
  | togglebar _ ih =>
    exact SelInv.of_views (togglebar_tagview _ _) (togglebar_listview _ _)
      (togglebar_seltags _ _) ih
  | togglefloating _ ih =>
    exact SelInv.of_views (togglefloating_tagview _ _) (togglefloating_listview _ _)
      (togglefloating_seltags _ _) ih
  | focus c _ _ ih => exact focus_selInv _ _
  | focusstack i _ ih =>
    unfold focusstack
    split
    · exact ih
    · dsimp only
      split
      · exact focus_selInv _ _
      · exact ih
  | zoom _ hz ih => exact zoom_selInv ih hz

/-- C13: in every state reached from the initial state by complete commands and event
handlers (`manage`, `unmanage`, `focus`, `focusstack`, `zoom`, `view`, every run of
`toggleview`, `tag`, `toggletag`, client messages, and the layout commands), the selected
client of the monitor is either `NULL` or a client that is visible under the active tag-set
and is in the stack list. -/
theorem selected_visible_in_stack (env : Env) (s : WM) (h : Reachable env s) :
    s.mons.sel = none
    ∨ ∃ c, s.mons.sel = some c ∧ ISVISIBLE s.mons (s.mem c) = true ∧ c ∈ s.mons.stack := by
  cases hs : s.mons.sel with
  | none => exact Or.inl rfl
  | some c => exact Or.inr ⟨c, rfl, reachable_selInv h c hs, (reachable_listInv h).2.2.2 c hs⟩

/-- Witness for C13: in `mixedStack` the selected client is the client 2, which is visible
and in the stack list; in `pastShift`, after a run of `toggleview` from the canonical index
0 that leaves the tags 2 and 3 in view, no client is selected. -/
theorem selected_visible_in_stack_witness :
    (mixedStack.mons.sel = some 2
      ∧ ISVISIBLE mixedStack.mons (mixedStack.mem 2) = true ∧ 2 ∈ mixedStack.mons.stack)
    ∧ pastShift.mons.tagset pastShift.mons.seltags = 6
    ∧ (pastShift.mons.sel = none
      ∨ ∃ c, pastShift.mons.sel = some c ∧ ISVISIBLE pastShift.mons (pastShift.mem c) = true
          ∧ c ∈ pastShift.mons.stack) := by
  have hs : mixedStack.mons.sel = some 2 := by decide!
  refine ⟨?_, by decide!,
    selected_visible_in_stack configDef pastShift pastShift_reachable⟩
  rcases selected_visible_in_stack configDef mixedStack mixedStack_reachable with h | ⟨c, h1, h2, h3⟩
  · rw [hs] at h
    cases h
  · rw [hs] at h1
    cases h1
    exact ⟨hs, h2, h3⟩

/-! ## The two client lists -/

/-- C14: in every state reached from the initial state by complete commands and event
handlers (among them `manage`, `unmanage`, `focus`, `focusstack`, `zoom` and, through
`zoom` and the client messages, `pop`), the insertion list and the stack list contain
exactly the same clients, and each of them occurs exactly once in each list. -/
theorem lists_same_clients (env : Env) (s : WM) (h : Reachable env s) :
    ∀ a, (a ∈ s.mons.clients ↔ a ∈ s.mons.stack)
      ∧ (a ∈ s.mons.clients → s.mons.clients.count a = 1 ∧ s.mons.stack.count a = 1) := by
  obtain ⟨h1, h2, h3, _⟩ := reachable_listInv h
  intro a
  refine ⟨(h3 a).symm, fun ha => ⟨List.count_eq_one_of_mem h1 ha, ?_⟩⟩
  exact List.count_eq_one_of_mem h2 ((h3 a).mpr ha)

/-- Witness for C14: in `mixedStack` the insertion list is `[3, 2, 1]`, the stack list is
`[2, 3, 1]`, and the client 3 occurs once in each. -/
theorem lists_same_clients_witness :
    mixedStack.mons.clients = [3, 2, 1] ∧ mixedStack.mons.stack = [2, 3, 1]
    ∧ mixedStack.mons.clients.count 3 = 1 ∧ mixedStack.mons.stack.count 3 = 1 := by
  have h := (lists_same_clients configDef mixedStack mixedStack_reachable 3).2 (by decide!)
  exact ⟨by decide!, by decide!, h⟩

/-! ## `detach` and `detachstack` -/

theorem unlink_of_not_mem {c : Nat} (cnext : List Nat) {l : List Nat} (h : c ∉ l) :
    unlink c cnext l = l ++ cnext := by
  induction l with
  | nil => rfl
  | cons a l ih =>
    have ha : a ≠ c := fun e => h (e ▸ List.mem_cons_self _ _)
    have hl : c ∉ l := fun hm => h (List.mem_cons_of_mem _ hm)
    simp [unlink, ha, ih hl]

/-- C21, as amended: for every insertion list `l` and every client `c` that is not in the
list and whose `next` link is `NULL`, `detach(c)` leaves the list unchanged; for `c` in the
list (a linked list, without repetition), whose `next` link is then what follows `c` in
the list, `detach(c)` removes exactly `c` and keeps the order of the others. -/
theorem detach_list (c : Nat) (l : List Nat) :
    (c ∉ l → unlink c [] l = l)
    ∧ (c ∈ l → l.Nodup →
        unlink c (chainAfter c l) l = l.filter (fun a => a != c)
        ∧ c ∉ unlink c (chainAfter c l) l
        ∧ List.Sublist (unlink c (chainAfter c l) l) l
        ∧ ∀ s : WM, s.mons.clients = l → (detach s c).mons.clients = l.filter (fun a => a != c)) := by
  refine ⟨fun h => ?_, fun _ hnd => ?_⟩
  · rw [unlink_of_not_mem [] h, List.append_nil]
  · rw [unlink_chainAfter]
    have hf : l.erase c = l.filter (fun a => a != c) := hnd.erase_eq_filter c
    refine ⟨hf, fun hm => ((List.Nodup.mem_erase_iff hnd).mp hm).1 rfl, List.erase_sublist c l, ?_⟩
    intro s hs
    show unlink c (chainAfter c s.mons.clients) s.mons.clients = _
    rw [hs, unlink_chainAfter, hf]

/-- C21 fails as stated: the client 3 is not in the list `[1, 2]`; when its `next` link
holds the client 4, `detach` appends that client to the list. -/
theorem detach_absent_appends :
    3 ∉ [1, 2] ∧ unlink 3 [4] [1, 2] = [1, 2, 4] ∧ unlink 3 [4] [1, 2] ≠ [1, 2] := by
  decide

/-- Witness for C21: detaching the client 2 from the insertion list `[3, 2, 1]` of
`threeClients` leaves `[3, 1]`. -/
theorem detach_list_witness :
    threeClients.mons.clients = [3, 2, 1]
    ∧ (detach threeClients 2).mons.clients = [3, 1]
    ∧ unlink 4 [] [3, 2, 1] = [3, 2, 1] := by
  have hl : threeClients.mons.clients = [3, 2, 1] := by decide!
  have h := detach_list 2 [3, 2, 1]
  have h4 := (detach_list 4 [3, 2, 1]).1 (by decide)
  exact ⟨hl, ((h.2 (by decide) (by decide)).2.2.2 threeClients hl).trans (by decide), h4⟩

/-- C22: for every state and every client `c` of the stack list (a linked list, without
repetition), `detachstack(c)` removes `c` and keeps the order of the others; if `c` was the
selected client, the selected client becomes the first client of the remaining stack list
that is visible under the active tag-set, or `NULL` if there is none; if `c` was not
selected, the selection is unchanged. -/
theorem detachstack_spec (s : WM) (c : Nat) (_hc : c ∈ s.mons.stack) (hnd : s.mons.stack.Nodup) :
    (detachstack s c).mons.stack = s.mons.stack.filter (fun a => a != c)
    ∧ c ∉ (detachstack s c).mons.stack
    ∧ (s.mons.sel = some c →
        (detachstack s c).mons.sel
          = (s.mons.stack.filter (fun a => a != c)).find? (fun a => ISVISIBLE s.mons (s.mem a)))
    ∧ (s.mons.sel ≠ some c → (detachstack s c).mons.sel = s.mons.sel) := by
  have hf : s.mons.stack.erase c = s.mons.stack.filter (fun a => a != c) := hnd.erase_eq_filter c
  have hst : (detachstack s c).mons.stack = s.mons.stack.erase c := by
    unfold detachstack
    simp only [unlink_chainAfter]
    split <;> rfl
  refine ⟨hst.trans hf, ?_, ?_, ?_⟩
  · rw [hst]
    exact fun hm => ((List.Nodup.mem_erase_iff hnd).mp hm).1 rfl
  · intro hsel
    unfold detachstack
    simp only [unlink_chainAfter, hsel, if_true]
    rw [← hf, ← firstvisible_eq_find]
    apply firstvisible_congr
    · rfl
    · intro a
      rfl
  · intro hsel
    unfold detachstack
    simp only [unlink_chainAfter, hsel, if_false]

/-- Witness for C22: in `mixedStack` (stack list `[2, 3, 1]`, client 2 selected, client 3
on a tag that is not viewed) `detachstack(2)` leaves `[3, 1]` and selects the client 1;
`detachstack(3)` keeps the selection. -/
theorem detachstack_spec_witness :
    (detachstack mixedStack 2).mons.stack = [3, 1]
    ∧ (detachstack mixedStack 2).mons.sel = some 1
    ∧ (detachstack mixedStack 3).mons.sel = some 2 := by
  have h2 := detachstack_spec mixedStack 2 (by decide!) (by decide!)
  have h3 := detachstack_spec mixedStack 3 (by decide!) (by decide!)
  exact ⟨h2.1.trans (by decide!), (h2.2.2.1 (by decide!)).trans (by decide!),
    (h3.2.2.2 (by decide!)).trans (by decide!)⟩

/-! ## `wintoclient` -/

/-- C24: for every insertion list and every window `w`, `wintoclient(w)` returns `NULL`
exactly when no client of the list has the window `w`, and otherwise the first client of
the list whose window is `w`: a client of the list with that window before which no
client has it. -/
theorem wintoclient_first (s : WM) (w : Nat) :
    (wintoclient s w = none ↔ ∀ a ∈ s.mons.clients, (s.mem a).win ≠ w)
    ∧ ∀ c, wintoclient s w = some c →
        (s.mem c).win = w
        ∧ ∃ l1 l2, s.mons.clients = l1 ++ c :: l2 ∧ ∀ a ∈ l1, (s.mem a).win ≠ w := by
  unfold wintoclient
  constructor
  · rw [List.find?_eq_none]
    simp
  · intro c hc
    rw [List.find?_eq_some] at hc
    obtain ⟨hw, l1, l2, hl, hpre⟩ := hc
    refine ⟨by simpa using hw, l1, l2, hl, ?_⟩
    intro a ha
    simpa using hpre a ha

/-- Witness for C24: in `twoClients` the window 102 belongs to the client 2, and no client
has the window 999. -/
theorem wintoclient_first_witness :
    wintoclient twoClients 102 = some 2 ∧ (twoClients.mem 2).win = 102
    ∧ wintoclient twoClients 999 = none := by
  have h := wintoclient_first twoClients
  have h2 : wintoclient twoClients 102 = some 2 := by decide!
  exact ⟨h2, ((h 102).2 2 h2).1, (h 999).1.mpr (by decide!)⟩

/-! ## Size hints: when they are skipped, and the clamp to the minimum and maximum -/

/-- C25: when `resizehints` is off, the client is not floating and the selected layout has
an arrange function, `applysizehints` ignores the size hints of the client: whatever its
base, minimum, maximum, increment and aspect fields hold, the returned width is
`max(w, 1, bh)` and the returned height is `max(h, 1, bh)`. -/
theorem applysizehints_skips_hints (env : Env) (m : Monitor) (c : Client) (x y w h : Int)
    (interact : Bool) (hr : env.resizehints = false) (hf : c.isfloating = false)
    (ha : (m.lt m.sellt).arrange ≠ none) :
    (applysizehints env m c x y w h interact).w = max (max w 1) (bh env)
    ∧ (applysizehints env m c x y w h interact).h = max (max h 1) (bh env) := by
  have hN : (m.lt m.sellt).arrange.isNone = false := by
    cases hh : (m.lt m.sellt).arrange with
    | none => exact absurd hh ha
    | some f => rfl
  have h2 := bh_ge_two env
  obtain ⟨e1, e2⟩ := applysizehints_size env m c x y w h interact
  rw [e1, e2]
  simp only [hr, hf, hN, Bool.or_self, Bool.false_eq_true, if_false]
  constructor <;> (simp only [max_def]; split_ifs <;> omega)

/-- Witness for C25: a tiled client with minimum size 200x200 and increments 7x7 asked to
take the size 100x5 gets the width 100 and the height 18 of the bar. -/
theorem applysizehints_skips_hints_witness :
    (applysizehints configDef startState.mons
        { Client.zero with minw := 200, minh := 200, incw := 7, inch := 7 } 0 18 100 5 false).w
      = 100
    ∧ (applysizehints configDef startState.mons
        { Client.zero with minw := 200, minh := 200, incw := 7, inch := 7 } 0 18 100 5 false).h
      = 18 := by
  have h := applysizehints_skips_hints configDef startState.mons
    { Client.zero with minw := 200, minh := 200, incw := 7, inch := 7 } 0 18 100 5 false
    (by decide) (by decide) (by decide)
  exact ⟨h.1.trans (by decide), h.2.trans (by decide)⟩

theorem hintsize_bounds (c : Client) (w h : Int) :
    (c.maxw = 0 → c.minw ≤ (hintsize c w h).1)
    ∧ (0 < c.minw → c.minw ≤ c.maxw → c.minw ≤ (hintsize c w h).1 ∧ (hintsize c w h).1 ≤ c.maxw)
    ∧ (c.maxh = 0 → c.minh ≤ (hintsize c w h).2)
    ∧ (0 < c.minh → c.minh ≤ c.maxh →
        c.minh ≤ (hintsize c w h).2 ∧ (hintsize c w h).2 ≤ c.maxh) := by
  unfold hintsize
  dsimp only
  refine ⟨fun h0 => ?_, fun h1 h2 => ?_, fun h0 => ?_, fun h1 h2 => ?_⟩
  · rw [if_neg (by simpa using h0)]
    exact le_max_right _ _
  · rw [if_pos (by omega)]
    exact ⟨le_min (le_max_right _ _) h2, min_le_right _ _⟩
  · rw [if_neg (by simpa using h0)]
    exact le_max_right _ _
  · rw [if_pos (by omega)]
    exact ⟨le_min (le_max_right _ _) h2, min_le_right _ _⟩

/-- C26: whenever the size hints apply to the client (`resizehints` is on, or the client is
floating, or the selected layout has no arrange function): if `0 < minw <= maxw` the
returned width satisfies `minw <= w <= maxw`, and if `maxw` is 0 it satisfies `minw <= w`;
likewise the returned height with `minh` and `maxh`. -/
theorem applysizehints_clamp (env : Env) (m : Monitor) (c : Client) (x y w h : Int)
    (interact : Bool)
    (happ : env.resizehints = true ∨ c.isfloating = true ∨ (m.lt m.sellt).arrange = none) :
    (0 < c.minw → c.minw ≤ c.maxw →
      c.minw ≤ (applysizehints env m c x y w h interact).w
      ∧ (applysizehints env m c x y w h interact).w ≤ c.maxw)
    ∧ (c.maxw = 0 → c.minw ≤ (applysizehints env m c x y w h interact).w)
    ∧ (0 < c.minh → c.minh ≤ c.maxh →
      c.minh ≤ (applysizehints env m c x y w h interact).h
      ∧ (applysizehints env m c x y w h interact).h ≤ c.maxh)
    ∧ (c.maxh = 0 → c.minh ≤ (applysizehints env m c x y w h interact).h) := by
  have hcond : (env.resizehints || c.isfloating || (m.lt m.sellt).arrange.isNone) = true := by
    rcases happ with h1 | h1 | h1
    · simp [h1]
    · simp [h1]
    · simp [h1]
  obtain ⟨e1, e2⟩ := applysizehints_size env m c x y w h interact
  rw [e1, e2, if_pos hcond, if_pos hcond]
  obtain ⟨b1, b2, b3, b4⟩ := hintsize_bounds c (max w (bh env)) (max h (bh env))
  exact ⟨b2, b1, b4, b3⟩

/-- Witness for C26: a floating client with sizes limited to 50..300 by 40..200 and no
limit in the second case; the request 1000x10 is clamped to 300x40. -/
theorem applysizehints_clamp_witness :
    (applysizehints configDef startState.mons
        { Client.zero with minw := 50, maxw := 300, minh := 40, maxh := 200, isfloating := true }
        0 18 1000 10 false).w = 300
    ∧ (applysizehints configDef startState.mons
        { Client.zero with minw := 50, maxw := 300, minh := 40, maxh := 200, isfloating := true }
        0 18 1000 10 false).h = 40
    ∧ (50 : Int) ≤ (applysizehints configDef startState.mons
        { Client.zero with minw := 50, minh := 40, isfloating := true } 0 18 20 10 false).w := by
  have h := applysizehints_clamp configDef startState.mons
    { Client.zero with minw := 50, maxw := 300, minh := 40, maxh := 200, isfloating := true }
    0 18 1000 10 false (Or.inr (Or.inl rfl))
  have h0 := applysizehints_clamp configDef startState.mons
    { Client.zero with minw := 50, minh := 40, isfloating := true }
    0 18 20 10 false (Or.inr (Or.inl rfl))
  have hw := h.1 (by decide) (by decide)
  have hh := h.2.2.1 (by decide) (by decide)
  refine ⟨?_, ?_, h0.2.1 rfl⟩
  · exact le_antisymm hw.2 (by decide!)
  · exact le_antisymm (by decide!) hh.1

/-! ## `focus` on a visible client -/

/-- C27: for every state and every client `c` that is in the stack list and visible under
the active tag-set: after `focus(c)` the selected client is `c`, `c` is the head of the
stack list and the other clients follow in their old order, the insertion list is
unchanged, and the urgent flag of `c` is false. -/
theorem focus_visible (s : WM) (c : Nat) (_hc : c ∈ s.mons.stack)
    (hv : ISVISIBLE s.mons (s.mem c) = true) :
    (focus s (some c)).mons.sel = some c
    ∧ (focus s (some c)).mons.stack = c :: s.mons.stack.erase c
    ∧ (focus s (some c)).mons.clients = s.mons.clients
    ∧ ((focus s (some c)).mem c).isurgent = false := by
  have ht : focustarget s (some c) = some c := by simp [focustarget, hv]
  rw [focus_some ht]
  simp

/-- Witness for C27: focusing the visible client 1 of `twoClients` (stack list `[2, 1]`)
selects it and makes the stack list `[1, 2]`. -/
theorem focus_visible_witness :
    (focus twoClients (some 1)).mons.sel = some 1
    ∧ (focus twoClients (some 1)).mons.stack = [1, 2]
    ∧ (focus twoClients (some 1)).mons.clients = [2, 1] := by
  have h := focus_visible twoClients 1 (by decide!) (by decide!)
  exact ⟨h.1, h.2.1.trans (by decide!), h.2.2.1.trans (by decide!)⟩

/-! ## `nexttiled` -/

theorem nexttiled_eq_dropWhile (m : Monitor) (mem : Nat → Client) (l : List Nat) :
    nexttiled m mem l = l.dropWhile (fun a => (mem a).isfloating || !ISVISIBLE m (mem a)) := by
  induction l with
  | nil => rfl
  | cons a l ih =>
    by_cases h : ((mem a).isfloating || !ISVISIBLE m (mem a)) = true
    · rw [nexttiled, if_pos h, List.dropWhile_cons, if_pos h, ih]
    · rw [nexttiled, if_neg h, List.dropWhile_cons, if_neg h]

theorem nexttiled_length_le (m : Monitor) (mem : Nat → Client) (l : List Nat) :
    (nexttiled m mem l).length ≤ l.length := by
  rw [nexttiled_eq_dropWhile]
  exact (List.dropWhile_sublist _).length_le

theorem tiled_nexttiled (m : Monitor) (mem : Nat → Client) (l : List Nat) :
    tiled m mem (nexttiled m mem l) = tiled m mem l := by
  induction l with
  | nil => rfl
  | cons a l ih =>
    by_cases h : ((mem a).isfloating || !ISVISIBLE m (mem a)) = true
    · rw [nexttiled, if_pos h, ih, tiled_cons, if_pos h]
    · rw [nexttiled, if_neg h]

theorem nexttiled_head_tiled (m : Monitor) (mem : Nat → Client) {l : List Nat} {c : Nat}
    {cnext : List Nat} (h : nexttiled m mem l = c :: cnext) :
    tiled m mem l = c :: tiled m mem cnext := by
  induction l with
  | nil => cases h
  | cons a l ih =>
    by_cases ha : ((mem a).isfloating || !ISVISIBLE m (mem a)) = true
    · rw [nexttiled, if_pos ha] at h
      rw [tiled_cons, if_pos ha]
      exact ih h
    · rw [nexttiled, if_neg ha] at h
      cases h
      rw [tiled_cons, if_neg ha]

theorem tiledWalk_eq (m : Monitor) (mem : Nat → Client) (fuel : Nat) (l : List Nat)
    (h : l.length ≤ fuel) : tiledWalk m mem fuel l = tiled m mem l := by
  induction fuel generalizing l with
  | zero =>
    have : l = [] := List.length_eq_zero.mp (by omega)
    subst this
    rfl
  | succ f ih =>
    unfold tiledWalk
    cases hn : nexttiled m mem l with
    | nil =>
      dsimp only
      rw [← tiled_nexttiled, hn]
      rfl
    | cons c cnext =>
      dsimp only
      have hlen := nexttiled_length_le m mem l
      rw [hn, List.length_cons] at hlen
      rw [ih cnext (by omega), nexttiled_head_tiled m mem hn]

/-- C23: `nexttiled(c)` returns the first client at or after `c` in the insertion list
that is not floating and is visible under the active tag-set, with what follows it, or
`NULL` when there is none; and the iteration `c = nexttiled(head)`, `c = nexttiled(c->next)`
until `NULL` visits exactly the visible clients that are not floating, each once, in
insertion order: it ends within as many rounds as the list has clients. -/
theorem nexttiled_enumerates (m : Monitor) (mem : Nat → Client) (l : List Nat) :
    nexttiled m mem l = l.dropWhile (fun a => (mem a).isfloating || !ISVISIBLE m (mem a))
    ∧ (nexttiled m mem l).head?
        = l.find? (fun a => !(mem a).isfloating && ISVISIBLE m (mem a))
    ∧ ∀ fuel, l.length ≤ fuel →
        tiledWalk m mem fuel l
          = l.filter (fun a => !(mem a).isfloating && ISVISIBLE m (mem a)) := by
  have hp : (fun a => !((mem a).isfloating || !ISVISIBLE m (mem a)))
      = (fun a => !(mem a).isfloating && ISVISIBLE m (mem a)) := by
    funext a
    cases (mem a).isfloating <;> cases ISVISIBLE m (mem a) <;> rfl
  refine ⟨nexttiled_eq_dropWhile m mem l, ?_, ?_⟩
  · induction l with
    | nil => rfl
    | cons a l ih =>
      by_cases h : ((mem a).isfloating || !ISVISIBLE m (mem a)) = true
      · have hq : (!(mem a).isfloating && ISVISIBLE m (mem a)) = false := by
          rw [← congrFun hp a, h]; rfl
        rw [nexttiled, if_pos h, ih, List.find?_cons, hq]
      · have hq : (!(mem a).isfloating && ISVISIBLE m (mem a)) = true := by
          rw [← congrFun hp a]; simpa using h
        rw [nexttiled, if_neg h, List.find?_cons, hq]
        rfl
  · intro fuel hf
    rw [tiledWalk_eq m mem fuel l hf, ← hp]
    rfl

/-- Witness for C23: in `mixedStack` the insertion list is `[3, 2, 1]` and the client 3 is
on a tag that is not viewed; the iteration visits the clients 2 and 1. -/
theorem nexttiled_enumerates_witness :
    nexttiled mixedStack.mons mixedStack.mem [3, 2, 1] = [2, 1]
    ∧ tiledWalk mixedStack.mons mixedStack.mem 3 [3, 2, 1] = [2, 1] := by
  have h := nexttiled_enumerates mixedStack.mons mixedStack.mem [3, 2, 1]
  exact ⟨h.1.trans (by decide!), (h.2.2 3 (by decide)).trans (by decide!)⟩

/-! ## `focusstack` -/

theorem firstvisible_eq_head (m : Monitor) (mem : Nat → Client) (l : List Nat) :
    firstvisible m mem l = (l.filter (fun a => ISVISIBLE m (mem a))).head? := by
  rw [firstvisible_eq_find, List.filter_head?]

theorem lastvisible_eq_getLast (m : Monitor) (mem : Nat → Client) (l : List Nat)
    (acc : Option Nat) :
    lastvisible m mem l acc
      = (match (l.filter (fun a => ISVISIBLE m (mem a))).getLast? with
         | some a => some a
         | none => acc) := by
  induction l generalizing acc with
  | nil => rfl
  | cons b l ih =>
    by_cases hb : ISVISIBLE m (mem b) = true
    · have e : (b :: l).filter (fun a => ISVISIBLE m (mem a))
          = b :: l.filter (fun a => ISVISIBLE m (mem a)) := by
        simp [List.filter_cons, hb]
      rw [lastvisible, if_pos hb, ih, e]
      cases hf : l.filter (fun a => ISVISIBLE m (mem a)) with
      | nil => rfl
      | cons x xs =>
        rw [List.getLast?_cons_cons]
        cases hx : (x :: xs).getLast? with
        | none => exact absurd hx (by simp)
        | some y => rfl
    · have e : (b :: l).filter (fun a => ISVISIBLE m (mem a))
          = l.filter (fun a => ISVISIBLE m (mem a)) := by
        simp [List.filter_cons, hb]
      rw [lastvisible, if_neg hb, ih, e]

theorem takeWhile_ne_split {c0 : Nat} {pre post : List Nat} (h : c0 ∉ pre) :
    (pre ++ c0 :: post).takeWhile (fun a => a != c0) = pre
    ∧ (pre ++ c0 :: post).dropWhile (fun a => a != c0) = c0 :: post
    ∧ chainAfter c0 (pre ++ c0 :: post) = post := by
  induction pre with
  | nil => simp [chainAfter]
  | cons b pre ih =>
    have hb : b ≠ c0 := fun e => h (e ▸ List.mem_cons_self _ _)
    have hp : c0 ∉ pre := fun hm => h (List.mem_cons_of_mem _ hm)
    obtain ⟨i1, i2, i3⟩ := ih hp
    refine ⟨?_, ?_, ?_⟩
    · simp [List.takeWhile_cons, hb, i1]
    · simp [List.dropWhile_cons, hb, i2]
    · simp [chainAfter, hb, i3]

theorem focus_sel_of_visible (s : WM) {t : Nat} (h : ISVISIBLE s.mons (s.mem t) = true) :
    (focus s (some t)).mons.sel = some t := by
  rw [focus_sel]
  simp [focustarget, h]

theorem head?_filter_visible {m : Monitor} {mem : Nat → Client} {l : List Nat} {t : Nat}
    (h : (l.filter (fun a => ISVISIBLE m (mem a))).head? = some t) :
    ISVISIBLE m (mem t) = true := by
  have hm : t ∈ l.filter (fun a => ISVISIBLE m (mem a)) := List.mem_of_mem_head? h
  exact (List.mem_filter.mp hm).2

theorem getLast?_filter_visible {m : Monitor} {mem : Nat → Client} {l : List Nat} {t : Nat}
    (h : (l.filter (fun a => ISVISIBLE m (mem a))).getLast? = some t) :
    ISVISIBLE m (mem t) = true := by
  have hm : t ∈ l.filter (fun a => ISVISIBLE m (mem a)) := List.mem_of_getLast?_eq_some h
  exact (List.mem_filter.mp hm).2

/-- C28: `focusstack` never changes the insertion list and changes nothing when no client
is selected.  With a selected client `c0`, the insertion list being `pre`, `c0`, `post`:
with a positive direction it selects the first visible client of `post`, and when `post`
has no visible client the first visible client of the whole list; with a non-positive
direction it selects the last visible client of `pre`, and when `pre` has no visible
client the last visible client of the whole list. -/
theorem focusstack_cycle (s : WM) (i : Int) :
    (focusstack s i).mons.clients = s.mons.clients
    ∧ (s.mons.sel = none → focusstack s i = s)
    ∧ ∀ c0 pre post, s.mons.sel = some c0 → s.mons.clients = pre ++ c0 :: post → c0 ∉ pre →
        (0 < i →
          (∀ t, (post.filter (fun a => ISVISIBLE s.mons (s.mem a))).head? = some t →
            (focusstack s i).mons.sel = some t)
          ∧ (post.filter (fun a => ISVISIBLE s.mons (s.mem a)) = [] →
            ∀ t, (s.mons.clients.filter (fun a => ISVISIBLE s.mons (s.mem a))).head? = some t →
              (focusstack s i).mons.sel = some t))
        ∧ (i ≤ 0 →
          (∀ t, (pre.filter (fun a => ISVISIBLE s.mons (s.mem a))).getLast? = some t →
            (focusstack s i).mons.sel = some t)
          ∧ (pre.filter (fun a => ISVISIBLE s.mons (s.mem a)) = [] →
            ∀ t, (s.mons.clients.filter (fun a => ISVISIBLE s.mons (s.mem a))).getLast? = some t →
              (focusstack s i).mons.sel = some t)) := by
  refine ⟨?_, ?_, ?_⟩
  · unfold focusstack
    split
    · rfl
    · dsimp only
      split
      · exact focus_clients _ _
      · rfl
  · intro h
    unfold focusstack
    rw [h]
  · intro c0 pre post hsel hl hpre
    obtain ⟨e1, e2, e3⟩ := @takeWhile_ne_split c0 pre post hpre
    have hall : s.mons.clients.filter (fun a => ISVISIBLE s.mons (s.mem a))
        = pre.filter (fun a => ISVISIBLE s.mons (s.mem a))
          ++ (c0 :: post).filter (fun a => ISVISIBLE s.mons (s.mem a)) := by
      rw [hl, List.filter_append]
    constructor
    · intro hi
      constructor
      · intro t ht
        unfold focusstack
        rw [hsel]
        simp only [hi, if_true, hl, e3, firstvisible_eq_head, ht]
        exact focus_sel_of_visible s (head?_filter_visible ht)
      · intro hnone t ht
        unfold focusstack
        rw [hsel]
        rw [hl] at ht
        simp only [hi, if_true, hl, e3, firstvisible_eq_head, hnone, List.head?_nil, ht]
        exact focus_sel_of_visible s (head?_filter_visible ht)
    · intro hi
      have hi' : ¬ (0 < i) := by omega
      constructor
      · intro t ht
        unfold focusstack
        rw [hsel]
        simp only [hi', if_false, hl, e1, e2, lastvisible_eq_getLast, ht]
        exact focus_sel_of_visible s (getLast?_filter_visible ht)
      · intro hnone t ht
        rw [hall, hnone, List.nil_append] at ht
        unfold focusstack
        rw [hsel]
        simp only [hi', if_false, hl, e1, e2, lastvisible_eq_getLast, hnone, List.getLast?_nil,
          ht]
        exact focus_sel_of_visible s (getLast?_filter_visible ht)

/-- Witness for C28: in `threeClients` the insertion list is `[3, 2, 1]` and the client 3
is selected; a positive direction selects the client 2, a negative direction wraps to the
client 1. -/
theorem focusstack_cycle_witness :
    (focusstack threeClients 1).mons.sel = some 2
    ∧ (focusstack threeClients (-1)).mons.sel = some 1 := by
  have h := (focusstack_cycle threeClients 1).2.2 3 [] [2, 1] (by decide!) (by decide!)
    (by decide)
  have h2 := (focusstack_cycle threeClients (-1)).2.2 3 [] [2, 1] (by decide!) (by decide!)
    (by decide)
  exact ⟨(h.1 (by decide)).1 2 (by decide!), (h2.2 (by decide)).2 (by decide!) 1 (by decide!)⟩

/-! ## `tilegap` without padding -/

theorem tilegapLoop_zero_padding (env : Env) (m : Monitor) (n mw g : Nat)
    (hp : env.paddingpx = 0) (hx0 : -2147483648 ≤ m.wx) (hx1 : m.wx < 2147483648)
    (l : List Nat) (i my ty : Nat) (mem : Nat → Client) :
    tilegapLoop env m n mw g l i my ty mem = tileLoop env m n mw g l i my ty mem := by
  induction l generalizing i my ty mem with
  | nil => rfl
  | cons a l ih =>
    unfold tilegapLoop tileLoop
    simp only [hp, Nat.cast_zero, add_zero, mul_zero, i32_u32 hx0 hx1]
    split
    · exact ih _ _ _ _
    · split
      · exact ih _ _ _ _
      · exact ih _ _ _ _

/-- C29: with the padding `paddingpx` set to 0 (and `wx` a C `int`), `tilegap` returns the
state `tile` returns: every client gets exactly the geometry `x`, `y`, `w`, `h` that `tile`
gives it. -/
theorem tilegap_zero_padding (env : Env) (s : WM) (hp : env.paddingpx = 0)
    (hx0 : -2147483648 ≤ s.mons.wx) (hx1 : s.mons.wx < 2147483648) :
    tilegap env s = tile env s
    ∧ ∀ a, ((tilegap env s).mem a).x = ((tile env s).mem a).x
        ∧ ((tilegap env s).mem a).y = ((tile env s).mem a).y
        ∧ ((tilegap env s).mem a).w = ((tile env s).mem a).w
        ∧ ((tilegap env s).mem a).h = ((tile env s).mem a).h := by
  have h : tilegap env s = tile env s := by
    unfold tilegap tile
    simp only [tilegapLoop_zero_padding env s.mons _ _ _ hp hx0 hx1]
  rw [h]
  exact ⟨rfl, fun a => ⟨rfl, rfl, rfl, rfl⟩⟩

/-- Witness for C29: under `configDef` with the padding set to 0, `tilegap` and `tile`
give the client 1 of `threeClients` the same place. -/
theorem tilegap_zero_padding_witness :
    ((tilegap { configDef with paddingpx := 0 } threeClients).mem 1).y
      = ((tile { configDef with paddingpx := 0 } threeClients).mem 1).y
    ∧ ((tile { configDef with paddingpx := 0 } threeClients).mem 1).y = 393
    ∧ ((tilegap configDef threeClients).mem 1).y = 403 := by
  have h := tilegap_zero_padding { configDef with paddingpx := 0 } threeClients rfl
    (by decide!) (by decide!)
  exact ⟨(h.2 1).2.1, by decide!, by decide!⟩

/-! ## The tile layout: the width of the master column -/

theorem tileLoop_first_width (env : Env) (m : Monitor) (n mw g : Nat)
    (hr : env.resizehints = false) (harr : (m.lt m.sellt).arrange.isNone = false)
    (l : List Nat) (mem : Nat → Client) (a : Nat) (rest : List Nat)
    (hnd : l.Nodup) (ht : tiled m mem l = a :: rest) :
    (tileLoop env m n mw g l 0 0 0 mem a).w
      = max (if 0 < u32 m.nmaster then i32 (u32 ((mw : Int) - g * (mem a).bw))
             else i32 (u32 (m.ww - mw - 2 * (mem a).bw))) (bh env) := by
  induction l with
  | nil => cases ht
  | cons b l ih =>
    have hbl : b ∉ l := (List.nodup_cons.mp hnd).1
    have hndl : l.Nodup := (List.nodup_cons.mp hnd).2
    by_cases hb : ((mem b).isfloating || !ISVISIBLE m (mem b)) = true
    · rw [tiled_cons, if_pos hb] at ht
      rw [tileLoop]
      simp only [hb, if_true]
      exact ih hndl ht
    · rw [tiled_cons, if_neg hb] at ht
      cases ht
      have hf : (mem a).isfloating = false := by
        cases h : (mem a).isfloating
        · rfl
        · rw [h] at hb; simp at hb
      have hskip : (env.resizehints || (mem a).isfloating || (m.lt m.sellt).arrange.isNone)
          = false := by simp [hr, hf, harr]
      rw [tileLoop]
      simp only [hb, Bool.false_eq_true, if_false]
      by_cases hm : 0 < u32 m.nmaster
      · simp only [hm, if_true]
        rw [tileLoop_untouched _ _ _ _ _ _ _ _ _ _ a hbl, Function.update_same,
          (resize_geom _ _ _ _ _ _ _ _).2.2.1, (applysizehints_size _ _ _ _ _ _ _ _).1, hskip]
        simp
      · simp only [hm, if_false]
        rw [tileLoop_untouched _ _ _ _ _ _ _ _ _ _ a hbl, Function.update_same,
          (resize_geom _ _ _ _ _ _ _ _).2.2.1, (applysizehints_size _ _ _ _ _ _ _ _).1, hskip]
        simp

/-- C30, as amended: for the tile layout with `N >= 1` tiled clients (visible and not
floating), the first of them being `a`, and with size hints not applied to tiled clients:
when the master count is zero the width `mw` of the master column is 0, and `a`, like every
tiled client, is placed in the stack column, which takes the whole usable width: its width
is `ww - 2*bw` (at least the bar height); when `0 < nmaster < N` the width `mw` is the
usable width times the split factor, the `float` product `(float)ww * mfact` truncated to
an integer, and the master client `a` gets the width `mw - numgaps*bw` (at least the bar
height). -/
theorem tile_master_width (env : Env) (s : WM) (a : Nat) (rest : List Nat)
    (hr : env.resizehints = false) (harr : (s.mons.lt s.mons.sellt).arrange ≠ none)
    (hnd : s.mons.clients.Nodup) (ht : tiledClients s = a :: rest)
    (hN : rest.length + 1 < 4294967296) :
    (s.mons.nmaster = 0 →
        masterWidth s.mons (rest.length + 1) = 0
        ∧ ((tile env s).mem a).w
            = max (i32 (u32 (s.mons.ww - 2 * (s.mem a).bw))) (bh env))
    ∧ (0 < s.mons.nmaster → s.mons.nmaster < ((rest.length + 1 : Nat) : Int) →
        masterWidth s.mons (rest.length + 1)
          = u32 (truncQ (f32 (f32 (s.mons.ww : Rat) * s.mons.mfact)))
        ∧ ((tile env s).mem a).w
            = max (i32 (u32
                ((u32 (truncQ (f32 (f32 (s.mons.ww : Rat) * s.mons.mfact))) : Int)
                  - numgapsOf env (rest.length + 1) * (s.mem a).bw))) (bh env)) := by
  have hN' : (s.mons.lt s.mons.sellt).arrange.isNone = false := by
    cases h : (s.mons.lt s.mons.sellt).arrange with
    | none => exact absurd h harr
    | some f => rfl
  have hcount : counttiled s.mons s.mem s.mons.clients = rest.length + 1 := by
    rw [counttiled_eq]
    show (tiledClients s).length = _
    rw [ht]; rfl
  have htile : (tile env s).mem a
      = tileLoop env s.mons (rest.length + 1) (masterWidth s.mons (rest.length + 1))
          (numgapsOf env (rest.length + 1)) s.mons.clients 0 0 0 s.mem a := by
    unfold tile
    simp only [hcount]
    rfl
  have hw := tileLoop_first_width env s.mons (rest.length + 1)
    (masterWidth s.mons (rest.length + 1)) (numgapsOf env (rest.length + 1)) hr hN'
    s.mons.clients s.mem a rest hnd ht
  constructor
  · intro h0
    have hu : u32 s.mons.nmaster = 0 := by rw [h0]; rfl
    have hmw : masterWidth s.mons (rest.length + 1) = 0 := by
      unfold masterWidth
      rw [hu, if_pos (by omega), if_neg (by simpa using h0)]
    refine ⟨hmw, ?_⟩
    rw [htile, hw, hmw, hu]
    simp
  · intro h0 h1
    have hu : u32 s.mons.nmaster = s.mons.nmaster.toNat := by
      unfold u32
      rw [Int.emod_eq_of_lt (by omega) (by omega)]
    have hlt : u32 s.mons.nmaster < rest.length + 1 := by
      rw [hu]; omega
    have hpos : 0 < u32 s.mons.nmaster := by
      rw [hu]; omega
    have hmw : masterWidth s.mons (rest.length + 1)
        = u32 (truncQ (f32 (f32 (s.mons.ww : Rat) * s.mons.mfact))) := by
      unfold masterWidth
      rw [if_pos hlt, if_pos (by omega)]
    refine ⟨hmw, ?_⟩
    rw [htile, hw, hmw, if_pos hpos]

theorem wideNarrowed_reachable : Reachable wideScreen wideNarrowed :=
  Reachable.setmfact mfactDown (Reachable.setmfact mfactDown
    (Reachable.manage 2 102 plainWindow
      (Reachable.manage 1 101 plainWindow (Reachable.init zeroMem) (by decide) (by decide))
      (by decide!) (by decide!)))

/-- C30 fails as stated.  In `noMaster` the master count is 0 and two clients are tiled on
a usable width of 1024; the master width is 0, not 1024, and both clients are in the stack
column, at `x = 0` with the width 1022 that, with the borders, is the whole usable width.
In `wideNarrowed`, reached on a screen 1280 pixels wide by two presses of the key that
narrows the master area, the master count is 1, two clients are tiled and the split factor
is the `float` `0.45f = 7549747 / 2^24`, a little below 0.45: the usable width times the
split factor is `575.99998...`, which truncates to 575, but `tile` multiplies in single
precision, where the product rounds to 576, and the master width is 576. -/
theorem tile_no_master_width :
    (noMaster.mons.nmaster = 0 ∧ tiledClients noMaster = [2, 1] ∧ noMaster.mons.ww = 1024
      ∧ masterWidth noMaster.mons 2 = 0
      ∧ ((tile configDef noMaster).mem 2).x = 0 ∧ ((tile configDef noMaster).mem 2).w = 1022
      ∧ ((tile configDef noMaster).mem 1).x = 0 ∧ ((tile configDef noMaster).mem 1).w = 1022)
    ∧ (Reachable wideScreen wideNarrowed
      ∧ wideNarrowed.mons.nmaster = 1 ∧ tiledClients wideNarrowed = [2, 1]
      ∧ wideNarrowed.mons.ww = 1280 ∧ wideNarrowed.mons.mfact = 7549747 / 16777216
      ∧ truncQ ((wideNarrowed.mons.ww : Rat) * wideNarrowed.mons.mfact) = 575
      ∧ masterWidth wideNarrowed.mons 2 = 576
      ∧ ((tile wideScreen wideNarrowed).mem 2).w = 574) :=
  ⟨by decide!, wideNarrowed_reachable, by decide!, by decide!, by decide!, by decide!,
    by decide!, by decide!, by decide!⟩

/-- Witness for C30: in `threeClients` the master count is 1, the usable width is 1024 and
the split factor `0.55f`: the master width is 563 and the master client 3 gets the width
561; in `noMaster` the first tiled client gets the width 1022. -/
theorem tile_master_width_witness :
    masterWidth threeClients.mons 3 = 563
    ∧ ((tile configDef threeClients).mem 3).w = 561
    ∧ masterWidth noMaster.mons 2 = 0
    ∧ ((tile configDef noMaster).mem 2).w = 1022 := by
  have h := tile_master_width configDef threeClients 3 [2, 1] rfl (by decide!) (by decide!)
    (by decide!) (by decide)
  have h0 := tile_master_width configDef noMaster 2 [1] rfl (by decide!) (by decide!)
    (by decide!) (by decide)
  have ha := h.2 (by decide!) (by decide!)
  have hb := h0.1 (by decide!)
  exact ⟨ha.1.trans (by decide!), ha.2.trans (by decide!), hb.1, hb.2.trans (by decide!)⟩

/-! ## Fullscreen -/

/-- C32: for every client `c` that is not fullscreen, `setfullscreen(c, True)` gives it the
geometry `mx`, `my`, `mw`, `mh` of the monitor with border width 0 and marks it floating
and fullscreen; a following `setfullscreen(c, False)` is `arrange` run on a state in which
`c` is no longer fullscreen and has the border width, the floating flag and the geometry
`x`, `y`, `w`, `h` it had before; `arrange` keeps the border width and the two flags. -/
theorem setfullscreen_roundtrip (env : Env) (s : WM) (c : Nat)
    (_hnf : (s.mem c).isfullscreen = false) :
    ((setfullscreen env s c true).mem c).x = s.mons.mx
    ∧ ((setfullscreen env s c true).mem c).y = s.mons.my
    ∧ ((setfullscreen env s c true).mem c).w = s.mons.mw
    ∧ ((setfullscreen env s c true).mem c).h = s.mons.mh
    ∧ ((setfullscreen env s c true).mem c).bw = 0
    ∧ ((setfullscreen env s c true).mem c).isfloating = true
    ∧ ((setfullscreen env s c true).mem c).isfullscreen = true
    ∧ (∃ t : WM, setfullscreen env (setfullscreen env s c true) c false = arrange env t
        ∧ (t.mem c).isfullscreen = false
        ∧ (t.mem c).bw = (s.mem c).bw
        ∧ (t.mem c).isfloating = (s.mem c).isfloating
        ∧ (t.mem c).x = (s.mem c).x ∧ (t.mem c).y = (s.mem c).y
        ∧ (t.mem c).w = (s.mem c).w ∧ (t.mem c).h = (s.mem c).h)
    ∧ ((setfullscreen env (setfullscreen env s c true) c false).mem c).isfullscreen = false
    ∧ ((setfullscreen env (setfullscreen env s c true) c false).mem c).bw = (s.mem c).bw
    ∧ ((setfullscreen env (setfullscreen env s c true) c false).mem c).isfloating
        = (s.mem c).isfloating := by
  have h1 : (setfullscreen env s c true).mem c = enterfullscreen s.mons (s.mem c) := by
    simp [setfullscreen, WM.store]
  have h2 : setfullscreen env (setfullscreen env s c true) c false
      = arrange env ((setfullscreen env s c true).store c
          (leavefullscreen (enterfullscreen s.mons (s.mem c)))) := by
    rw [← h1]
    simp [setfullscreen]
  have h3 : ((setfullscreen env s c true).store c
      (leavefullscreen (enterfullscreen s.mons (s.mem c)))).mem c
      = leavefullscreen (enterfullscreen s.mons (s.mem c)) := by
    simp [WM.store]
  have hg := arrange_mem env ((setfullscreen env s c true).store c
      (leavefullscreen (enterfullscreen s.mons (s.mem c)))) c
  rw [h3] at hg
  refine ⟨?_, ?_, ?_, ?_, ?_, ?_, ?_, ⟨_, h2, ?_⟩, ?_, ?_, ?_⟩
  · rw [h1]; rfl
  · rw [h1]; rfl
  · rw [h1]; rfl
  · rw [h1]; rfl
  · rw [h1]; rfl
  · rw [h1]; rfl
  · rw [h1]; rfl
  · rw [h3]
    exact ⟨rfl, rfl, rfl, rfl, rfl, rfl, rfl⟩
  · rw [h2, hg]
    rfl
  · rw [h2, sameButGeom_bw hg]
    rfl
  · rw [h2, sameButGeom_isfloating hg]
    rfl

/-- Witness for C32: the tiled client 2 of `twoClients` has border width 1; made
fullscreen it covers the monitor, 1024 by 768, without border, and leaving fullscreen
gives it back its border width 1 and makes it tiled again. -/
theorem setfullscreen_roundtrip_witness :
    ((setfullscreen configDef twoClients 2 true).mem 2).w = 1024
    ∧ ((setfullscreen configDef twoClients 2 true).mem 2).bw = 0
    ∧ ((setfullscreen configDef (setfullscreen configDef twoClients 2 true) 2 false).mem 2).bw
        = 1
    ∧ ((setfullscreen configDef (setfullscreen configDef twoClients 2 true) 2
        false).mem 2).isfloating = false := by
  have h := setfullscreen_roundtrip configDef twoClients 2 (by decide!)
  exact ⟨h.2.2.1.trans (by decide!), h.2.2.2.2.1, h.2.2.2.2.2.2.2.2.2.1.trans (by decide!),
    h.2.2.2.2.2.2.2.2.2.2.trans (by decide!)⟩

/-- C40, evaluated where it fails: the tiled client 2 of `twoClients` has border width 1.
After it asked twice to be made fullscreen its saved border width is 0 and its saved
floating flag is set, and the request to leave fullscreen leaves it floating, without
border and as large as the monitor. -/
theorem setfullscreen_twice_loses_restore :
    (twoClients.mem 2).bw = 1 ∧ (twoClients.mem 2).isfloating = false
    ∧ (twoClients.mem 2).w = 561
    ∧ (fullscreenTwice.mem 2).isfullscreen = true
    ∧ (fullscreenTwice.mem 2).oldbw = 0 ∧ (fullscreenTwice.mem 2).oldstate = true
    ∧ (fullscreenTwice.mem 2).oldw = 1024
    ∧ ((clientmessage configDef fullscreenTwice 102 (XClientMessage.netWMState 0 true)).mem
        2).isfullscreen = false
    ∧ ((clientmessage configDef fullscreenTwice 102 (XClientMessage.netWMState 0 true)).mem
        2).bw = 0
    ∧ ((clientmessage configDef fullscreenTwice 102 (XClientMessage.netWMState 0 true)).mem
        2).isfloating = true
    ∧ ((clientmessage configDef fullscreenTwice 102 (XClientMessage.netWMState 0 true)).mem
        2).w = 1024 := by
  decide!

/-! ## Size hints: the floor of the returned size -/

/-- C33, as amended: in either mode and for every request, the width and the height
returned by `applysizehints` are at least 1 when the size hints are skipped, and, when
they apply, the width is at least 1 for every client whose minimum width is at least 1 and
whose maximum width is 0 or at least 1, and likewise the height. -/
theorem applysizehints_floor (env : Env) (m : Monitor) (c : Client) (x y w h : Int)
    (interact : Bool) :
    ((env.resizehints || c.isfloating || (m.lt m.sellt).arrange.isNone) = false →
      1 ≤ (applysizehints env m c x y w h interact).w
      ∧ 1 ≤ (applysizehints env m c x y w h interact).h)
    ∧ (1 ≤ c.minw → (c.maxw = 0 ∨ 1 ≤ c.maxw) →
        1 ≤ (applysizehints env m c x y w h interact).w)
    ∧ (1 ≤ c.minh → (c.maxh = 0 ∨ 1 ≤ c.maxh) →
        1 ≤ (applysizehints env m c x y w h interact).h) := by
  have h2 := bh_ge_two env
  obtain ⟨e1, e2⟩ := applysizehints_size env m c x y w h interact
  have hw : ∀ w0 h0, 1 ≤ c.minw → (c.maxw = 0 ∨ 1 ≤ c.maxw) → 1 ≤ (hintsize c w0 h0).1 := by
    intro w0 h0 hmin hmax
    unfold hintsize
    dsimp only
    split
    · exact le_min (le_trans hmin (le_max_right _ _)) (by omega)
    · exact le_trans hmin (le_max_right _ _)
  have hh : ∀ w0 h0, 1 ≤ c.minh → (c.maxh = 0 ∨ 1 ≤ c.maxh) → 1 ≤ (hintsize c w0 h0).2 := by
    intro w0 h0 hmin hmax
    unfold hintsize
    dsimp only
    split
    · exact le_min (le_trans hmin (le_max_right _ _)) (by omega)
    · exact le_trans hmin (le_max_right _ _)
  refine ⟨fun hs => ?_, fun hmin hmax => ?_, fun hmin hmax => ?_⟩
  · rw [e1, e2, hs]
    simp only [Bool.false_eq_true, if_false]
    exact ⟨le_trans (by omega) (le_max_right _ _), le_trans (by omega) (le_max_right _ _)⟩
  · rw [e1]
    split
    · exact hw _ _ hmin hmax
    · exact le_trans (by omega) (le_max_right _ _)
  · rw [e2]
    split
    · exact hh _ _ hmin hmax
    · exact le_trans (by omega) (le_max_right _ _)

/-- C33 fails as stated: the floating client `coarseClient` has the width increment 100,
no minimum size and every other hint zero; asked for the width 50 it gets the width 0. -/
theorem applysizehints_zero_width :
    coarseClient.incw = 100 ∧ coarseClient.minw = 0 ∧ coarseClient.maxw = 0
    ∧ (applysizehints configDef startState.mons coarseClient 0 18 50 50 false).w = 0
    ∧ (applysizehints configDef startState.mons coarseClient 0 18 50 50 true).w = 0 := by
  decide

/-- Witness for C33: the floating client `gridClient`, with minimum size 50x50, asked for
the size 1x1 gets a width of at least 1. -/
theorem applysizehints_floor_witness :
    1 ≤ (applysizehints configDef startState.mons gridClient 0 18 1 1 false).w
    ∧ 1 ≤ (applysizehints configDef startState.mons gridClient 0 18 1 1 false).h :=
  ⟨(applysizehints_floor configDef startState.mons gridClient 0 18 1 1 false).2.1
      (by decide) (Or.inl rfl),
    (applysizehints_floor configDef startState.mons gridClient 0 18 1 1 false).2.2
      (by decide) (Or.inl rfl)⟩

/-! ## `toggleview`: the shift by the canonical index -/

theorem allTagsViewed_reachable : Reachable configDef allTagsViewed :=
  Reachable.view allOnes startState_reachable

/-- C36, evaluated where it fails: after `view(~0)` from the start state, a state reached
by `view` alone, the canonical index is 0; `toggleview(1)` gives the non-empty tag-set 6
and evaluates `1 << (curtag - 1)` with the unsigned amount `0 - 1 = 4294967295`, which is
not a defined shift. -/
theorem toggleview_shift_undefined :
    Reachable configDef allTagsViewed
    ∧ allTagsViewed.mons.pertag.curtag = 0
    ∧ allTagsViewed.mons.tagset allTagsViewed.mons.seltags ^^^ (1 &&& TAGMASK configDef) = 6
    ∧ u32 ((allTagsViewed.mons.pertag.curtag : Int) - 1) = 4294967295
    ∧ shl1 (u32 ((allTagsViewed.mons.pertag.curtag : Int) - 1)) = none
    ∧ (toggleview configDef allTagsViewed 1).isNone = true :=
  ⟨allTagsViewed_reachable, by decide!, by decide!, by decide!, by decide!, by decide!⟩

/-! ## The canonical index and the active tag-set -/

theorem lowbit_mask_spec (env : Env) {ui : Nat} (hn : env.ntags ≤ 32)
    (h0 : ui &&& TAGMASK env ≠ 0) :
    ui.testBit (lowbit ui) = true ∧ lowbit ui < env.ntags
    ∧ (ui &&& TAGMASK env).testBit (lowbit ui) = true := by
  obtain ⟨k, hk⟩ := Nat.ne_zero_implies_bit_true h0
  rw [testBit_and_mask] at hk
  simp only [Bool.and_eq_true, decide_eq_true_eq] at hk
  obtain ⟨hb, hlow⟩ := lowbitFrom_spec ui 32 0 (fun j hj => absurd hj (Nat.not_lt_zero j))
    ⟨k, by omega, hk.1⟩
  have hle : lowbit ui ≤ k := by
    by_contra hlt
    have := hlow k (by unfold lowbit at hlt; omega)
    rw [this] at hk
    exact absurd hk.1 (by simp)
  have hlt : lowbit ui < env.ntags := by omega
  refine ⟨hb, hlt, ?_⟩
  rw [testBit_and_mask]
  show (ui.testBit (lowbit ui) && decide (lowbit ui < env.ntags)) = true
  rw [show ui.testBit (lowbit ui) = true from hb]
  simp [hlt]

theorem lowbit_valid_spec (env : Env) {v : Nat} (hn : env.ntags ≤ 32) (hv : ValidTags env v) :
    v.testBit (lowbit v) = true ∧ lowbit v < env.ntags := by
  have h0 : v &&& TAGMASK env ≠ 0 := by rw [hv.2]; exact hv.1
  obtain ⟨h1, h2, _⟩ := lowbit_mask_spec env hn h0
  exact ⟨h1, h2⟩

/-- What a run of `toggleview` does to the tag-set and to the two indices; `c1` and `p1`
are the indices after the branch `newtagset == ~0`, and `bit` is the value of the shift
expression. -/
theorem toggleviewRun_index (env : Env) (s : WM) (ui undef : Nat) :
    toggleviewRun env s ui undef = s
    ∨ (s.mons.tagset s.mons.seltags ^^^ (ui &&& TAGMASK env) ≠ 0
      ∧ (toggleviewRun env s ui undef).mons.seltags = s.mons.seltags
      ∧ (toggleviewRun env s ui undef).mons.tagset
          = Function.update s.mons.tagset s.mons.seltags
              (s.mons.tagset s.mons.seltags ^^^ (ui &&& TAGMASK env))
      ∧ ∃ c1 p1 bit,
          c1 = (if s.mons.tagset s.mons.seltags ^^^ (ui &&& TAGMASK env) = allOnes then 0
                else s.mons.pertag.curtag)
          ∧ p1 = (if s.mons.tagset s.mons.seltags ^^^ (ui &&& TAGMASK env) = allOnes
                  then s.mons.pertag.curtag else s.mons.pertag.prevtag)
          ∧ bit = (shl1 (u32 ((c1 : Int) - 1))).getD undef
          ∧ ((s.mons.tagset s.mons.seltags ^^^ (ui &&& TAGMASK env)) &&& bit ≠ 0
              ∧ (toggleviewRun env s ui undef).mons.pertag.curtag = c1
              ∧ (toggleviewRun env s ui undef).mons.pertag.prevtag = p1
            ∨ (s.mons.tagset s.mons.seltags ^^^ (ui &&& TAGMASK env)) &&& bit = 0
              ∧ (toggleviewRun env s ui undef).mons.pertag.curtag
                  = lowbit (s.mons.tagset s.mons.seltags ^^^ (ui &&& TAGMASK env)) + 1
              ∧ (toggleviewRun env s ui undef).mons.pertag.prevtag = c1)) := by
  unfold toggleviewRun
  dsimp only
  by_cases h0 : s.mons.tagset s.mons.seltags ^^^ (ui &&& TAGMASK env) = 0
  · left
    rw [if_neg (by simpa using h0)]
  · right
    rw [if_pos h0]
    refine ⟨h0, ?_, ?_, _, _, _, rfl, rfl, rfl, ?_⟩
    · simp [loadpertag]
    · simp [loadpertag]
    · by_cases hall : s.mons.tagset s.mons.seltags ^^^ (ui &&& TAGMASK env) = allOnes
      · simp only [hall, if_true]
        by_cases hb : allOnes &&& (shl1 (u32 (-1))).getD undef = 0
        · right
          simp [loadpertag, hb]
        · left
          simp [loadpertag, hb]
      · simp only [hall, if_false]
        by_cases hb : (s.mons.tagset s.mons.seltags ^^^ (ui &&& TAGMASK env))
            &&& (shl1 (u32 ((s.mons.pertag.curtag : Int) - 1))).getD undef = 0
        · right
          simp [loadpertag, hb]
        · left
          simp [loadpertag, hb]

/-- The shift `1 << (curtag - 1)` is defined for an index from 1 to 32. -/
theorem shl1_index {c : Nat} (h1 : 1 ≤ c) (h32 : c ≤ 32) :
    shl1 (u32 ((c : Int) - 1)) = some (1 <<< (c - 1)) := by
  have hu : u32 ((c : Int) - 1) = c - 1 := by
    unfold u32
    rw [Int.emod_eq_of_lt (by omega) (by omega)]
    omega
  rw [hu]
  unfold shl1
  rw [if_pos (by omega)]

theorem view_index (env : Env) (s : WM) (ui : Nat) :
    view env s ui = s
    ∨ (ui &&& TAGMASK env ≠ 0
        ∧ (view env s ui).mons.tagset (view env s ui).mons.seltags = ui &&& TAGMASK env
        ∧ (view env s ui).mons.pertag.curtag = (if ui = allOnes then 0 else lowbit ui + 1)
        ∧ (view env s ui).mons.pertag.prevtag = s.mons.pertag.curtag)
    ∨ (ui &&& TAGMASK env = 0
        ∧ (view env s ui).mons.tagset = s.mons.tagset
        ∧ (view env s ui).mons.pertag.curtag = s.mons.pertag.prevtag
        ∧ (view env s ui).mons.pertag.prevtag = s.mons.pertag.curtag) := by
  by_cases h1 : ui &&& TAGMASK env = s.mons.tagset s.mons.seltags
  · left
    unfold view
    dsimp only
    rw [if_pos h1]
  · right
    obtain ⟨a1, a2, a3, _⟩ := view_fields env s ui h1
    by_cases h0 : ui &&& TAGMASK env = 0
    · right
      rw [if_neg (by simpa using h0)] at a2 a3
      exact ⟨h0, a2, by rw [a3], by rw [a3]⟩
    · left
      rw [if_pos h0] at a2 a3
      refine ⟨h0, ?_, by rw [a3], by rw [a3]⟩
      rw [a1, a2]
      simp

theorem view_indexInv {env : Env} {s : WM} (ui : Nat) (hn : env.ntags ≤ 32)
    (hi : IndexInv env s) : IndexInv env (view env s ui) := by
  rcases view_index env s ui with h | ⟨h0, _, h2, h3⟩ | ⟨_, _, h2, h3⟩
  · rw [h]; exact hi
  · refine ⟨?_, by rw [h3]; exact hi.1⟩
    rw [h2]
    split
    · exact Nat.zero_le _
    · have := (lowbit_mask_spec env hn h0).2.1
      omega
  · exact ⟨by rw [h2]; exact hi.2, by rw [h3]; exact hi.1⟩

theorem toggleviewRun_indexInv {env : Env} {s : WM} (ui undef : Nat) (hn : env.ntags ≤ 31)
    (ht : TagInv env s) (hi : IndexInv env s) :
    IndexInv env (toggleviewRun env s ui undef) := by
  rcases toggleviewRun_index env s ui undef with h1 | ⟨h0, _, _, c1, p1, bit, hc1, hp1, _, h7⟩
  · rw [h1]; exact hi
  · have hc1le : c1 ≤ env.ntags := by
      rw [hc1]
      split
      · exact Nat.zero_le _
      · exact hi.1
    have hp1le : p1 ≤ env.ntags := by
      rw [hp1]
      split
      · exact hi.1
      · exact hi.2
    rcases h7 with ⟨_, e1, e2⟩ | ⟨_, e1, e2⟩
    · exact ⟨by rw [e1]; exact hc1le, by rw [e2]; exact hp1le⟩
    · refine ⟨?_, by rw [e2]; exact hc1le⟩
      rw [e1]
      have hv : ValidTags env (s.mons.tagset s.mons.seltags ^^^ (ui &&& TAGMASK env)) :=
        validTags_xor env (ht.1 _) h0
      have := (lowbit_valid_spec env (by omega) hv).2
      omega

theorem IndexInv.of_pertag {env : Env} {s t : WM}
    (h1 : t.mons.pertag.curtag = s.mons.pertag.curtag)
    (h2 : t.mons.pertag.prevtag = s.mons.pertag.prevtag) (hi : IndexInv env s) :
    IndexInv env t := by
  unfold IndexInv
  rw [h1, h2]
  exact hi

theorem IndexInv.of_same_params {env : Env} {s t : WM} (h : t.mons.params = s.mons.params)
    (hi : IndexInv env s) : IndexInv env t := by
  simp only [Monitor.params, Prod.mk.injEq] at h
  exact IndexInv.of_pertag (by rw [h.2.2.2.2]) (by rw [h.2.2.2.2]) hi

theorem incnmaster_indexInv {env : Env} {s : WM} (i : Int) (hi : IndexInv env s) :
    IndexInv env (incnmaster env s i) := by
  apply IndexInv.of_pertag _ _ hi
  · unfold incnmaster
    rw [arrange_pertag]
  · unfold incnmaster
    rw [arrange_pertag]

theorem setmfact_indexInv {env : Env} {s : WM} (f : Rat) (hi : IndexInv env s) :
    IndexInv env (setmfact env s f) := by
  unfold setmfact
  split
  · exact hi
  · dsimp only
    generalize (if f < 1 then f32 (f + s.mons.mfact) else f32 (f64 (f - 1))) = g
    by_cases hg : g < f64 (1 / 10) ∨ g > f64 (9 / 10)
    · rw [if_pos hg]; exact hi
    · rw [if_neg hg]
      exact IndexInv.of_pertag (by rw [arrange_pertag]) (by rw [arrange_pertag]) hi

theorem setlayout_indexInv {env : Env} {s : WM} (v : Option Layout) (hi : IndexInv env s) :
    IndexInv env (setlayout env s v) := by
  unfold setlayout
  dsimp only
  split
  · exact IndexInv.of_pertag (by rw [arrange_pertag]) (by rw [arrange_pertag]) hi
  · exact hi

theorem initial_pertag (env : Env) (mem : Nat → Client) :
    (initial env mem).mons.pertag.curtag = 1 ∧ (initial env mem).mons.pertag.prevtag = 1
    ∧ (initial env mem).mons.tagset = (fun _ => 1)
    ∧ (initial env mem).mons.seltags = false := by
  simp only [initial, updategeom, updatebarpos]
  split
  · split <;> exact ⟨rfl, rfl, rfl, rfl⟩
  · exact ⟨rfl, rfl, rfl, rfl⟩

/-- In every reachable state the canonical index and the previous index are at most the
number of tags. -/
theorem reachable_indexInv {env : Env} {s : WM} (hn1 : 1 ≤ env.ntags) (hn : env.ntags ≤ 31)
    (h : Reachable env s) : IndexInv env s := by
  induction h with
  | init mem =>
    obtain ⟨h1, h2, _, _⟩ := initial_pertag env mem
    exact ⟨by rw [h1]; exact hn1, by rw [h2]; exact hn1⟩
  | manage a w xw _ _ _ ih => exact IndexInv.of_same_params (manage_params _ _ _ _ _) ih
  | unmanage c _ _ ih => exact IndexInv.of_same_params (unmanage_params _ _ _) ih
  | tag ui _ ih => exact IndexInv.of_same_params (tag_params _ _ _) ih
  | toggletag ui _ ih => exact IndexInv.of_same_params (toggletag_params _ _ _) ih
  | view ui _ ih => exact view_indexInv ui (by omega) ih
  | toggleview ui undef hs ih =>
    exact toggleviewRun_indexInv ui undef hn (reachable_tagInv hn1 hs) ih
  | clientmessage window msg _ ih => exact IndexInv.of_same_params (clientmessage_params _ _ _ _) ih
  | incnmaster i _ ih => exact incnmaster_indexInv i ih
  | setmfact f _ ih => exact setmfact_indexInv f ih
  | setlayout v _ ih => exact setlayout_indexInv v ih
  | togglebar _ ih => exact IndexInv.of_same_params (togglebar_params _ _) ih
  | togglefloating _ ih => exact IndexInv.of_same_params (togglefloating_params _ _) ih
  | focus c _ _ ih => exact IndexInv.of_same_params (focus_params _ _) ih
  | focusstack i _ ih => exact IndexInv.of_same_params (focusstack_params _ _) ih
  | zoom _ hz ih => exact IndexInv.of_same_params (zoom_params _ _ _ hz) ih

theorem TagReachable.reachable {env : Env} {s : WM} (h : TagReachable env s) :
    Reachable env s := by
  induction h with
  | init mem => exact Reachable.init mem
  | view ui _ _ ih => exact Reachable.view ui ih
  | toggleview ui undef _ ih => exact Reachable.toggleview ui undef ih

/-- C34, as amended: with between 1 and 31 tags, in every state reached from the initial
state by `view` with an argument that has a valid bit (`ui & TAGMASK` is not zero) and by
every run of `toggleview` (also the runs from the canonical index 0, whatever the value of
their undefined shift), the canonical index is either 0 or an index `k >= 1` such that the
tag `k` (the bit `k - 1`) is in the active tag-set. -/
theorem index_in_active_tagset (env : Env) (s : WM) (hn1 : 1 ≤ env.ntags)
    (hn : env.ntags ≤ 31) (h : TagReachable env s) :
    s.mons.pertag.curtag = 0
    ∨ (1 ≤ s.mons.pertag.curtag
      ∧ s.mons.tagset s.mons.seltags &&& (1 <<< (s.mons.pertag.curtag - 1)) ≠ 0) := by
  induction h with
  | init mem =>
    obtain ⟨h1, _, h3, h4⟩ := initial_pertag env mem
    right
    rw [h1, h3]
    refine ⟨le_refl 1, ?_⟩
    show (1 : Nat) &&& 1 <<< (1 - 1) ≠ 0
    decide
  | view ui hs h0 ih =>
    rename_i s0
    rcases view_index env s0 ui with h | ⟨_, h1, h2, _⟩ | ⟨hz, _, _, _⟩
    · rw [h]; exact ih
    · rw [h1, h2]
      by_cases hall : ui = allOnes
      · left; rw [if_pos hall]
      · right
        rw [if_neg hall]
        refine ⟨by omega, ?_⟩
        rw [Nat.add_sub_cancel]
        exact (and_shl_ne_zero_iff _ _).mpr (lowbit_mask_spec env (by omega) h0).2.2
    · exact absurd hz h0
  | toggleview ui undef hs ih =>
    rename_i s0
    have hr := hs.reachable
    have hi := reachable_indexInv hn1 hn hr
    have hti := reachable_tagInv hn1 hr
    rcases toggleviewRun_index env s0 ui undef with
      h1 | ⟨h0, e5, e6, c1, p1, bit, hc1, _, hbit, h7⟩
    · rw [h1]; exact ih
    · have hact : (toggleviewRun env s0 ui undef).mons.tagset
            (toggleviewRun env s0 ui undef).mons.seltags
          = s0.mons.tagset s0.mons.seltags ^^^ (ui &&& TAGMASK env) := by
        rw [e5, e6]; simp
      rw [hact]
      rcases h7 with ⟨hb, e1, _⟩ | ⟨_, e1, _⟩
      · rw [e1]
        by_cases hz : c1 = 0
        · exact Or.inl hz
        · right
          have hc : c1 = s0.mons.pertag.curtag := by
            rw [hc1]
            split
            · rename_i hall
              rw [hall, if_pos rfl] at hc1
              exact absurd hc1 hz
            · rfl
          have hle : c1 ≤ 32 := by
            have := hi.1
            omega
          rw [shl1_index (by omega) hle] at hbit
          rw [hbit] at hb
          exact ⟨by omega, hb⟩
      · right
        rw [e1, Nat.add_sub_cancel]
        have hv : ValidTags env (s0.mons.tagset s0.mons.seltags ^^^ (ui &&& TAGMASK env)) :=
          validTags_xor env (hti.1 _) h0
        exact ⟨by omega, (and_shl_ne_zero_iff _ _).mpr (lowbit_valid_spec env (by omega) hv).1⟩

theorem toggleview_getD_reachable {env : Env} {s : WM} (ui : Nat) (h : Reachable env s) :
    Reachable env ((toggleview env s ui).getD s) := by
  cases ht : toggleview env s ui with
  | none => exact h
  | some t => exact reachable_of_toggleview ui h ht

theorem staleIndex_reachable : Reachable configDef staleIndex := by
  have h1 : Reachable configDef (view configDef startState 2) :=
    Reachable.view 2 startState_reachable
  have h2 := toggleview_getD_reachable 1 h1
  have e2 : (toggleview configDef (view configDef startState 2) 1).getD
      (view configDef startState 2)
      = (toggleview configDef (view configDef startState 2) 1).getD startState := by
    cases h : toggleview configDef (view configDef startState 2) 1 with
    | none =>
      have : (toggleview configDef (view configDef startState 2) 1).isSome = true := by decide!
      rw [h] at this
      cases this
    | some t => rfl
  rw [e2] at h2
  have h3 := toggleview_getD_reachable 2 h2
  have e3 : (toggleview configDef
      ((toggleview configDef (view configDef startState 2) 1).getD startState) 2).getD
      ((toggleview configDef (view configDef startState 2) 1).getD startState)
      = backOnTagOne := by
    unfold backOnTagOne
    cases h : toggleview configDef
        ((toggleview configDef (view configDef startState 2) 1).getD startState) 2 with
    | none =>
      have : (toggleview configDef
        ((toggleview configDef (view configDef startState 2) 1).getD startState) 2).isSome
          = true := by decide!
      rw [h] at this
      cases this
    | some t => rfl
  rw [e3] at h3
  exact Reachable.view 0 h3

/-- C34 fails as stated: from the start state `view(2)`, `toggleview(1)`, `toggleview(2)`
lead to a view of tag 1 with the canonical index 1 and the previous index 2; `view(0)` then
returns to the other tag-set slot, which holds tag 1, and takes the previous index 2 as the
canonical index: the index is 2 while tag 2 (bit 1) is not in the active tag-set 1. -/
theorem index_not_in_active_tagset :
    Reachable configDef staleIndex
    ∧ backOnTagOne.mons.pertag.curtag = 1 ∧ backOnTagOne.mons.pertag.prevtag = 2
    ∧ staleIndex.mons.pertag.curtag = 2
    ∧ staleIndex.mons.tagset staleIndex.mons.seltags = 1
    ∧ staleIndex.mons.tagset staleIndex.mons.seltags
        &&& (1 <<< (staleIndex.mons.pertag.curtag - 1)) = 0 :=
  ⟨staleIndex_reachable, by decide!, by decide!, by decide!, by decide!, by decide!⟩

/-- Witness for C34: after `view(6)` from the start state the canonical index is 2, and
tag 2 is in the active tag-set 6; and in `indexPastShift`, after `view(~0)` and a run of
`toggleview(1)` from the canonical index 0, the index is 2 and the active tag-set is 6. -/
theorem index_in_active_tagset_witness :
    ((view configDef startState 6).mons.pertag.curtag = 2
      ∧ (view configDef startState 6).mons.tagset (view configDef startState 6).mons.seltags
          &&& (1 <<< (2 - 1)) ≠ 0)
    ∧ (allTagsViewed.mons.pertag.curtag = 0
      ∧ indexPastShift.mons.pertag.curtag = 2
      ∧ indexPastShift.mons.tagset indexPastShift.mons.seltags = 6
      ∧ indexPastShift.mons.tagset indexPastShift.mons.seltags &&& (1 <<< (2 - 1)) ≠ 0) := by
  have hc : (view configDef startState 6).mons.pertag.curtag = 2 := by decide!
  have hc2 : indexPastShift.mons.pertag.curtag = 2 := by decide!
  have h := index_in_active_tagset configDef (view configDef startState 6) (by decide)
    (by decide) (TagReachable.view 6 (TagReachable.init zeroMem) (by decide))
  have h2 := index_in_active_tagset configDef indexPastShift (by decide) (by decide)
    (TagReachable.toggleview 1 2147483648
      (TagReachable.view allOnes (TagReachable.init zeroMem) (by decide)))
  refine ⟨?_, by decide!, hc2, by decide!, ?_⟩
  · rcases h with h | h
    · rw [hc] at h
      cases h
    · rw [hc] at h
      exact ⟨hc, h.2⟩
  · rcases h2 with h2 | h2
    · rw [hc2] at h2
      cases h2
    · rw [hc2] at h2
      exact h2.2

/-- C35: with between 1 and 31 tags (the limit checked when `ldwm.c` is compiled), in
every reachable state (reached from the monitor of `createmon` by `view`, every run of
`toggleview`, the client messages and the other commands): both tag-set slots are non-zero subsets of
`TAGMASK`; the canonical and the previous index are at most the number of tags, so they
are valid indices of the `Pertag` arrays of length `LENGTH(tags) + 1`; and the searches for
the lowest set bit end at a set bit below the number of tags: the one of `view` for every
argument that has a valid bit, the one of `toggleview` for every non-empty new tag-set. -/
theorem pertag_index_bounds (env : Env) (s : WM) (hn1 : 1 ≤ env.ntags) (hn : env.ntags ≤ 31)
    (h : Reachable env s) :
    (∀ b, s.mons.tagset b ≠ 0 ∧ s.mons.tagset b &&& TAGMASK env = s.mons.tagset b)
    ∧ s.mons.pertag.curtag < env.ntags + 1
    ∧ s.mons.pertag.prevtag < env.ntags + 1
    ∧ (∀ ui, ui &&& TAGMASK env ≠ 0 →
        ui &&& (1 <<< lowbit ui) ≠ 0 ∧ lowbit ui < env.ntags)
    ∧ (∀ ui, s.mons.tagset s.mons.seltags ^^^ (ui &&& TAGMASK env) ≠ 0 →
        (s.mons.tagset s.mons.seltags ^^^ (ui &&& TAGMASK env))
            &&& (1 <<< lowbit (s.mons.tagset s.mons.seltags ^^^ (ui &&& TAGMASK env))) ≠ 0
        ∧ lowbit (s.mons.tagset s.mons.seltags ^^^ (ui &&& TAGMASK env)) < env.ntags) := by
  have hti := reachable_tagInv hn1 h
  have hi := reachable_indexInv hn1 hn h
  refine ⟨hti.1, Nat.lt_succ_of_le hi.1, Nat.lt_succ_of_le hi.2, ?_, ?_⟩
  · intro ui h0
    obtain ⟨h1, h2, _⟩ := lowbit_mask_spec env (by omega) h0
    exact ⟨(and_shl_ne_zero_iff _ _).mpr h1, h2⟩
  · intro ui h0
    have hv := validTags_xor env (hti.1 s.mons.seltags) h0
    obtain ⟨h1, h2⟩ := lowbit_valid_spec env (by omega) hv
    exact ⟨(and_shl_ne_zero_iff _ _).mpr h1, h2⟩

/-- Witness for C35: in `staleIndex` both tag-set slots hold tag 1 and the indices are 2
and 1, below 4; in `indexPastShift`, after `view(~0)` and a run of `toggleview(1)` from the
canonical index 0, the indices are 2 and 0. -/
theorem pertag_index_bounds_witness :
    (staleIndex.mons.pertag.curtag = 2 ∧ staleIndex.mons.pertag.curtag < 3 + 1
      ∧ staleIndex.mons.pertag.prevtag < 3 + 1
      ∧ staleIndex.mons.tagset true ≠ 0)
    ∧ (allTagsViewed.mons.pertag.curtag = 0
      ∧ indexPastShift.mons.pertag.curtag = 2 ∧ indexPastShift.mons.pertag.prevtag = 0
      ∧ indexPastShift.mons.pertag.curtag < 3 + 1
      ∧ indexPastShift.mons.pertag.prevtag < 3 + 1
      ∧ indexPastShift.mons.tagset indexPastShift.mons.seltags ≠ 0) := by
  have h := pertag_index_bounds configDef staleIndex (by decide) (by decide)
    staleIndex_reachable
  have h2 := pertag_index_bounds configDef indexPastShift (by decide) (by decide)
    (Reachable.toggleview 1 2147483648 allTagsViewed_reachable)
  exact ⟨⟨by decide!, h.2.1, h.2.2.1, (h.1 true).1⟩,
    by decide!, by decide!, by decide!, h2.2.1, h2.2.2.1,
    (h2.1 indexPastShift.mons.seltags).1⟩

/-! ## `zoom` -/

theorem FocusInv.of_same_views {s t : WM} (h1 : t.tagview = s.tagview) (h2 : t.listview = s.listview)
    (h3 : t.mons.seltags = s.mons.seltags) (hi : FocusInv s) : FocusInv t := by
  simp only [WM.tagview, Prod.mk.injEq] at h1
  simp only [WM.listview, Prod.mk.injEq] at h2
  intro hn a ha
  rw [h2.2.2] at hn
  rw [h2.2.1] at ha
  have := hi hn a ha
  have ht : (t.mem a).tags = (s.mem a).tags := congrFun h1.2.2 a
  simpa only [ISVISIBLE, ht, h1.1, h3] using this

theorem focus_focusInv (s : WM) (c : Option Nat) : FocusInv (focus s c) := by
  intro hn a ha
  rw [focus_sel] at hn
  rw [focus_none hn] at ha
  have hfv : firstvisible s.mons s.mem s.mons.stack = none := by
    cases c with
    | none => exact hn
    | some b =>
      simp only [focustarget] at hn
      split at hn
      · exact hn
      · cases hn
  rw [firstvisible_eq_find, List.find?_eq_none] at hfv
  have hv := hfv a ha
  simpa only [ISVISIBLE, focus_tagset, focus_seltags, focus_mem_tags, Bool.not_eq_true] using hv

theorem arrange_focusInv {env : Env} {s : WM} (hi : FocusInv s) : FocusInv (arrange env s) :=
  FocusInv.of_same_views (arrange_tagview _ _) (arrange_listview _ _) (arrange_seltags _ _) hi

theorem pop_focusInv (env : Env) (s : WM) (c : Nat) : FocusInv (pop env s c) :=
  arrange_focusInv (focus_focusInv _ _)

theorem clientmessage_focusInv {env : Env} {s : WM} (window : Nat) (msg : XClientMessage)
    (hi : FocusInv s) : FocusInv (clientmessage env s window msg) := by
  cases msg with
  | netWMState action fs =>
    simp only [clientmessage]
    split
    · exact hi
    · split
      · exact FocusInv.of_same_views (setfullscreen_tagview _ _ _ _) (setfullscreen_listview _ _ _ _)
          (setfullscreen_seltags _ _ _ _) hi
      · exact hi
  | netActiveWindow =>
    simp only [clientmessage]
    split
    · exact hi
    · exact pop_focusInv _ _ _
  | other => exact hi

theorem zoom_focusInv {env : Env} {s t : WM} (hi : FocusInv s) (h : zoom env s = some t) :
    FocusInv t := by
  unfold zoom at h
  dsimp only at h
  split at h
  · cases h; exact hi
  · split at h
    · split at h
      · cases h; exact hi
      · split at h
        · cases h; exact hi
        · cases h
          exact pop_focusInv _ _ _
    · split at h
      · cases h
      · cases h
        exact pop_focusInv _ _ _

/-- In every reachable state, when no client is selected no client is visible. -/
theorem reachable_focusInv {env : Env} {s : WM} (h : Reachable env s) : FocusInv s := by
  induction h with
  | init mem =>
    have h : (initial env mem).listview = ([], [], none) := by
      simp only [initial, updategeom, updatebarpos, WM.listview]
      split
      · split <;> rfl
      · rfl
    simp only [WM.listview, Prod.mk.injEq] at h
    intro _ a ha
    rw [h.2.1] at ha
    cases ha
  | manage a w xw _ ha hs ih => exact focus_focusInv _ _
  | unmanage c _ _ ih => exact arrange_focusInv (focus_focusInv _ _)
  | tag ui _ ih =>
    unfold tag
    split
    · split
      · exact arrange_focusInv (focus_focusInv _ _)
      · exact ih
    · exact ih
  | toggletag ui _ ih =>
    unfold toggletag
    split
    · exact ih
    · dsimp only
      split
      · exact arrange_focusInv (focus_focusInv _ _)
      · exact ih
  | view ui _ ih =>
    unfold view
    dsimp only
    split
    · exact ih
    · exact arrange_focusInv (focus_focusInv _ _)
  | toggleview ui undef _ ih =>
    unfold toggleviewRun
    dsimp only
    split
    · exact arrange_focusInv (focus_focusInv _ _)
    · exact ih
  | clientmessage window msg _ ih => exact clientmessage_focusInv window msg ih
  | incnmaster i _ ih =>
    exact FocusInv.of_same_views (incnmaster_tagview _ _ _) (incnmaster_listview _ _ _)
      (incnmaster_seltags _ _ _) ih
  | setmfact f _ ih =>
    exact FocusInv.of_same_views (setmfact_tagview _ _ _) (setmfact_listview _ _ _)
      (setmfact_seltags _ _ _) ih
  | setlayout v _ ih =>
    exact FocusInv.of_same_views (setlayout_tagview _ _ _) (setlayout_listview _ _ _)
      (setlayout_seltags _ _ _) ih
  | togglebar _ ih =>
    exact FocusInv.of_same_views (togglebar_tagview _ _) (togglebar_listview _ _)
      (togglebar_seltags _ _) ih
  | togglefloating _ ih =>
    exact FocusInv.of_same_views (togglefloating_tagview _ _) (togglefloating_listview _ _)
      (togglefloating_seltags _ _) ih
  | focus c _ _ ih => exact focus_focusInv _ _
  | focusstack i _ ih =>
    unfold focusstack
    split
    · exact ih
    · dsimp only
      split
      · exact focus_focusInv _ _
      · exact ih
  | zoom _ hz ih => exact zoom_focusInv ih hz

theorem nexttiled_head (m : Monitor) (mem : Nat → Client) (l : List Nat) :
    (nexttiled m mem l).head? = (tiled m mem l).head? := by
  cases hn : nexttiled m mem l with
  | nil =>
    rw [← tiled_nexttiled, hn]
    rfl
  | cons c cnext =>
    rw [nexttiled_head_tiled m mem hn]
    rfl

theorem mem_tiled {m : Monitor} {mem : Nat → Client} {l : List Nat} {a : Nat} :
    a ∈ tiled m mem l ↔ a ∈ l ∧ (mem a).isfloating = false ∧ ISVISIBLE m (mem a) = true := by
  unfold tiled
  rw [List.mem_filter]
  cases (mem a).isfloating <;> cases ISVISIBLE m (mem a) <;> simp

theorem tiled_chainAfter {m : Monitor} {mem : Nat → Client} {l : List Nat} {c : Nat}
    {t : List Nat} (h : tiled m mem l = c :: t) : tiled m mem (chainAfter c l) = t := by
  induction l with
  | nil => cases h
  | cons b l ih =>
    by_cases hb : ((mem b).isfloating || !ISVISIBLE m (mem b)) = true
    · rw [tiled_cons, if_pos hb] at h
      have hbc : b ≠ c := by
        rintro rfl
        have hm : b ∈ tiled m mem l := by rw [h]; exact List.mem_cons_self _ _
        obtain ⟨_, h1, h2⟩ := mem_tiled.mp hm
        rw [h1, h2] at hb
        cases hb
      rw [chainAfter, if_neg hbc]
      exact ih h
    · rw [tiled_cons, if_neg hb] at h
      cases h
      rw [chainAfter, if_pos rfl]

theorem pop_moves (env : Env) (s : WM) (c : Nat) (hv : ISVISIBLE s.mons (s.mem c) = true) :
    (pop env s c).mons.clients = c :: s.mons.clients.erase c
    ∧ (pop env s c).mons.sel = some c := by
  unfold pop
  constructor
  · rw [arrange_clients, focus_clients]
    simp [attach, detach, unlink_chainAfter]
  · rw [arrange_sel, focus_sel]
    have : ISVISIBLE (attach (detach s c) c).mons ((attach (detach s c) c).mem c) = true := hv
    simp [focustarget, this]

/-- C39: in every reachable state whose selected layout has an arrange function, `zoom`
never calls `pop` with `NULL`.  It returns the state unchanged when no client is selected,
when the selected client is floating, and when the selected client is the only tiled
client; otherwise it calls `pop` on one client of the insertion list that is visible and
not floating, which moves that client to the head of the insertion list and selects it:
the selected client itself when it is not the first tiled client, and otherwise the tiled
client that follows it. -/
theorem zoom_safe (env : Env) (s : WM) (hr : Reachable env s)
    (harr : (s.mons.lt s.mons.sellt).arrange ≠ none) :
    (zoom env s).isSome = true
    ∧ (s.mons.sel = none → zoom env s = some s)
    ∧ ∀ c, s.mons.sel = some c →
        ((s.mem c).isfloating = true → zoom env s = some s)
        ∧ ((s.mem c).isfloating = false →
            (tiledClients s = [c] → zoom env s = some s)
            ∧ ((tiledClients s).head? ≠ some c →
                zoom env s = some (pop env s c)
                ∧ c ∈ s.mons.clients ∧ ISVISIBLE s.mons (s.mem c) = true
                ∧ (pop env s c).mons.clients = c :: s.mons.clients.erase c
                ∧ (pop env s c).mons.sel = some c)
            ∧ (∀ c1 rest, tiledClients s = c :: c1 :: rest →
                zoom env s = some (pop env s c1)
                ∧ c1 ∈ s.mons.clients ∧ ISVISIBLE s.mons (s.mem c1) = true
                ∧ (s.mem c1).isfloating = false
                ∧ (pop env s c1).mons.clients = c1 :: s.mons.clients.erase c1
                ∧ (pop env s c1).mons.sel = some c1)) := by
  have hN : (s.mons.lt s.mons.sellt).arrange.isNone = false := by
    cases h : (s.mons.lt s.mons.sellt).arrange with
    | none => exact absurd h harr
    | some f => rfl
  have hl := reachable_listInv hr
  have hsv := reachable_selInv hr
  have hfi := reachable_focusInv hr
  have hnone : s.mons.sel = none → zoom env s = some s := by
    intro hs
    have ht : tiled s.mons s.mem s.mons.clients = [] := by
      apply List.eq_nil_iff_forall_not_mem.mpr
      intro a ha
      obtain ⟨h1, _, h3⟩ := mem_tiled.mp ha
      have := hfi hs a ((hl.2.2.1 a).mpr h1)
      rw [this] at h3
      cases h3
    unfold zoom
    simp only [hs, hN, Bool.or_self, Bool.false_eq_true, if_false, nexttiled_head, ht,
      List.head?_nil, if_true]
  have hsome : ∀ c, s.mons.sel = some c →
      ((s.mem c).isfloating = true → zoom env s = some s)
      ∧ ((s.mem c).isfloating = false →
          (tiledClients s = [c] → zoom env s = some s)
          ∧ ((tiledClients s).head? ≠ some c →
              zoom env s = some (pop env s c)
              ∧ c ∈ s.mons.clients ∧ ISVISIBLE s.mons (s.mem c) = true
              ∧ (pop env s c).mons.clients = c :: s.mons.clients.erase c
              ∧ (pop env s c).mons.sel = some c)
          ∧ (∀ c1 rest, tiledClients s = c :: c1 :: rest →
              zoom env s = some (pop env s c1)
              ∧ c1 ∈ s.mons.clients ∧ ISVISIBLE s.mons (s.mem c1) = true
              ∧ (s.mem c1).isfloating = false
              ∧ (pop env s c1).mons.clients = c1 :: s.mons.clients.erase c1
              ∧ (pop env s c1).mons.sel = some c1)) := by
    intro c hs
    have hv := hsv c hs
    have hc : c ∈ s.mons.clients := (hl.2.2.1 c).mp (hl.2.2.2 c hs)
    refine ⟨fun hf => ?_, fun hf => ⟨fun ht => ?_, fun hh => ?_, fun c1 rest ht => ?_⟩⟩
    · unfold zoom
      simp only [hs, hf, Bool.or_true, if_true]
    · have ht2 : tiled s.mons s.mem s.mons.clients = [c] := ht
      have hnext := tiled_chainAfter ht2
      unfold zoom
      simp only [hs, hf, hN, Bool.or_self, Bool.false_eq_true, if_false, nexttiled_head, ht2,
        List.head?_cons, if_true, hnext, List.head?_nil]
    · have hh2 : ¬ (some c = (tiled s.mons s.mem s.mons.clients).head?) := fun e => hh e.symm
      refine ⟨?_, hc, hv, pop_moves env s c hv⟩
      unfold zoom
      simp only [hs, hf, hN, Bool.or_self, Bool.false_eq_true, if_false, nexttiled_head, hh2]
    · have ht2 : tiled s.mons s.mem s.mons.clients = c :: c1 :: rest := ht
      have hnext := tiled_chainAfter ht2
      have hm : c1 ∈ tiled s.mons s.mem s.mons.clients := by
        rw [ht2]; exact List.mem_cons_of_mem _ (List.mem_cons_self _ _)
      obtain ⟨m1, m2, m3⟩ := mem_tiled.mp hm
      refine ⟨?_, m1, m3, m2, pop_moves env s c1 m3⟩
      unfold zoom
      simp only [hs, hf, hN, Bool.or_self, Bool.false_eq_true, if_false, nexttiled_head, ht2,
        List.head?_cons, if_true, hnext]
  refine ⟨?_, hnone, hsome⟩
  cases hs : s.mons.sel with
  | none => rw [hnone hs]; rfl
  | some c =>
    obtain ⟨h1, h2⟩ := hsome c hs
    cases hf : (s.mem c).isfloating with
    | true => rw [h1 hf]; rfl
    | false =>
      obtain ⟨a1, a2, a3⟩ := h2 hf
      by_cases hh : (tiledClients s).head? = some c
      · cases ht : tiledClients s with
        | nil => rw [ht] at hh; cases hh
        | cons b l =>
          rw [ht] at hh
          simp only [List.head?_cons, Option.some.injEq] at hh
          subst hh
          cases l with
          | nil => rw [a1 ht]; rfl
          | cons c1 rest => rw [(a3 c1 rest ht).1]; rfl
      · rw [(a2 hh).1]; rfl

/-- Witness for C39: in `threeClients` (tile layout, insertion list `[3, 2, 1]`, client 3
selected and first tiled) `zoom` moves the client 2 to the head of the list and selects
it. -/
theorem zoom_safe_witness :
    zoom configDef threeClients = some (pop configDef threeClients 2)
    ∧ (pop configDef threeClients 2).mons.clients = [2, 3, 1]
    ∧ (pop configDef threeClients 2).mons.sel = some 2 := by
  have hr : Reachable configDef threeClients :=
    Reachable.manage 3 103 plainWindow twoClients_reachable (by decide!) (by decide!)
  have h := ((zoom_safe configDef threeClients hr (by decide!)).2.2 3 (by decide!)).2
    (by decide!)
  have h3 := h.2.2 2 [1] (by decide!)
  exact ⟨h3.1, h3.2.2.2.2.1.trans (by decide!), h3.2.2.2.2.2⟩

/-! ## The tile layout: the shares of the master column -/

theorem tiled_update_of_not_mem (m : Monitor) (mem : Nat → Client) (b : Nat) (c : Client)
    (l : List Nat) (h : b ∉ l) : tiled m (Function.update mem b c) l = tiled m mem l := by
  unfold tiled
  apply List.filter_congr
  intro a ha
  have hab : a ≠ b := fun e => h (e ▸ ha)
  simp [Function.update, hab]

theorem tileLoop_xw (env : Env) (m : Monitor) (n mw g : Nat)
    (hr : env.resizehints = false) (harr : (m.lt m.sellt).arrange.isNone = false)
    (hwx0 : -2147483648 ≤ m.wx) (hww : m.ww < 2147483648) (hwxw : m.wx + m.ww < 2147483648)
    (hmw : (mw : Int) ≤ m.ww)
    (l : List Nat) (i my ty : Nat) (mem : Nat → Client) (hnd : l.Nodup)
    (hM : ∀ a ∈ (tiled m mem l).take (u32 m.nmaster - i),
        0 ≤ (mem a).bw ∧ bh env ≤ (mw : Int) - g * (mem a).bw)
    (hS : ∀ a ∈ (tiled m mem l).drop (u32 m.nmaster - i),
        0 ≤ (mem a).bw ∧ bh env ≤ m.ww - mw - 2 * (mem a).bw) :
    (∀ a ∈ (tiled m mem l).take (u32 m.nmaster - i),
        (tileLoop env m n mw g l i my ty mem a).x = m.wx
        ∧ (tileLoop env m n mw g l i my ty mem a).w = (mw : Int) - g * (mem a).bw)
    ∧ (∀ a ∈ (tiled m mem l).drop (u32 m.nmaster - i),
        (tileLoop env m n mw g l i my ty mem a).x = m.wx + mw
        ∧ (tileLoop env m n mw g l i my ty mem a).w = m.ww - mw - 2 * (mem a).bw) := by
  have hbh := bh_ge_two env
  induction l generalizing i my ty mem with
  | nil => simp [tiled]
  | cons b l ih =>
    have hbl : b ∉ l := (List.nodup_cons.mp hnd).1
    have hndl : l.Nodup := (List.nodup_cons.mp hnd).2
    by_cases hb : ((mem b).isfloating || !ISVISIBLE m (mem b)) = true
    · have e : tiled m mem (b :: l) = tiled m mem l := by rw [tiled_cons, if_pos hb]
      have e2 : tileLoop env m n mw g (b :: l) i my ty mem = tileLoop env m n mw g l i my ty mem := by
        rw [tileLoop]; simp only [hb, if_true]
      rw [e] at hM hS ⊢
      rw [e2]
      exact ih i my ty mem hndl hM hS
    · have e : tiled m mem (b :: l) = b :: tiled m mem l := by rw [tiled_cons, if_neg hb]
      have hf : (mem b).isfloating = false := by
        cases h : (mem b).isfloating
        · rfl
        · rw [h] at hb; simp at hb
      have hskip : (env.resizehints || (mem b).isfloating || (m.lt m.sellt).arrange.isNone)
          = false := by simp [hr, hf, harr]
      rw [e] at hM hS ⊢
      have hmem : ∀ (c1 : Client) (a : Nat), a ∈ tiled m mem l →
          Function.update mem b c1 a = mem a := by
        intro c1 a ha
        have hal : a ∈ l := (mem_tiled.mp ha).1
        have hab : a ≠ b := fun e => hbl (e ▸ hal)
        simp [Function.update, hab]
      by_cases hi : i < u32 m.nmaster
      · have hk : u32 m.nmaster - i = (u32 m.nmaster - (i + 1)) + 1 := by omega
        rw [hk] at hM hS ⊢
        rw [List.take_succ_cons] at hM ⊢
        rw [List.drop_succ_cons] at hS ⊢
        obtain ⟨hbw, hroom⟩ := hM b (List.mem_cons_self _ _)
        have hgb : (0 : Int) ≤ (g : Int) * (mem b).bw := Int.mul_nonneg (by omega) hbw
        have e2 : tileLoop env m n mw g (b :: l) i my ty mem
            = tileLoop env m n mw g l (i + 1)
                (u32 (my + HEIGHT (resize env m (mem b) m.wx (i32 (u32 (m.wy + my)))
                  (i32 (u32 ((mw : Int) - g * (mem b).bw)))
                  (i32 (u32 ((u32 (m.wh - my) / u32 ((minMaster n m.nmaster : Int) - i) : Nat)
                    - 2 * (mem b).bw))) false))) ty
                (Function.update mem b (resize env m (mem b) m.wx (i32 (u32 (m.wy + my)))
                  (i32 (u32 ((mw : Int) - g * (mem b).bw)))
                  (i32 (u32 ((u32 (m.wh - my) / u32 ((minMaster n m.nmaster : Int) - i) : Nat)
                    - 2 * (mem b).bw))) false)) := by
          rw [tileLoop]; simp only [hb, hi, Bool.false_eq_true, if_false, if_true]
        rw [e2]
        generalize hc1 : resize env m (mem b) m.wx (i32 (u32 (m.wy + my)))
                  (i32 (u32 ((mw : Int) - g * (mem b).bw)))
                  (i32 (u32 ((u32 (m.wh - my) / u32 ((minMaster n m.nmaster : Int) - i) : Nat)
                    - 2 * (mem b).bw))) false = c1
        have hW : i32 (u32 ((mw : Int) - g * (mem b).bw)) = (mw : Int) - g * (mem b).bw :=
          i32_u32 (by omega) (by omega)
        have hxw : c1.x = m.wx ∧ c1.w = (mw : Int) - g * (mem b).bw := by
          rw [← hc1]
          obtain ⟨g1, _, g3, _⟩ := resize_geom env m (mem b) m.wx (i32 (u32 (m.wy + my)))
            (i32 (u32 ((mw : Int) - g * (mem b).bw)))
            (i32 (u32 ((u32 (m.wh - my) / u32 ((minMaster n m.nmaster : Int) - i) : Nat)
                    - 2 * (mem b).bw))) false
          obtain ⟨x1, x2⟩ := applysizehints_skip_xw env m (mem b) m.wx (i32 (u32 (m.wy + my)))
            (i32 (u32 ((mw : Int) - g * (mem b).bw)))
            (i32 (u32 ((u32 (m.wh - my) / u32 ((minMaster n m.nmaster : Int) - i) : Nat)
                    - 2 * (mem b).bw))) hskip (by omega) (by rw [hW]; omega)
            (by rw [hW]; omega)
          exact ⟨g1.trans x1, (g3.trans x2).trans hW⟩
        have et := tiled_update_of_not_mem m mem b c1 l hbl
        obtain ⟨i1, i2⟩ := ih (i + 1)
          (u32 (my + HEIGHT c1)) ty (Function.update mem b c1) hndl
          (by
            rw [et]
            intro a ha
            rw [hmem c1 a (List.mem_of_mem_take ha)]
            exact hM a (List.mem_cons_of_mem _ ha))
          (by
            rw [et]
            intro a ha
            rw [hmem c1 a (List.mem_of_mem_drop ha)]
            exact hS a ha)
        rw [et] at i1 i2
        constructor
        · intro a ha
          rcases List.mem_cons.mp ha with rfl | ha
          · rw [tileLoop_untouched _ _ _ _ _ _ _ _ _ _ a hbl, Function.update_same]
            exact hxw
          · have := i1 a ha
            rw [hmem c1 a (List.mem_of_mem_take ha)] at this
            exact this
        · intro a ha
          have := i2 a ha
          rw [hmem c1 a (List.mem_of_mem_drop ha)] at this
          exact this
      · have hk : u32 m.nmaster - i = 0 := by omega
        have hk2 : u32 m.nmaster - (i + 1) = 0 := by omega
        rw [hk] at hM hS ⊢
        rw [List.take_zero] at hM ⊢
        rw [List.drop_zero] at hS ⊢
        obtain ⟨hbw, hroom⟩ := hS b (List.mem_cons_self _ _)
        have e2 : tileLoop env m n mw g (b :: l) i my ty mem
            = tileLoop env m n mw g l (i + 1) my
                (u32 (ty + HEIGHT (resize env m (mem b) (i32 (u32 (m.wx + mw)))
                  (i32 (u32 (m.wy + ty))) (i32 (u32 (m.ww - mw - 2 * (mem b).bw)))
                  (i32 (u32 ((u32 (m.wh - ty) / u32 ((n : Int) - i) : Nat)
                    - 2 * (mem b).bw))) false)
                  - (2 - (g : Int)) * (resize env m (mem b) (i32 (u32 (m.wx + mw)))
                  (i32 (u32 (m.wy + ty))) (i32 (u32 (m.ww - mw - 2 * (mem b).bw)))
                  (i32 (u32 ((u32 (m.wh - ty) / u32 ((n : Int) - i) : Nat)
                    - 2 * (mem b).bw))) false).bw))
                (Function.update mem b (resize env m (mem b) (i32 (u32 (m.wx + mw)))
                  (i32 (u32 (m.wy + ty))) (i32 (u32 (m.ww - mw - 2 * (mem b).bw)))
                  (i32 (u32 ((u32 (m.wh - ty) / u32 ((n : Int) - i) : Nat)
                    - 2 * (mem b).bw))) false)) := by
          rw [tileLoop]; simp only [hb, hi, Bool.false_eq_true, if_false]
        rw [e2]
        generalize hc1 : resize env m (mem b) (i32 (u32 (m.wx + mw)))
                  (i32 (u32 (m.wy + ty))) (i32 (u32 (m.ww - mw - 2 * (mem b).bw)))
                  (i32 (u32 ((u32 (m.wh - ty) / u32 ((n : Int) - i) : Nat)
                    - 2 * (mem b).bw))) false = c1
        have hX : i32 (u32 (m.wx + mw)) = m.wx + mw := i32_u32 (by omega) (by omega)
        have hW : i32 (u32 (m.ww - mw - 2 * (mem b).bw)) = m.ww - mw - 2 * (mem b).bw :=
          i32_u32 (by omega) (by omega)
        have hxw : c1.x = m.wx + mw ∧ c1.w = m.ww - mw - 2 * (mem b).bw := by
          rw [← hc1]
          obtain ⟨g1, _, g3, _⟩ := resize_geom env m (mem b) (i32 (u32 (m.wx + mw)))
            (i32 (u32 (m.wy + ty))) (i32 (u32 (m.ww - mw - 2 * (mem b).bw)))
            (i32 (u32 ((u32 (m.wh - ty) / u32 ((n : Int) - i) : Nat)
                    - 2 * (mem b).bw))) false
          obtain ⟨x1, x2⟩ := applysizehints_skip_xw env m (mem b) (i32 (u32 (m.wx + mw)))
            (i32 (u32 (m.wy + ty))) (i32 (u32 (m.ww - mw - 2 * (mem b).bw)))
            (i32 (u32 ((u32 (m.wh - ty) / u32 ((n : Int) - i) : Nat)
                    - 2 * (mem b).bw))) hskip (by rw [hX]; omega) (by rw [hX, hW]; omega)
            (by rw [hW]; omega)
          exact ⟨(g1.trans x1).trans hX, (g3.trans x2).trans hW⟩
        have et := tiled_update_of_not_mem m mem b c1 l hbl
        obtain ⟨_, i2⟩ := ih (i + 1) my
          (u32 (ty + HEIGHT c1 - (2 - (g : Int)) * c1.bw)) (Function.update mem b c1) hndl
          (by
            rw [et, hk2, List.take_zero]
            intro a ha
            cases ha)
          (by
            rw [et, hk2, List.drop_zero]
            intro a ha
            rw [hmem c1 a ha]
            exact hS a (List.mem_cons_of_mem _ ha))
        rw [et, hk2, List.drop_zero] at i2
        constructor
        · intro a ha
          cases ha
        · intro a ha
          rcases List.mem_cons.mp ha with rfl | ha
          · rw [tileLoop_untouched _ _ _ _ _ _ _ _ _ _ a hbl, Function.update_same]
            exact hxw
          · have := i2 a ha
            rw [hmem c1 a ha] at this
            exact this

theorem take_minMaster (n : Nat) (nm : Int) (l : List Nat) (hl : l.length = n) :
    l.take (minMaster n nm) = l.take (u32 nm) ∧ l.drop (minMaster n nm) = l.drop (u32 nm) := by
  unfold minMaster
  split
  · rw [List.take_of_length_le (by omega), List.take_of_length_le (by omega),
      List.drop_of_length_le (by omega), List.drop_of_length_le (by omega)]
    exact ⟨rfl, rfl⟩
  · exact ⟨rfl, rfl⟩

/-- C31, as amended: for the tile layout when the size hints are skipped (`resizehints`
off, a layout with an arrange function), on a window area in the `int` range, with the
master width `mw` at most `ww`, non-negative border widths and every inner width asked for
at least the bar height: the master column holds exactly the first `min(M, N)` of the `N`
tiled clients and each of them is placed at `x = wx` with the inner width
`mw - numgaps*bw`; the stack column holds the remaining ones, each at `x = wx + mw` with
the inner width `ww - mw - 2*bw`; and when `N <= M` every tiled client is in the master
column and `mw` equals `ww`. -/
theorem tile_columns_width (env : Env) (s : WM) (hr : env.resizehints = false)
    (harr : (s.mons.lt s.mons.sellt).arrange ≠ none) (hnd : s.mons.clients.Nodup)
    (hnm0 : 0 ≤ s.mons.nmaster) (hnm1 : s.mons.nmaster < 2147483648)
    (hwx0 : -2147483648 ≤ s.mons.wx) (hww : s.mons.ww < 2147483648)
    (hwxw : s.mons.wx + s.mons.ww < 2147483648)
    (hmw : (masterWidth s.mons (tiledClients s).length : Int) ≤ s.mons.ww)
    (hroomM : ∀ a ∈ masterColumn s, 0 ≤ (s.mem a).bw
      ∧ bh env ≤ (masterWidth s.mons (tiledClients s).length : Int)
          - numgapsOf env (tiledClients s).length * (s.mem a).bw)
    (hroomS : ∀ a ∈ stackColumn s, 0 ≤ (s.mem a).bw
      ∧ bh env ≤ s.mons.ww - masterWidth s.mons (tiledClients s).length - 2 * (s.mem a).bw) :
    masterColumn s = (tiledClients s).take (min s.mons.nmaster.toNat (tiledClients s).length)
    ∧ stackColumn s = (tiledClients s).drop (min s.mons.nmaster.toNat (tiledClients s).length)
    ∧ (∀ a ∈ masterColumn s,
        ((tile env s).mem a).x = s.mons.wx
        ∧ ((tile env s).mem a).w = (masterWidth s.mons (tiledClients s).length : Int)
            - numgapsOf env (tiledClients s).length * (s.mem a).bw)
    ∧ (∀ a ∈ stackColumn s,
        ((tile env s).mem a).x = s.mons.wx + masterWidth s.mons (tiledClients s).length
        ∧ ((tile env s).mem a).w
            = s.mons.ww - masterWidth s.mons (tiledClients s).length - 2 * (s.mem a).bw)
    ∧ (((tiledClients s).length : Int) ≤ s.mons.nmaster →
        masterColumn s = tiledClients s ∧ stackColumn s = []
        ∧ (masterWidth s.mons (tiledClients s).length : Int) = s.mons.ww) := by
  have hN : (s.mons.lt s.mons.sellt).arrange.isNone = false := by
    cases h : (s.mons.lt s.mons.sellt).arrange with
    | none => exact absurd h harr
    | some f => rfl
  have hu : u32 s.mons.nmaster = s.mons.nmaster.toNat := by
    unfold u32
    rw [Int.emod_eq_of_lt hnm0 (by omega)]
  obtain ⟨tk, dk⟩ := take_minMaster (tiledClients s).length s.mons.nmaster (tiledClients s) rfl
  have hmin : minMaster (tiledClients s).length s.mons.nmaster
      = min s.mons.nmaster.toNat (tiledClients s).length := by
    unfold minMaster
    rw [hu]
    split <;> omega
  have hMc : masterColumn s = (tiledClients s).take (u32 s.mons.nmaster - 0) := tk
  have hSc : stackColumn s = (tiledClients s).drop (u32 s.mons.nmaster - 0) := dk
  have hww0 : 0 ≤ s.mons.ww := by omega
  refine ⟨by unfold masterColumn; rw [hmin], by unfold stackColumn; rw [hmin], ?_, ?_, ?_⟩
  · intro a ha
    by_cases h0 : (tiledClients s).length = 0
    · have e : tiledClients s = [] := List.length_eq_zero.mp h0
      rw [hMc, e] at ha
      simp at ha
    · have htile : (tile env s).mem
          = tileLoop env s.mons (tiledClients s).length
              (masterWidth s.mons (tiledClients s).length)
              (numgapsOf env (tiledClients s).length) s.mons.clients 0 0 0 s.mem := by
        unfold tile
        rw [counttiled_eq]
        have h0' : ¬ (tiled s.mons s.mem s.mons.clients).length = 0 := h0
        simp only [h0', if_false]
        rfl
      rw [htile]
      rw [hMc] at ha hroomM
      rw [hSc] at hroomS
      exact (tileLoop_xw env s.mons _ _ _ hr hN hwx0 hww hwxw hmw s.mons.clients 0 0 0 s.mem hnd
        hroomM hroomS).1 a ha
  · intro a ha
    by_cases h0 : (tiledClients s).length = 0
    · have e : tiledClients s = [] := List.length_eq_zero.mp h0
      rw [hSc, e] at ha
      simp at ha
    · have htile : (tile env s).mem
          = tileLoop env s.mons (tiledClients s).length
              (masterWidth s.mons (tiledClients s).length)
              (numgapsOf env (tiledClients s).length) s.mons.clients 0 0 0 s.mem := by
        unfold tile
        rw [counttiled_eq]
        have h0' : ¬ (tiled s.mons s.mem s.mons.clients).length = 0 := h0
        simp only [h0', if_false]
        rfl
      rw [htile]
      rw [hMc] at hroomM
      rw [hSc] at ha hroomS
      exact (tileLoop_xw env s.mons _ _ _ hr hN hwx0 hww hwxw hmw s.mons.clients 0 0 0 s.mem hnd
        hroomM hroomS).2 a ha
  · intro hle
    have hle2 : (tiledClients s).length ≤ u32 s.mons.nmaster := by
      rw [hu]; omega
    refine ⟨?_, ?_, ?_⟩
    · rw [hMc]
      exact List.take_of_length_le (by omega)
    · rw [hSc]
      exact List.drop_of_length_le (by omega)
    · unfold masterWidth
      rw [if_neg (by omega)]
      unfold u32
      rw [Int.emod_eq_of_lt hww0 (by omega)]
      omega

/-- C31 fails as stated: under `hintsOn` the one client of `hintedState` is tiled in the
master column with `mw = ww = 1024`, `numgaps = 2` and the border width 1, but its width
is 1000, the multiple of its resize increment 100 below `mw - numgaps*bw = 1022`. -/
theorem tile_width_hinted :
    hintsOn.resizehints = true
    ∧ tiledClients hintedState = [1] ∧ hintedState.mons.nmaster = 1
    ∧ masterWidth hintedState.mons 1 = 1024 ∧ numgapsOf hintsOn 1 = 2
    ∧ (hintedState.mem 1).bw = 1 ∧ (hintedState.mem 1).incw = 100
    ∧ ((tile hintsOn hintedState).mem 1).x = 0
    ∧ ((tile hintsOn hintedState).mem 1).w = 1000 := by
  decide!

/-- Witness for C31: in `threeClients` (master count 1, three tiled clients, `mw = 563`)
the client 3 is in the master column at `x = 0` with the width 561, and the clients 2 and
1 are in the stack column at `x = 563` with the width 459. -/
theorem tile_columns_width_witness :
    masterColumn threeClients = [3] ∧ stackColumn threeClients = [2, 1]
    ∧ ((tile configDef threeClients).mem 3).x = 0
    ∧ ((tile configDef threeClients).mem 3).w = 561
    ∧ ((tile configDef threeClients).mem 1).x = 563
    ∧ ((tile configDef threeClients).mem 1).w = 459 := by
  have h := tile_columns_width configDef threeClients rfl (by decide!) (by decide!) (by decide!)
    (by decide!) (by decide!) (by decide!) (by decide!) (by decide!) (by decide!) (by decide!)
  have hm := h.2.2.1 3 (by decide!)
  have hs := h.2.2.2.1 1 (by decide!)
  exact ⟨by decide!, by decide!, hm.1.trans (by decide!), hm.2.trans (by decide!),
    hs.1.trans (by decide!), hs.2.trans (by decide!)⟩

/-! ## `focusstack`: there and back -/

theorem not_mem_of_nodup_split {X Y : List Nat} {t : Nat} (h : (X ++ t :: Y).Nodup) : t ∉ X :=
  fun hm => (List.nodup_append.mp h).2.2 hm (List.mem_cons_self _ _)

theorem filter_nil_of_find_none {p : Nat → Bool} {l : List Nat} (h : l.find? p = none) :
    l.filter p = [] := by
  rw [List.find?_eq_none] at h
  exact List.filter_eq_nil_iff.mpr h

theorem getLast?_filter_split {p : Nat → Bool} {l : List Nat} {t : Nat}
    (h : (l.filter p).getLast? = some t) :
    ∃ l1 l2, l = l1 ++ t :: l2 ∧ p t = true ∧ l2.filter p = [] := by
  induction l with
  | nil => simp at h
  | cons b l ih =>
    cases hl : (l.filter p).getLast? with
    | some t2 =>
      have e : ((b :: l).filter p).getLast? = some t2 := by
        by_cases hb : p b = true
        · rw [List.filter_cons_of_pos hb]
          cases hf : l.filter p with
          | nil => rw [hf] at hl; simp at hl
          | cons x xs => rw [List.getLast?_cons_cons, ← hf, hl]
        · rw [List.filter_cons_of_neg hb, hl]
      rw [e] at h
      cases h
      obtain ⟨l1, l2, h1, h2, h3⟩ := ih hl
      exact ⟨b :: l1, l2, by rw [h1]; rfl, h2, h3⟩
    | none =>
      have hf : l.filter p = [] := by
        cases hf : l.filter p with
        | nil => rfl
        | cons x xs =>
          rw [hf] at hl
          have := List.getLast?_eq_none_iff.mp hl
          cases this
      by_cases hb : p b = true
      · rw [List.filter_cons_of_pos hb, hf] at h
        simp at h
        subst h
        exact ⟨[], l, rfl, hb, hf⟩
      · rw [List.filter_cons_of_neg hb, hf] at h
        simp at h

theorem next_then_prev (p : Nat → Bool) (c0 : Nat) (pre post : List Nat) (hp : p c0 = true)
    (hnd : (pre ++ c0 :: post).Nodup) (t : Nat)
    (ht : ((post.filter p).head?.or ((pre ++ c0 :: post).filter p).head?) = some t) :
    ∃ pre2 post2, pre ++ c0 :: post = pre2 ++ t :: post2 ∧ t ∉ pre2
      ∧ ((pre2.filter p).getLast?.or ((t :: post2).filter p).getLast?) = some c0 := by
  rw [List.filter_head?, List.filter_head?] at ht
  cases h1 : post.find? p with
  | some t1 =>
    rw [h1] at ht
    simp only [Option.or_some, Option.some.injEq] at ht
    subst ht
    obtain ⟨hpt, l1, l2, hpost, hl1⟩ := List.find?_eq_some.mp h1
    have hl1f : l1.filter p = [] := List.filter_eq_nil_iff.mpr (by simpa using hl1)
    have hsplit : pre ++ c0 :: post = (pre ++ c0 :: l1) ++ t1 :: l2 := by
      rw [hpost]; simp
    refine ⟨pre ++ c0 :: l1, l2, hsplit, not_mem_of_nodup_split (hsplit ▸ hnd), ?_⟩
    simp [List.filter_append, List.filter_cons, hp, hl1f]
  | none =>
    rw [h1] at ht
    simp only [Option.none_or] at ht
    rw [List.find?_append] at ht
    have hpostf := filter_nil_of_find_none h1
    cases h2 : pre.find? p with
    | some t2 =>
      rw [h2] at ht
      simp only [Option.or_some, Option.some.injEq] at ht
      subst ht
      obtain ⟨hpt, l1, l2, hpre, hl1⟩ := List.find?_eq_some.mp h2
      have hl1f : l1.filter p = [] := List.filter_eq_nil_iff.mpr (by simpa using hl1)
      have hsplit : pre ++ c0 :: post = l1 ++ t2 :: (l2 ++ c0 :: post) := by
        rw [hpre]; simp
      refine ⟨l1, l2 ++ c0 :: post, hsplit, not_mem_of_nodup_split (hsplit ▸ hnd), ?_⟩
      simp [List.filter_append, List.filter_cons, hp, hpt, hl1f, hpostf]
      exact List.getLast?_concat (t2 :: List.filter p l2)
    | none =>
      rw [h2] at ht
      simp only [Option.none_or, List.find?_cons, hp, Option.some.injEq] at ht
      subst ht
      have hpref := filter_nil_of_find_none h2
      refine ⟨pre, post, rfl, not_mem_of_nodup_split hnd, ?_⟩
      simp [List.filter_cons, hp, hpref, hpostf]

theorem prev_then_next (p : Nat → Bool) (c0 : Nat) (pre post : List Nat) (hp : p c0 = true)
    (hnd : (pre ++ c0 :: post).Nodup) (t : Nat)
    (ht : ((pre.filter p).getLast?.or ((c0 :: post).filter p).getLast?) = some t) :
    ∃ pre2 post2, pre ++ c0 :: post = pre2 ++ t :: post2 ∧ t ∉ pre2
      ∧ ((post2.filter p).head?.or ((pre2 ++ t :: post2).filter p).head?) = some c0 := by
  cases h1 : (pre.filter p).getLast? with
  | some t1 =>
    rw [h1] at ht
    simp only [Option.or_some, Option.some.injEq] at ht
    subst ht
    obtain ⟨l1, l2, hpre, hpt, hl2f⟩ := getLast?_filter_split h1
    have hsplit : pre ++ c0 :: post = l1 ++ t1 :: (l2 ++ c0 :: post) := by
      rw [hpre]; simp
    refine ⟨l1, l2 ++ c0 :: post, hsplit, not_mem_of_nodup_split (hsplit ▸ hnd), ?_⟩
    simp [List.filter_append, List.filter_cons, hp, hl2f]
  | none =>
    rw [h1] at ht
    simp only [Option.none_or] at ht
    have hpref : pre.filter p = [] := by
      cases hf : pre.filter p with
      | nil => rfl
      | cons x xs =>
        rw [hf] at h1
        have := List.getLast?_eq_none_iff.mp h1
        cases this
    cases h2 : (post.filter p).getLast? with
    | some t2 =>
      have e : ((c0 :: post).filter p).getLast? = some t2 := by
        rw [List.filter_cons_of_pos hp]
        cases hf : post.filter p with
        | nil => rw [hf] at h2; simp at h2
        | cons x xs => rw [List.getLast?_cons_cons, ← hf, h2]
      rw [e] at ht
      cases ht
      obtain ⟨l1, l2, hpost, hpt, hl2f⟩ := getLast?_filter_split h2
      have hsplit : pre ++ c0 :: post = (pre ++ c0 :: l1) ++ t :: l2 := by
        rw [hpost]; simp
      refine ⟨pre ++ c0 :: l1, l2, hsplit, not_mem_of_nodup_split (hsplit ▸ hnd), ?_⟩
      simp [List.filter_append, List.filter_cons, hp, hl2f, hpref]
    | none =>
      have hpostf : post.filter p = [] := by
        cases hf : post.filter p with
        | nil => rfl
        | cons x xs =>
          rw [hf] at h2
          have := List.getLast?_eq_none_iff.mp h2
          cases this
      rw [List.filter_cons_of_pos hp, hpostf] at ht
      simp at ht
      subst ht
      refine ⟨pre, post, rfl, not_mem_of_nodup_split hnd, ?_⟩
      simp [List.filter_append, List.filter_cons, hp, hpref, hpostf]

theorem focusstack_seltags (s : WM) (i : Int) :
    (focusstack s i).mons.seltags = s.mons.seltags := by
  unfold focusstack
  split
  · rfl
  · dsimp only
    split
    · exact focus_seltags _ _
    · rfl

theorem focusstack_visible (s : WM) (i : Int) :
    (fun a => ISVISIBLE (focusstack s i).mons ((focusstack s i).mem a))
      = (fun a => ISVISIBLE s.mons (s.mem a)) := by
  have h := focusstack_tagview s i
  simp only [WM.tagview, Prod.mk.injEq] at h
  funext a
  have ht : ((focusstack s i).mem a).tags = (s.mem a).tags := congrFun h.2.2 a
  simp only [ISVISIBLE, ht, h.1, focusstack_seltags]

theorem focusstack_clients (s : WM) (i : Int) :
    (focusstack s i).mons.clients = s.mons.clients := by
  have h := focusstack_tagview s i
  simp only [WM.tagview, Prod.mk.injEq] at h
  exact h.2.1

theorem focusstack_sel (s : WM) (i : Int) (c0 : Nat) (pre post : List Nat)
    (hsel : s.mons.sel = some c0) (hl : s.mons.clients = pre ++ c0 :: post) (hpre : c0 ∉ pre)
    (t : Nat) :
    (0 < i →
      ((post.filter (fun a => ISVISIBLE s.mons (s.mem a))).head?.or
        ((pre ++ c0 :: post).filter (fun a => ISVISIBLE s.mons (s.mem a))).head?) = some t →
      (focusstack s i).mons.sel = some t)
    ∧ (i ≤ 0 →
      ((pre.filter (fun a => ISVISIBLE s.mons (s.mem a))).getLast?.or
        ((c0 :: post).filter (fun a => ISVISIBLE s.mons (s.mem a))).getLast?) = some t →
      (focusstack s i).mons.sel = some t) := by
  obtain ⟨e1, e2, e3⟩ := @takeWhile_ne_split c0 pre post hpre
  constructor
  · intro hi ht
    cases h1 : (post.filter (fun a => ISVISIBLE s.mons (s.mem a))).head? with
    | some t1 =>
      rw [h1] at ht
      simp only [Option.or_some, Option.some.injEq] at ht
      subst ht
      unfold focusstack
      rw [hsel]
      simp only [hi, if_true, hl, e3, firstvisible_eq_head, h1]
      exact focus_sel_of_visible s (head?_filter_visible h1)
    | none =>
      rw [h1] at ht
      simp only [Option.none_or] at ht
      unfold focusstack
      rw [hsel]
      simp only [hi, if_true, hl, e3, firstvisible_eq_head, h1, ht]
      exact focus_sel_of_visible s (head?_filter_visible ht)
  · intro hi ht
    have hi2 : ¬ (0 < i) := by omega
    cases h1 : (pre.filter (fun a => ISVISIBLE s.mons (s.mem a))).getLast? with
    | some t1 =>
      rw [h1] at ht
      simp only [Option.or_some, Option.some.injEq] at ht
      subst ht
      unfold focusstack
      rw [hsel]
      simp only [hi2, if_false, hl, e1, e2, lastvisible_eq_getLast, h1]
      exact focus_sel_of_visible s (getLast?_filter_visible h1)
    | none =>
      rw [h1] at ht
      simp only [Option.none_or] at ht
      unfold focusstack
      rw [hsel]
      simp only [hi2, if_false, hl, e1, e2, lastvisible_eq_getLast, h1, ht]
      exact focus_sel_of_visible s (getLast?_filter_visible ht)

/-- C37: for every state in which the selected client `c0` is visible and in the insertion
list (a linked list, without repetition): `focusstack` with a positive direction followed
by `focusstack` with a non-positive direction selects `c0` again, and so does `focusstack`
with a non-positive direction followed by `focusstack` with a positive direction, whatever
visible and invisible clients the insertion list holds. -/
theorem focusstack_roundtrip (s : WM) (c0 : Nat) (i j : Int) (hi : 0 < i) (hj : j ≤ 0)
    (hsel : s.mons.sel = some c0) (hv : ISVISIBLE s.mons (s.mem c0) = true)
    (hc : c0 ∈ s.mons.clients) (hnd : s.mons.clients.Nodup) :
    (focusstack (focusstack s i) j).mons.sel = some c0
    ∧ (focusstack (focusstack s j) i).mons.sel = some c0 := by
  obtain ⟨pre, post, hl⟩ := List.append_of_mem hc
  have hnd2 : (pre ++ c0 :: post).Nodup := hl ▸ hnd
  have hpre : c0 ∉ pre := not_mem_of_nodup_split hnd2
  have hmem : c0 ∈ (pre ++ c0 :: post).filter (fun a => ISVISIBLE s.mons (s.mem a)) :=
    List.mem_filter.mpr ⟨by simp, hv⟩
  constructor
  · cases ht : ((post.filter (fun a => ISVISIBLE s.mons (s.mem a))).head?.or
        ((pre ++ c0 :: post).filter (fun a => ISVISIBLE s.mons (s.mem a))).head?) with
    | none =>
      exfalso
      cases h1 : (post.filter (fun a => ISVISIBLE s.mons (s.mem a))).head? with
      | some t1 => rw [h1] at ht; simp at ht
      | none =>
        rw [h1] at ht
        simp only [Option.none_or] at ht
        rw [List.head?_eq_none_iff] at ht
        rw [ht] at hmem
        cases hmem
    | some t =>
      have hs1 := (focusstack_sel s i c0 pre post hsel hl hpre t).1 hi ht
      obtain ⟨pre2, post2, hsplit, hnot, hback⟩ :=
        next_then_prev (fun a => ISVISIBLE s.mons (s.mem a)) c0 pre post hv hnd2 t ht
      have hl1 : (focusstack s i).mons.clients = pre2 ++ t :: post2 := by
        rw [focusstack_clients, hl, hsplit]
      apply (focusstack_sel (focusstack s i) j t pre2 post2 hs1 hl1 hnot c0).2 hj
      rw [focusstack_visible]
      exact hback
  · cases ht : ((pre.filter (fun a => ISVISIBLE s.mons (s.mem a))).getLast?.or
        ((c0 :: post).filter (fun a => ISVISIBLE s.mons (s.mem a))).getLast?) with
    | none =>
      exfalso
      have hm2 : c0 ∈ (c0 :: post).filter (fun a => ISVISIBLE s.mons (s.mem a)) :=
        List.mem_filter.mpr ⟨List.mem_cons_self _ _, hv⟩
      cases h1 : (pre.filter (fun a => ISVISIBLE s.mons (s.mem a))).getLast? with
      | some t1 => rw [h1] at ht; simp at ht
      | none =>
        rw [h1] at ht
        simp only [Option.none_or] at ht
        rw [List.getLast?_eq_none_iff] at ht
        rw [ht] at hm2
        cases hm2
    | some t =>
      have hs1 := (focusstack_sel s j c0 pre post hsel hl hpre t).2 hj ht
      obtain ⟨pre2, post2, hsplit, hnot, hback⟩ :=
        prev_then_next (fun a => ISVISIBLE s.mons (s.mem a)) c0 pre post hv hnd2 t ht
      have hl1 : (focusstack s j).mons.clients = pre2 ++ t :: post2 := by
        rw [focusstack_clients, hl, hsplit]
      apply (focusstack_sel (focusstack s j) i t pre2 post2 hs1 hl1 hnot c0).1 hi
      rw [focusstack_visible]
      exact hback

/-- Witness for C37: in `mixedStack` (insertion list `[3, 2, 1]`, client 2 selected, client
3 on a tag that is not viewed) `focusstack(+1)` selects the client 1 and a following
`focusstack(-1)` selects the client 2 again. -/
theorem focusstack_roundtrip_witness :
    (focusstack mixedStack 1).mons.sel = some 1
    ∧ (focusstack (focusstack mixedStack 1) (-1)).mons.sel = some 2
    ∧ (focusstack (focusstack mixedStack (-1)) 1).mons.sel = some 2 := by
  have h := focusstack_roundtrip mixedStack 2 1 (-1) (by decide) (by decide) (by decide!)
    (by decide!) (by decide!) (by decide!)
  exact ⟨by decide!, h.1, h.2⟩

end Ldwm
